import Mathlib

/-!
Verification of the dependency-graph analysis core of the ai-analyzer
repository (graph-builder, programmatic analyzer, parser validation).

The TypeScript source is shallowly embedded: the graphlib `Graph` object is
modelled as a record of node and edge lists in insertion order (JS objects
preserve string-key insertion order, and graphlib stores nodes and edges in
such objects), JS `Record<string, T>` values are modelled as ordered
association lists, JS string comparison (`<`, `localeCompare`, default
`Array.prototype.sort`) is modelled as the code-point order on `String`, and
JS `Array.prototype.sort` (stable since ES2019) is modelled as `List.mergeSort`.
Exceptions are modelled with `Except`.
-/

namespace AIAnalyzer

/-- Boolean code-point comparison of character lists, used to give the
code-point order on `String` a decision procedure that the kernel can
evaluate (the library instance `String.decidableLE` is iterator-based and
does not reduce). -/
def charListLe : List Char → List Char → Bool
  | [], _ => true
  | _ :: _, [] => false
  | a :: as, b :: bs =>
    if a.toNat = b.toNat then charListLe as bs else decide (a.toNat < b.toNat)

theorem charLt_iff (a b : Char) : a < b ↔ a.toNat < b.toNat :=
  Iff.intro (fun h => h) (fun h => h)

theorem charListLe_iff : ∀ x y : List Char, charListLe x y = true ↔ ¬ List.Lex (· < ·) y x
  | [], y => by
    simp only [charListLe]
    exact Iff.intro (fun _ h => by cases h) (fun _ => trivial)
  | a :: as, [] => by
    simp only [charListLe]
    exact Iff.intro (fun h => by cases h) (fun h => absurd List.Lex.nil h)
  | a :: as, b :: bs => by
    rw [charListLe]
    rcases Nat.lt_trichotomy a.toNat b.toNat with h | h | h
    · rw [if_neg (Nat.ne_of_lt h)]
      constructor
      · intro _ hc
        cases hc with
        | cons hc => omega
        | rel hc => rw [charLt_iff] at hc; omega
      · intro _
        exact decide_eq_true h
    · have hab : a = b := Char.eq_of_val_eq (UInt32.eq_of_val_eq (Fin.eq_of_val_eq h))
      subst hab
      rw [if_pos rfl, charListLe_iff as bs]
      constructor
      · intro hx hc
        cases hc with
        | cons hc => exact hx hc
        | rel hc => rw [charLt_iff] at hc; omega
      · intro hx hc
        exact hx (List.Lex.cons hc)
    · rw [if_neg (Nat.ne_of_gt h)]
      constructor
      · intro hc
        simp only [decide_eq_true_eq] at hc
        omega
      · intro hc
        exact absurd (List.Lex.rel ((charLt_iff b a).mpr h)) hc

theorem strLe_iff (a b : String) : charListLe a.toList b.toList = true ↔ a ≤ b := by
  rw [String.le_iff_toList_le, ← not_lt, charListLe_iff]
  exact Iff.intro (fun h hc => h hc) (fun h hc => h hc)

/-- Kernel-evaluable decision procedure for the code-point order on `String`,
which models the JS string comparison used by `Array.prototype.sort()` and
`localeCompare`. -/
def strLeDec : DecidableRel (fun a b : String => a ≤ b) := fun a b =>
  decidable_of_iff (charListLe a.toList b.toList = true) (strLe_iff a b)

theorem strLt_iff (a b : String) : charListLe b.toList a.toList = false ↔ a < b := by
  rw [← not_le, ← strLe_iff]
  cases charListLe b.toList a.toList <;> simp

/-- Kernel-evaluable decision procedure for strict code-point comparison. -/
def strLtDec : DecidableRel (fun a b : String => a < b) := fun a b =>
  decidable_of_iff (charListLe b.toList a.toList = false) (strLt_iff a b)

/-- `array.sort()` on an array of strings: stable sort in the JS string
order.  JS engines implement a stable sort; any stable sort yields the same
observable result, so it is modelled by insertion sort. -/
def jsSortStrings (l : List String) : List String :=
  @List.insertionSort String (fun a b => a ≤ b) strLeDec l

/-- An adjacency mapping `Record<string, string[]>`, modelled as an ordered
association list (JS objects preserve string-key insertion order). -/
abbrev AdjacencyMapping := List (String × List String)

/-- The graphlib directed graph (`new Graph({ directed: true })`), modelled by
its node list and edge list in insertion order.  graphlib stores nodes and
edges as string-keyed objects, so both lists are duplicate-free for every
graph actually constructed through the API. -/
structure Graph where
  nodes : List String
  edges : List (String × String)
deriving Repr, DecidableEq

/-- `new Graph({ directed: true })`: the empty graph. -/
def Graph.empty : Graph := ⟨[], []⟩

/-- `graph.setNode(v)`: inserts the node if not present (insertion order). -/
def Graph.setNode (g : Graph) (v : String) : Graph :=
  if v ∈ g.nodes then g else { g with nodes := g.nodes ++ [v] }

/-- `graph.setEdge(v, w)`: ensures both endpoints exist as nodes, then inserts
the directed edge if not present. -/
def Graph.setEdge (g : Graph) (v w : String) : Graph :=
  let g1 := (g.setNode v).setNode w
  if (v, w) ∈ g1.edges then g1 else { g1 with edges := g1.edges ++ [(v, w)] }

/-- `graph.nodes()`: all nodes in insertion order. -/
def Graph.nodeList (g : Graph) : List String := g.nodes

/-- `graph.successors(v)`: the distinct successors of `v`, in edge insertion
order (graphlib keeps them as keys of the object `_sucs[v]`). -/
def Graph.successors (g : Graph) (v : String) : List String :=
  (g.edges.filter (fun e => e.1 == v)).map (fun e => e.2)

/-- `graph.predecessors(v)`: the distinct predecessors of `v`, in edge
insertion order. -/
def Graph.predecessors (g : Graph) (v : String) : List String :=
  (g.edges.filter (fun e => e.2 == v)).map (fun e => e.1)

/-- `graph.hasEdge(v, w)`. -/
def Graph.hasEdge (g : Graph) (v w : String) : Bool := decide ((v, w) ∈ g.edges)

/-- `graph.nodeCount()`. -/
def Graph.nodeCount (g : Graph) : Nat := g.nodes.length

/-- `graph.edgeCount()`. -/
def Graph.edgeCount (g : Graph) : Nat := g.edges.length

/-- Well-formedness shared by every graph reachable through the graphlib API:
nodes and edges are duplicate-free and edge endpoints are nodes. -/
def Graph.WF (g : Graph) : Prop :=
  g.nodes.Nodup ∧ g.edges.Nodup ∧ ∀ e ∈ g.edges, e.1 ∈ g.nodes ∧ e.2 ∈ g.nodes

instance (g : Graph) : Decidable g.WF :=
  inferInstanceAs (Decidable (g.nodes.Nodup ∧ g.edges.Nodup ∧
    ∀ e ∈ g.edges, e.1 ∈ g.nodes ∧ e.2 ∈ g.nodes))

/-- `allNodes.add(n)` on the JS `Set` of `buildGraph`: a JS `Set` keeps its
elements in insertion order with duplicates ignored. -/
def insertUnique (acc : List String) (n : String) : List String :=
  if n ∈ acc then acc else acc ++ [n]

/-- `buildGraph` (graph-builder): collects the set of all source and target
files in first-occurrence order (a JS `Set` preserves insertion order), adds
them as nodes, then adds one edge per `(sourceFile, dependency)` pair. -/
def buildGraph (adjacency : AdjacencyMapping) : Graph :=
  let allNodes :=
    (adjacency.map Prod.fst ++ adjacency.flatMap Prod.snd).foldl insertUnique []
  let g := allNodes.foldl Graph.setNode Graph.empty
  adjacency.foldl (fun g p => p.2.foldl (fun g d => g.setEdge p.1 d) g) g

/-- `serializeAdjacency` (graph-builder): keys are the graph's nodes in sorted
order, each mapped to its sorted successor list. -/
def serializeAdjacency (g : Graph) : AdjacencyMapping :=
  (jsSortStrings g.nodes).map (fun n => (n, jsSortStrings (g.successors n)))

/-! ## graphlib `alg.tarjan` / `alg.findCycles`

`findCycles` in graph-builder calls graphlib's `alg.findCycles`, which is
`tarjan(g).filter(c => c.length > 1 || (c.length === 1 && g.hasEdge(c[0], c[0])))`.
`tarjan` is embedded below with explicit state passing; the mutable `visited`
object becomes an association list, and the recursion receives fuel (graphlib
bounds the recursion depth by the number of distinct nodes reached; a run out
of fuel returns the state unchanged and never occurs for the fuel chosen in
`tarjan`). The JS stack has its top at the end of the array; here the top is
at the head of the list. -/

/-- An entry of tarjan's `visited` map: `{ onStack, lowlink, index }`. -/
structure VisitedEntry where
  onStack : Bool
  lowlink : Nat
  index : Nat
deriving Repr, DecidableEq

/-- The mutable state of graphlib's `tarjan`. -/
structure TarjanState where
  index : Nat
  stack : List String
  visited : List (String × VisitedEntry)
  results : List (List String)
deriving Repr, DecidableEq

/-- `visited[w]` lookup (`Object.hasOwn` + read). -/
def vlookup (vs : List (String × VisitedEntry)) (w : String) : Option VisitedEntry :=
  vs.lookup w

/-- In-place update of the entry of an existing key of `visited`. -/
def ventryUpdate (vs : List (String × VisitedEntry)) (w : String)
    (f : VisitedEntry → VisitedEntry) : List (String × VisitedEntry) :=
  vs.map (fun p => if p.1 = w then (p.1, f p.2) else p)

/-- The `do/while` pop loop closing a strongly-connected component: pops the
stack down to and including `v`, clearing `onStack` and accumulating the
component in pop order.  Returns the remaining stack, the updated `visited`
and the component. -/
def tarjanPop (v : String) (stack : List String)
    (visited : List (String × VisitedEntry)) (cmpt : List String) :
    List String × List (String × VisitedEntry) × List String :=
  match stack with
  | [] => ([], visited, cmpt)
  | w :: rest =>
    let visited := ventryUpdate visited w (fun e => { e with onStack := false })
    let cmpt := cmpt ++ [w]
    if w = v then (rest, visited, cmpt) else tarjanPop v rest visited cmpt

/-- The body of the `forEach` over `g.successors(v)` inside `dfs`:
recursively visit an unvisited successor and fold its lowlink into `v`,
or fold in the index of a successor still on the stack. -/
def tarjanStep (dfs : String → TarjanState → TarjanState) (v : String)
    (s : TarjanState) (w : String) : TarjanState :=
  match vlookup s.visited w with
  | none =>
    let s := dfs w s
    match vlookup s.visited w with
    | some ew =>
      let vis := ventryUpdate s.visited v
        (fun e => { e with lowlink := min e.lowlink ew.lowlink })
      { s with visited := vis }
    | none => s
  | some ew =>
    if ew.onStack then
      let vis := ventryUpdate s.visited v
        (fun e => { e with lowlink := min e.lowlink ew.index })
      { s with visited := vis }
    else s

/-- The root check at the end of `dfs(v)`: when `v` is the root of its
strongly-connected component (`lowlink === index`), pop the component off
the stack and record it. -/
def tarjanClose (v : String) (s : TarjanState) : TarjanState :=
  match vlookup s.visited v with
  | some ev =>
    if ev.lowlink = ev.index then
      let r := tarjanPop v s.stack s.visited []
      { s with stack := r.1, visited := r.2.1, results := s.results ++ [r.2.2] }
    else s
  | none => s

/-- The recursive `dfs(v)` of graphlib's `tarjan`. -/
def tarjanDFS (g : Graph) (fuel : Nat) (v : String) (s : TarjanState) : TarjanState :=
  match fuel with
  | 0 => s
  | fuel + 1 =>
    let vIdx := s.index
    let s : TarjanState :=
      { s with
        visited := s.visited ++ [(v, ⟨true, vIdx, vIdx⟩)]
        index := s.index + 1
        stack := v :: s.stack }
    let s := (g.successors v).foldl
      (tarjanStep (fun w s' => tarjanDFS g fuel w s') v) s
    tarjanClose v s

/-- graphlib `alg.tarjan(g)`: runs `dfs` from every unvisited node in node
order.  The fuel bounds the dfs nesting depth, which never exceeds the number
of distinct node identifiers occurring in the graph. -/
def tarjan (g : Graph) : List (List String) :=
  let fuel := g.nodes.length + g.edges.length + 1
  let s := g.nodes.foldl
    (fun s v => if (vlookup s.visited v).isSome then s else tarjanDFS g fuel v s)
    ⟨0, [], [], []⟩
  s.results

/-- graphlib `alg.findCycles(g)`: the tarjan components with more than one
node, plus single nodes carrying a self-loop. -/
def algFindCycles (g : Graph) : List (List String) :=
  (tarjan g).filter (fun cmpt =>
    decide (cmpt.length > 1) || (cmpt.length == 1 && g.hasEdge (cmpt.headD "") (cmpt.headD "")))

/-- The comparator applied to the sorted cycles in `findCycles`, with
`a[0].localeCompare(b[0])` read in the code-point collation model: first
element by code-point order, then length ascending, as the `≤`-style
relation "the comparator result is `<= 0`".  The runtime collation need not
be code-point order; `CycleLEWith` below models the comparator for an
arbitrary collation, and this relation is `CycleLEWith codePointOrder`
(theorem `cycleLeWith_codePoint_iff`). -/
def CycleLE (a b : List String) : Prop :=
  a.headD "" < b.headD "" ∨ (a.headD "" = b.headD "" ∧ a.length ≤ b.length)

/-- Kernel-evaluable decision procedure for `CycleLE`. -/
def cycleLeDec : DecidableRel CycleLE := fun a b =>
  @instDecidableOr _ _ (strLtDec (a.headD "") (b.headD ""))
    (@instDecidableAnd _ _ (instDecidableEqString _ _) (Nat.decLe _ _))

/-- The body of the `try` block of `findCycles` (graph-builder): enumerate
cycles with `alg.findCycles`, sort the nodes within each cycle, then sort the
list of cycles by first element and length (a stable JS sort, modelled by
insertion sort).  The `Except` result models the possibility of the
enumeration throwing. -/
def findCyclesAttempt (g : Graph) : Except String (List (List String)) :=
  Except.ok (@List.insertionSort _ CycleLE cycleLeDec ((algFindCycles g).map jsSortStrings))

/-- The `catch` of `findCycles`: any error is logged and turned into the
empty cycle list. -/
def findCyclesRecover (r : Except String (List (List String))) : List (List String) :=
  match r with
  | .ok cycles => cycles
  | .error _ => []

/-- `findCycles` (graph-builder): the `try` body guarded by the recovering
`catch`. -/
def findCycles (g : Graph) : List (List String) :=
  findCyclesRecover (findCyclesAttempt g)

/-! ## Fan-in / fan-out and coupling -/

/-- The result record pair of `computeFanInOut`; each JS record is an ordered
association list keyed by the graph's nodes in insertion order. -/
structure FanInOut where
  fanIn : List (String × Nat)
  fanOut : List (String × Nat)
deriving Repr, DecidableEq

/-- `computeFanInOut` (graph-builder): for every node, the number of distinct
predecessors (fan-in) and distinct successors (fan-out); both records list
the nodes in `graph.nodes()` order. -/
def computeFanInOut (g : Graph) : FanInOut :=
  { fanIn := g.nodes.map (fun n => (n, (g.predecessors n).length))
    fanOut := g.nodes.map (fun n => (n, (g.successors n).length)) }

/-- An element of the `highFanIn` / `highFanOut` result arrays. -/
structure CouplingEntry where
  node : String
  count : Nat
deriving Repr, DecidableEq

/-- The comparator of `findHighCouplingNodes`, with the tie-break
`a.node.localeCompare(b.node)` read in the code-point collation model:
count descending, ties by node in code-point order, as the `≤`-style
relation "the comparator result is `<= 0`".  The runtime collation need not
be code-point order; `CouplingLEWith` below models the comparator for an
arbitrary collation, and this relation is `CouplingLEWith codePointOrder`
(theorem `couplingLeWith_codePoint_iff`). -/
def CouplingLE (a b : CouplingEntry) : Prop :=
  b.count < a.count ∨ (a.count = b.count ∧ a.node ≤ b.node)

/-- Kernel-evaluable decision procedure for `CouplingLE`. -/
def couplingLeDec : DecidableRel CouplingLE := fun a b =>
  @instDecidableOr _ _ (Nat.decLt _ _)
    (@instDecidableAnd _ _ (Nat.decEq _ _) (strLeDec a.node b.node))

/-- The result of `findHighCouplingNodes`. -/
structure HighCoupling where
  highFanIn : List CouplingEntry
  highFanOut : List CouplingEntry
deriving Repr, DecidableEq

/-- `findHighCouplingNodes` (graph-builder): keeps the entries whose count
meets the threshold (defaults 5 and 10), sorted by count descending with ties
alphabetical. -/
def findHighCouplingNodes (g : Graph)
    (fanInThreshold : Nat := 5) (fanOutThreshold : Nat := 10) : HighCoupling :=
  let m := computeFanInOut g
  let highFanIn := (m.fanIn.filter (fun p => fanInThreshold ≤ p.2)).map
    (fun p => CouplingEntry.mk p.1 p.2)
  let highFanOut := (m.fanOut.filter (fun p => fanOutThreshold ≤ p.2)).map
    (fun p => CouplingEntry.mk p.1 p.2)
  { highFanIn := @List.insertionSort _ CouplingLE couplingLeDec highFanIn
    highFanOut := @List.insertionSort _ CouplingLE couplingLeDec highFanOut }


/-! ## Models of `String.prototype.localeCompare`

The comparators of `findCycles` and `findHighCouplingNodes` call
`localeCompare`, whose result is locale collation: implementation- and
locale-dependent (ECMA-402), a total preorder on strings that need not agree
with code-point order (ICU orders `"a"` before `"B"`) and need not be
antisymmetric (distinct canonically-equivalent strings compare equal).  The
embedding therefore models `localeCompare` as an arbitrary total preorder,
packaged with an executable comparison so that concrete runs evaluate. -/

theorem charListLe_total : ∀ x y : List Char, charListLe x y = true ∨ charListLe y x = true
  | [], _ => Or.inl rfl
  | _ :: _, [] => Or.inr rfl
  | a :: as, b :: bs => by
    rw [charListLe, charListLe]
    by_cases h : a.toNat = b.toNat
    · rw [if_pos h, if_pos h.symm]
      exact charListLe_total as bs
    · rw [if_neg h, if_neg (fun hc => h hc.symm)]
      rcases Nat.lt_or_ge a.toNat b.toNat with h2 | h2
      · exact Or.inl (decide_eq_true h2)
      · refine Or.inr (decide_eq_true ?_)
        omega

theorem charListLe_trans : ∀ x y z : List Char, charListLe x y = true →
    charListLe y z = true → charListLe x z = true
  | [], _, _, _, _ => rfl
  | _ :: _, [], _, hxy, _ => by
    simp [charListLe] at hxy
  | _ :: _, _ :: _, [], _, hyz => by
    simp [charListLe] at hyz
  | a :: as, b :: bs, c :: cs, hxy, hyz => by
    rw [charListLe] at hxy hyz ⊢
    by_cases hab : a.toNat = b.toNat
    · rw [if_pos hab] at hxy
      by_cases hbc : b.toNat = c.toNat
      · rw [if_pos hbc] at hyz
        rw [if_pos (hab.trans hbc)]
        exact charListLe_trans as bs cs hxy hyz
      · rw [if_neg hbc] at hyz
        have hlt : b.toNat < c.toNat := of_decide_eq_true hyz
        rw [if_neg (by omega)]
        exact decide_eq_true (by omega)
    · rw [if_neg hab] at hxy
      have hlt : a.toNat < b.toNat := of_decide_eq_true hxy
      by_cases hbc : b.toNat = c.toNat
      · rw [if_neg (by omega)]
        exact decide_eq_true (by omega)
      · rw [if_neg hbc] at hyz
        have hlt2 : b.toNat < c.toNat := of_decide_eq_true hyz
        rw [if_neg (by omega)]
        exact decide_eq_true (by omega)

/-- A model of `String.prototype.localeCompare`: `le a b` stands for
"`a.localeCompare(b) <= 0`".  ECMA-402 guarantees a consistent total
preorder; nothing more may be assumed of the runtime collation. -/
structure LocaleOrder where
  le : String → String → Bool
  total : ∀ a b, le a b = true ∨ le b a = true
  trans : ∀ a b c, le a b = true → le b c = true → le a c = true

/-- "`a.localeCompare(b) < 0`" in a collation model. -/
def LocaleOrder.lt (L : LocaleOrder) (a b : String) : Prop :=
  L.le a b = true ∧ L.le b a = false

/-- "`a.localeCompare(b) === 0`" in a collation model. -/
def LocaleOrder.eqv (L : LocaleOrder) (a b : String) : Prop :=
  L.le a b = true ∧ L.le b a = true

/-- A collation obtained by comparing key sequences code-point-wise; every
such comparison is a total preorder. -/
def keyedOrder (f : String → List Char) : LocaleOrder where
  le a b := charListLe (f a) (f b)
  total a b := charListLe_total (f a) (f b)
  trans a b c := charListLe_trans (f a) (f b) (f c)

/-- The code-point collation model: the identity key.  This is the model
under which `CycleLE` and `CouplingLE` transcribe the comparators. -/
def codePointOrder : LocaleOrder := keyedOrder (fun s => s.toList)

/-- ASCII case folding: uppercase letters keyed as their lowercase
counterparts. -/
def foldChar (c : Char) : Char :=
  if 65 ≤ c.toNat ∧ c.toNat ≤ 90 then Char.ofNat (c.toNat + 32) else c

/-- A collation that, like ICU, orders `"a"` strictly before `"B"`, and that
equates some pairs of distinct strings (as real `localeCompare` does on
canonically equivalent names): comparison of ASCII-case-folded keys. -/
def caseFoldOrder : LocaleOrder := keyedOrder (fun s => s.toList.map foldChar)

/-- The cycle-list comparator of `findCycles` under a collation model `L`:
`a[0].localeCompare(b[0])` first, ties by length, read as "the comparator
result is `<= 0`". -/
def CycleLEWith (L : LocaleOrder) (a b : List String) : Prop :=
  L.lt (a.headD "") (b.headD "") ∨
    (L.eqv (a.headD "") (b.headD "") ∧ a.length ≤ b.length)

/-- Kernel-evaluable decision procedure for `CycleLEWith`. -/
def cycleLeWithDec (L : LocaleOrder) : DecidableRel (CycleLEWith L) := fun a b =>
  @instDecidableOr _ _
    (@instDecidableAnd _ _ (instDecidableEqBool _ _) (instDecidableEqBool _ _))
    (@instDecidableAnd _ _
      (@instDecidableAnd _ _ (instDecidableEqBool _ _) (instDecidableEqBool _ _))
      (Nat.decLe _ _))

/-- The `try` body of `findCycles` under a collation model `L`. -/
def findCyclesAttemptWith (L : LocaleOrder) (g : Graph) :
    Except String (List (List String)) :=
  Except.ok (@List.insertionSort _ (CycleLEWith L) (cycleLeWithDec L)
    ((algFindCycles g).map jsSortStrings))

/-- `findCycles` under a collation model `L`: the code of graph-builder with
`localeCompare` interpreted by `L`.  `findCyclesWith codePointOrder` is the
function `findCycles` above. -/
def findCyclesWith (L : LocaleOrder) (g : Graph) : List (List String) :=
  findCyclesRecover (findCyclesAttemptWith L g)

/-- The coupling comparator of `findHighCouplingNodes` under a collation
model `L`: count descending, ties by `a.node.localeCompare(b.node)`. -/
def CouplingLEWith (L : LocaleOrder) (a b : CouplingEntry) : Prop :=
  b.count < a.count ∨ (a.count = b.count ∧ L.le a.node b.node = true)

/-- Kernel-evaluable decision procedure for `CouplingLEWith`. -/
def couplingLeWithDec (L : LocaleOrder) : DecidableRel (CouplingLEWith L) := fun a b =>
  @instDecidableOr _ _ (Nat.decLt _ _)
    (@instDecidableAnd _ _ (Nat.decEq _ _) (instDecidableEqBool _ _))

/-- `findHighCouplingNodes` under a collation model `L`.
`findHighCouplingNodesWith codePointOrder` is `findHighCouplingNodes`
above. -/
def findHighCouplingNodesWith (L : LocaleOrder) (g : Graph)
    (fanInThreshold : Nat := 5) (fanOutThreshold : Nat := 10) : HighCoupling :=
  let m := computeFanInOut g
  let highFanIn := (m.fanIn.filter (fun p => fanInThreshold ≤ p.2)).map
    (fun p => CouplingEntry.mk p.1 p.2)
  let highFanOut := (m.fanOut.filter (fun p => fanOutThreshold ≤ p.2)).map
    (fun p => CouplingEntry.mk p.1 p.2)
  { highFanIn := @List.insertionSort _ (CouplingLEWith L) (couplingLeWithDec L) highFanIn
    highFanOut := @List.insertionSort _ (CouplingLEWith L) (couplingLeWithDec L) highFanOut }

/-! ## Specification-side notions for the graph claims -/

/-- An elementary (simple) cycle of the directed graph: a non-empty sequence
of pairwise distinct nodes in which consecutive nodes, including the wrap
from the last back to the first, are connected by edges. -/
def IsElementaryCycle (g : Graph) (l : List String) : Prop :=
  l ≠ [] ∧ l.Nodup ∧ List.Chain' (fun a b => (a, b) ∈ g.edges) l ∧
    ((l.getLastD "", l.headD "") ∈ g.edges)

/-- Kernel-evaluable check for the consecutive-edge condition of
`IsElementaryCycle`. -/
def chainEdgesB (g : Graph) : List String → Bool
  | [] => true
  | [_] => true
  | a :: b :: rest => decide ((a, b) ∈ g.edges) && chainEdgesB g (b :: rest)

theorem chainEdgesB_iff (g : Graph) : ∀ l : List String,
    chainEdgesB g l = true ↔ List.Chain' (fun a b => (a, b) ∈ g.edges) l
  | [] => by simp [chainEdgesB]
  | [a] => by simp [chainEdgesB]
  | a :: b :: rest => by
    rw [chainEdgesB, List.chain'_cons, Bool.and_eq_true, decide_eq_true_eq,
      chainEdgesB_iff g (b :: rest)]

instance (g : Graph) (l : List String) : Decidable (IsElementaryCycle g l) :=
  decidable_of_iff
    (l ≠ [] ∧ l.Nodup ∧ chainEdgesB g l = true ∧ ((l.getLastD "", l.headD "") ∈ g.edges))
    (by rw [chainEdgesB_iff]; exact Iff.rfl)

/-- The keys of an adjacency mapping. -/
def adjKeys (A : AdjacencyMapping) : List String := A.map Prod.fst

/-- All dependency targets of an adjacency mapping, with multiplicity. -/
def adjTargets (A : AdjacencyMapping) : List String := A.flatMap Prod.snd

/-- The node set of an adjacency mapping: all keys and all list values. -/
def adjNodeSet (A : AdjacencyMapping) : Finset String :=
  (adjKeys A ++ adjTargets A).toFinset

/-- All `(source, target)` pairs of an adjacency mapping, with multiplicity. -/
def adjEdgeList (A : AdjacencyMapping) : List (String × String) :=
  A.flatMap (fun p => p.2.map (fun d => (p.1, d)))

/-- The edge set of an adjacency mapping: its distinct `(source, target)`
pairs. -/
def adjEdgeSet (A : AdjacencyMapping) : Finset (String × String) :=
  (adjEdgeList A).toFinset

/-! ## The insight synthesizer (`analyzer`, `generateRecommendations`) -/

/-- The options record of the programmatic analyzer, with its documented
defaults. -/
structure AnalyzerOptions where
  fanInThreshold : Nat := 5
  fanOutThreshold : Nat := 10
  useBasenames : Bool := true
deriving Repr, DecidableEq

/-- The characters of the last `/`-separated segment of a path. -/
def basenameAux : List Char → List Char → List Char
  | [], acc => acc
  | c :: cs, acc => if c = '/' then basenameAux cs [] else basenameAux cs (acc ++ [c])

/-- Node's `path.basename(p, ext)` for the POSIX file paths the analyzer
handles: the last path segment, with `ext` stripped when it is a proper
suffix of that segment. -/
def jsBasename (p : String) (ext : String) : String :=
  let b := basenameAux p.data []
  if b ≠ ext.data ∧ ext.data ≠ [] ∧ ext.data.isSuffixOf b then
    ⟨b.take (b.length - ext.data.length)⟩
  else ⟨b⟩

/-- `options.useBasenames ? basename(node, ".ts") : node`. -/
def displayNode (useBasenames : Bool) (node : String) : String :=
  if useBasenames then jsBasename node ".ts" else node

/-- The aggregate circular-dependency recommendation. -/
def aggregateCycleMsg (n : Nat) : String :=
  "Found " ++ toString n ++ " circular dependency cycles. Consider refactoring to break these cycles by introducing interfaces or moving shared code to separate modules."

/-- The per-cycle recommendation. -/
def breakCycleMsg (names : List String) : String :=
  "Break cycle involving: " ++ ", ".intercalate names ++ ". Consider extracting common dependencies or using dependency injection."

/-- The high-fan-out ("split this module") recommendation. -/
def splitModuleMsg (name : String) (count : Nat) : String :=
  "Consider splitting " ++ name ++ ": it has high fan-out (" ++ toString count ++ " dependencies). Split into smaller, more focused modules."

/-- The very-high-fan-in (interface extraction) recommendation. -/
def extractInterfacesMsg (name : String) (count : Nat) : String :=
  "Consider extracting interfaces from " ++ name ++ ": it has very high fan-in (" ++ toString count ++ " dependents). This might indicate it\x27s doing too much."

/-- The high-fan-in (monitor) recommendation. -/
def monitorMsg (name : String) (count : Nat) : String :=
  "Monitor " ++ name ++ ": it has high fan-in (" ++ toString count ++ " dependents). Ensure it maintains a stable API."

/-- `Number.prototype.toFixed(1)`, modelled exactly over the rationals for
the nonnegative averages that occur here. -/
def toFixed1 (q : ℚ) : String :=
  let t := (q * 10 + 1 / 2).floor.toNat
  toString (t / 10) ++ "." ++ toString (t % 10)

/-- The high-average-dependencies recommendation. -/
def highAvgMsg (avg : ℚ) : String :=
  "The project has high average dependencies per module (" ++ toFixed1 avg ++ "). Consider reducing coupling between modules."

/-- The low-interconnectivity recommendation. -/
def fragmentedMsg : String :=
  "The project has many modules with low interconnectivity. Consider if some modules can be consolidated or if the architecture is too fragmented."

/-- The comparator `([, a], [, b]) => b - a` of `generateRecommendations`
(count descending), read as the `≤`-style relation "the comparator result is
`<= 0`". -/
def CountGE (a b : String × Nat) : Prop := b.2 ≤ a.2

/-- Kernel-evaluable decision procedure for `CountGE`. -/
def countGeDec : DecidableRel CountGE := fun a b => Nat.decLe b.2 a.2

/-- `generateRecommendations` (analyzer): the bounded, threshold-driven
recommendation synthesis.  JS division `edgeCount / nodeCount` is modelled
over the rationals. -/
def generateRecommendations (g : Graph) (opts : AnalyzerOptions) : List String :=
  let cycles := findCycles g
  let m := computeFanInOut g
  let cycleRecs : List String :=
    if cycles.length > 0 then
      aggregateCycleMsg cycles.length ::
        (cycles.take 3).map (fun cycle => breakCycleMsg (cycle.map (displayNode opts.useBasenames)))
    else []
  let highFanOutModules :=
    @List.insertionSort _ CountGE countGeDec (m.fanOut.filter (fun p => opts.fanOutThreshold ≤ p.2))
  let fanOutRecs := (highFanOutModules.take 3).map
    (fun p => splitModuleMsg (displayNode opts.useBasenames p.1) p.2)
  let highFanInModules :=
    @List.insertionSort _ CountGE countGeDec (m.fanIn.filter (fun p => opts.fanInThreshold ≤ p.2))
  let fanInRecs := (highFanInModules.take 3).map (fun p =>
    if opts.fanInThreshold * 2 ≤ p.2 then
      extractInterfacesMsg (displayNode opts.useBasenames p.1) p.2
    else
      monitorMsg (displayNode opts.useBasenames p.1) p.2)
  let generalRecs : List String :=
    if 0 < g.nodeCount then
      let avg : ℚ := (g.edgeCount : ℚ) / (g.nodeCount : ℚ)
      (if 5 < avg then [highAvgMsg avg] else []) ++
        (if 50 < g.nodeCount ∧ avg < 2 then [fragmentedMsg] else [])
    else []
  cycleRecs ++ fanOutRecs ++ fanInRecs ++ generalRecs

/-! ## The parser-side adjacency validation (`validateAdjacencyMapping`) -/

/-- A dynamic JS value as observed by the runtime checks of
`validateAdjacencyMapping`: a string, an array, or anything else. -/
inductive JSVal where
  | vstr : String → JSVal
  | varr : List JSVal → JSVal
  | vother : JSVal
deriving Repr

/-- `String.prototype.trim()`, modelled over the ASCII whitespace characters
that `Char.isWhitespace` recognizes (the file paths being validated contain
no exotic Unicode spaces). -/
def jsTrim (s : String) : String :=
  ⟨((s.data.dropWhile Char.isWhitespace).reverse.dropWhile Char.isWhitespace).reverse⟩

/-- The display of a dynamic value inside an error message template
(summarized; the message text is irrelevant to the validation result). -/
def jsValDisplay : JSVal → String
  | .vstr s => s
  | .varr _ => "[array]"
  | .vother => "[object]"

/-- The inner dependency loop of `validateAdjacencyMapping`: every entry must
be a string with a non-empty trim. -/
def validateDeps (sourceFile : String) : List JSVal → Except String Bool
  | [] => .ok true
  | d :: rest =>
    match d with
    | .vstr s =>
      if jsTrim s = "" then
        .error ("Invalid dependency: " ++ s ++ " for source " ++ sourceFile)
      else validateDeps sourceFile rest
    | other =>
      .error ("Invalid dependency: " ++ jsValDisplay other ++ " for source " ++ sourceFile)

/-- The entry loop of `validateAdjacencyMapping`: keys are strings by
construction (`Object.entries`), must trim non-empty; each value must be an
array whose entries pass `validateDeps`. -/
def validateEntries : List (String × JSVal) → Except String Bool
  | [] => .ok true
  | (sourceFile, deps) :: rest =>
    if jsTrim sourceFile = "" then .error ("Invalid source file: " ++ sourceFile)
    else
      match deps with
      | .varr ds =>
        match validateDeps sourceFile ds with
        | .error e => .error e
        | .ok _ => validateEntries rest
      | _ => .error ("Dependencies for " ++ sourceFile ++ " must be an array")

/-- `validateAdjacencyMapping` (parser): throws on the first malformed key,
value or dependency entry, and returns `true` otherwise.  The input is the
entry list of a JS object (a non-null object by construction, so the
initial typeof guard of the source cannot fire). -/
def validateAdjacencyMapping (adjacency : List (String × JSVal)) : Except String Bool :=
  validateEntries adjacency

/-- Specification side: a dependency entry is a string with non-empty trim. -/
def ValidDepEntry : JSVal → Prop
  | .vstr s => jsTrim s ≠ ""
  | _ => False

/-- Specification side: a value is an array of valid dependency entries. -/
def ValidDeps : JSVal → Prop
  | .varr ds => ∀ d ∈ ds, ValidDepEntry d
  | _ => False

/-- Specification side: every key trims non-empty and every value is an
array of valid dependency entries. -/
def ValidMapping (A : List (String × JSVal)) : Prop :=
  ∀ p ∈ A, jsTrim p.1 ≠ "" ∧ ValidDeps p.2

/-! ## State-passing forms of the analysis functions

The graphlib graph object is mutable in JS; to state that the analysis
functions never mutate it, each is re-expressed in the state monad over
`Graph`, every graph-method call (`nodes()`, `successors(v)`,
`predecessors(v)`, `hasEdge(v, w)`) becoming an access to the state.  The
theorems then compare the state after a call with the state before. -/

/-- `graph.nodes()` as a state access. -/
def nodesM : StateM Graph (List String) := fun g => (g.nodes, g)

/-- `graph.successors(v)` as a state access (graphlib returns a fresh
array, so sorting the returned list cannot affect the graph). -/
def successorsM (v : String) : StateM Graph (List String) := fun g => (g.successors v, g)

/-- `graph.predecessors(v)` as a state access. -/
def predecessorsM (v : String) : StateM Graph (List String) := fun g => (g.predecessors v, g)

/-- `graph.hasEdge(v, w)` as a state access. -/
def hasEdgeM (v w : String) : StateM Graph Bool := fun g => (g.hasEdge v w, g)

/-- A JS `for`-loop collecting one result per element, in the state monad. -/
def mapStateM {β α : Type} (f : β → StateM Graph α) : List β → StateM Graph (List α)
  | [] => pure []
  | x :: xs => do
    let y ← f x
    let ys ← mapStateM f xs
    pure (y :: ys)

/-- `Array.prototype.filter` with an effectful predicate, in the state
monad. -/
def filterStateM {β : Type} (f : β → StateM Graph Bool) : List β → StateM Graph (List β)
  | [] => pure []
  | x :: xs => do
    let b ← f x
    let rest ← filterStateM f xs
    pure (if b then x :: rest else rest)

/-- `graph.edgeCount()` as a state access. -/
def edgeCountM : StateM Graph Nat := fun g => (g.edges.length, g)

/-- `serializeAdjacency` in state-passing form. -/
def serializeAdjacencyM : StateM Graph AdjacencyMapping := do
  let ns ← nodesM
  mapStateM (fun n => do
    let succ ← successorsM n
    pure (n, jsSortStrings succ)) (jsSortStrings ns)

/-- The successor-loop body of the tarjan `dfs` in state-passing form. -/
def tarjanStepM (dfs : String → TarjanState → StateM Graph TarjanState) (v : String)
    (s : TarjanState) (w : String) : StateM Graph TarjanState :=
  match vlookup s.visited w with
  | none => do
    let s ← dfs w s
    match vlookup s.visited w with
    | some ew =>
      let vis := ventryUpdate s.visited v
        (fun e => { e with lowlink := min e.lowlink ew.lowlink })
      pure { s with visited := vis }
    | none => pure s
  | some ew =>
    if ew.onStack then
      let vis := ventryUpdate s.visited v
        (fun e => { e with lowlink := min e.lowlink ew.index })
      pure { s with visited := vis }
    else pure s

/-- The `dfs` of tarjan in state-passing form: the traversal state is
threaded explicitly, the graph is only read. -/
def tarjanDFSM (fuel : Nat) (v : String) (s : TarjanState) : StateM Graph TarjanState :=
  match fuel with
  | 0 => pure s
  | fuel + 1 => do
    let vIdx := s.index
    let s : TarjanState :=
      { s with
        visited := s.visited ++ [(v, ⟨true, vIdx, vIdx⟩)]
        index := s.index + 1
        stack := v :: s.stack }
    let succ ← successorsM v
    let s ← succ.foldlM (tarjanStepM (fun w s' => tarjanDFSM fuel w s') v) s
    pure (tarjanClose v s)

/-- `alg.tarjan` in state-passing form. -/
def tarjanM : StateM Graph (List (List String)) := do
  let ns ← nodesM
  let ec ← edgeCountM
  let fuel := ns.length + ec + 1
  let s ← ns.foldlM
    (fun s v =>
      if (vlookup s.visited v).isSome then pure s else tarjanDFSM fuel v s)
    (⟨0, [], [], []⟩ : TarjanState)
  pure s.results

/-- `findCycles` in state-passing form. -/
def findCyclesM : StateM Graph (List (List String)) := do
  let cycles ← tarjanM
  let filtered ← filterStateM (fun cmpt => do
    let selfLoop ← hasEdgeM (cmpt.headD "") (cmpt.headD "")
    pure (decide (cmpt.length > 1) || (cmpt.length == 1 && selfLoop))) cycles
  pure (@List.insertionSort _ CycleLE cycleLeDec (filtered.map jsSortStrings))

/-- `computeFanInOut` in state-passing form. -/
def computeFanInOutM : StateM Graph FanInOut := do
  let ns ← nodesM
  let rows ← mapStateM (fun n => do
    let ss ← successorsM n
    let ps ← predecessorsM n
    pure ((n, ps.length), (n, ss.length))) ns
  pure { fanIn := rows.map Prod.fst, fanOut := rows.map Prod.snd }

/-- `findHighCouplingNodes` in state-passing form. -/
def findHighCouplingNodesM (fanInThreshold : Nat := 5) (fanOutThreshold : Nat := 10) :
    StateM Graph HighCoupling := do
  let m ← computeFanInOutM
  let highFanIn := (m.fanIn.filter (fun p => fanInThreshold ≤ p.2)).map
    (fun p => CouplingEntry.mk p.1 p.2)
  let highFanOut := (m.fanOut.filter (fun p => fanOutThreshold ≤ p.2)).map
    (fun p => CouplingEntry.mk p.1 p.2)
  pure { highFanIn := @List.insertionSort _ CouplingLE couplingLeDec highFanIn
         highFanOut := @List.insertionSort _ CouplingLE couplingLeDec highFanOut }

/-! ## Basic lemmas about the graph store -/

theorem insertUnique_mem (acc : List String) (n x : String) :
    x ∈ insertUnique acc n ↔ x ∈ acc ∨ x = n := by
  unfold insertUnique
  split <;> rename_i h
  · constructor
    · exact Or.inl
    · intro hx
      rcases hx with hx | hx
      · exact hx
      · subst hx; exact h
  · simp

theorem insertUnique_nodup (acc : List String) (n : String) (h : acc.Nodup) :
    (insertUnique acc n).Nodup := by
  unfold insertUnique
  split <;> rename_i hmem
  · exact h
  · simp [List.nodup_append, h, hmem]

theorem foldl_insertUnique_mem (l : List String) :
    ∀ (acc : List String) (x : String), x ∈ l.foldl insertUnique acc ↔ x ∈ acc ∨ x ∈ l := by
  induction l with
  | nil => simp
  | cons a l ih =>
    intro acc x
    rw [List.foldl_cons, ih, insertUnique_mem]
    simp only [List.mem_cons]
    tauto

theorem foldl_insertUnique_nodup (l : List String) :
    ∀ (acc : List String), acc.Nodup → (l.foldl insertUnique acc).Nodup := by
  induction l with
  | nil => exact fun acc h => h
  | cons a l ih => exact fun acc h => ih _ (insertUnique_nodup _ _ h)

theorem setNode_edges (g : Graph) (v : String) : (g.setNode v).edges = g.edges := by
  unfold Graph.setNode
  split <;> rfl

theorem setNode_nodes (g : Graph) (v : String) :
    (g.setNode v).nodes = insertUnique g.nodes v := by
  unfold Graph.setNode insertUnique
  split <;> rfl

theorem setNode_of_mem (g : Graph) (v : String) (h : v ∈ g.nodes) : g.setNode v = g := by
  unfold Graph.setNode
  rw [if_pos h]

theorem setEdge_nodes_of_mem (g : Graph) (v w : String) (hv : v ∈ g.nodes)
    (hw : w ∈ g.nodes) : (g.setEdge v w).nodes = g.nodes := by
  unfold Graph.setEdge
  rw [setNode_of_mem g v hv, setNode_of_mem g w hw]
  dsimp only
  split <;> rfl

theorem setEdge_edges_of_mem (g : Graph) (v w : String) (hv : v ∈ g.nodes)
    (hw : w ∈ g.nodes) :
    (g.setEdge v w).edges = if (v, w) ∈ g.edges then g.edges else g.edges ++ [(v, w)] := by
  unfold Graph.setEdge
  rw [setNode_of_mem g v hv, setNode_of_mem g w hw]
  dsimp only
  split <;> simp_all

theorem foldl_setNode_nodes (l : List String) :
    ∀ g : Graph, (l.foldl Graph.setNode g).nodes = l.foldl insertUnique g.nodes := by
  induction l with
  | nil => intro g; rfl
  | cons a l ih =>
    intro g
    rw [List.foldl_cons, List.foldl_cons, ih, setNode_nodes]

theorem foldl_setNode_edges (l : List String) :
    ∀ g : Graph, (l.foldl Graph.setNode g).edges = g.edges := by
  induction l with
  | nil => intro g; rfl
  | cons a l ih =>
    intro g
    rw [List.foldl_cons, ih, setNode_edges]

/-- The inner dependency loop of `buildGraph`, with both endpoints already
present: nodes unchanged, edges extended by the missing pairs. -/
theorem foldl_setEdge_inner (src : String) (ds : List String) :
    ∀ g : Graph, src ∈ g.nodes → (∀ d ∈ ds, d ∈ g.nodes) →
      (ds.foldl (fun g d => g.setEdge src d) g).nodes = g.nodes ∧
      ∀ e, e ∈ (ds.foldl (fun g d => g.setEdge src d) g).edges ↔
        e ∈ g.edges ∨ ∃ d ∈ ds, e = (src, d) := by
  induction ds with
  | nil => intro g _ _; simp
  | cons d ds ih =>
    intro g hsrc hds
    have hd : d ∈ g.nodes := hds d (by simp)
    have hnodes : (g.setEdge src d).nodes = g.nodes := setEdge_nodes_of_mem g src d hsrc hd
    have hrec := ih (g.setEdge src d) (by rw [hnodes]; exact hsrc)
      (by rw [hnodes]; intro x hx; exact hds x (by simp [hx]))
    rw [List.foldl_cons]
    refine ⟨by rw [hrec.1, hnodes], ?_⟩
    intro e
    rw [hrec.2 e]
    rw [setEdge_edges_of_mem g src d hsrc hd]
    constructor
    · intro hx
      rcases hx with hx | hx
      · split at hx
        · exact Or.inl hx
        · rcases List.mem_append.mp hx with hx | hx
          · exact Or.inl hx
          · simp at hx
            exact Or.inr ⟨d, by simp, hx⟩
      · rcases hx with ⟨d', hd', he⟩
        exact Or.inr ⟨d', by simp [hd'], he⟩
    · intro hx
      rcases hx with hx | ⟨d', hd', he⟩
      · split
        · exact Or.inl hx
        · exact Or.inl (List.mem_append.mpr (Or.inl hx))
      · rcases List.mem_cons.mp hd' with hd' | hd'
        · subst hd'
          subst he
          split <;> rename_i hmem
          · exact Or.inl hmem
          · exact Or.inl (List.mem_append.mpr (Or.inr (by simp)))
        · exact Or.inr ⟨d', hd', he⟩

theorem setEdge_edges_nodup (g : Graph) (v w : String) (h : g.edges.Nodup) :
    (g.setEdge v w).edges.Nodup := by
  unfold Graph.setEdge
  dsimp only
  split <;> rename_i hmem
  · rw [setNode_edges, setNode_edges]
    exact h
  · dsimp only
    rw [setNode_edges, setNode_edges] at hmem ⊢
    simp [List.nodup_append, h, hmem]

theorem foldl_setEdge_inner_nodup (src : String) (ds : List String) :
    ∀ g : Graph, g.edges.Nodup →
      (ds.foldl (fun g d => g.setEdge src d) g).edges.Nodup := by
  induction ds with
  | nil => intro g h; exact h
  | cons d ds ih =>
    intro g h
    rw [List.foldl_cons]
    exact ih _ (setEdge_edges_nodup g src d h)

/-- The edge phase of `buildGraph`: nodes unchanged, edges extended by the
adjacency pairs. -/
theorem buildGraph_edgePhase (A : AdjacencyMapping) :
    ∀ g : Graph, (∀ p ∈ A, p.1 ∈ g.nodes ∧ ∀ d ∈ p.2, d ∈ g.nodes) →
      (A.foldl (fun g p => p.2.foldl (fun g d => g.setEdge p.1 d) g) g).nodes = g.nodes ∧
      (∀ e, e ∈ (A.foldl (fun g p => p.2.foldl (fun g d => g.setEdge p.1 d) g) g).edges ↔
        e ∈ g.edges ∨ e ∈ adjEdgeList A) := by
  induction A with
  | nil => intro g _; simp [adjEdgeList]
  | cons p A ih =>
    intro g hA
    have hp := hA p (by simp)
    have hinner := foldl_setEdge_inner p.1 p.2 g hp.1 hp.2
    have hrec := ih (p.2.foldl (fun g d => g.setEdge p.1 d) g)
      (by
        intro q hq
        rw [hinner.1]
        exact hA q (by simp [hq]))
    rw [List.foldl_cons]
    refine ⟨by rw [hrec.1, hinner.1], ?_⟩
    intro e
    rw [hrec.2 e, hinner.2 e]
    simp only [adjEdgeList, List.flatMap_cons, List.mem_append, List.mem_flatMap, List.mem_map]
    constructor
    · intro hx
      rcases hx with (hx | ⟨d, hd, he⟩) | hx
      · exact Or.inl hx
      · exact Or.inr (Or.inl (by exact ⟨d, hd, he.symm⟩))
      · rcases hx with ⟨q, hq, d, hd, he⟩
        exact Or.inr (Or.inr ⟨q, hq, d, hd, he⟩)
    · intro hx
      rcases hx with hx | (⟨d, hd, he⟩ | ⟨q, hq, d, hd, he⟩)
      · exact Or.inl (Or.inl hx)
      · exact Or.inl (Or.inr ⟨d, hd, he.symm⟩)
      · exact Or.inr ⟨q, hq, d, hd, he⟩

theorem buildGraph_edgePhase_nodup (A : AdjacencyMapping) :
    ∀ g : Graph, g.edges.Nodup →
      (A.foldl (fun g p => p.2.foldl (fun g d => g.setEdge p.1 d) g) g).edges.Nodup := by
  induction A with
  | nil => intro g h; exact h
  | cons p A ih =>
    intro g h
    rw [List.foldl_cons]
    exact ih _ (foldl_setEdge_inner_nodup p.1 p.2 g h)

/-- The node phase of `buildGraph`: its nodes are exactly the keys and
targets of the adjacency input. -/
theorem buildGraph_nodePhase_mem (A : AdjacencyMapping) (x : String) :
    x ∈ (((A.map Prod.fst ++ A.flatMap Prod.snd).foldl insertUnique []).foldl Graph.setNode
      Graph.empty).nodes ↔ x ∈ adjKeys A ∨ x ∈ adjTargets A := by
  rw [foldl_setNode_nodes]
  have h0 : Graph.empty.nodes = [] := rfl
  rw [h0, foldl_insertUnique_mem, foldl_insertUnique_mem]
  simp [adjKeys, adjTargets]

theorem buildGraph_nodePhase_endpoints (A : AdjacencyMapping) :
    ∀ p ∈ A, p.1 ∈ (((A.map Prod.fst ++ A.flatMap Prod.snd).foldl insertUnique []).foldl
        Graph.setNode Graph.empty).nodes ∧
      ∀ d ∈ p.2, d ∈ (((A.map Prod.fst ++ A.flatMap Prod.snd).foldl insertUnique []).foldl
        Graph.setNode Graph.empty).nodes := by
  intro p hp
  constructor
  · rw [buildGraph_nodePhase_mem]
    exact Or.inl (List.mem_map.mpr ⟨p, hp, rfl⟩)
  · intro d hd
    rw [buildGraph_nodePhase_mem]
    exact Or.inr (List.mem_flatMap.mpr ⟨p, hp, hd⟩)

theorem buildGraph_nodes_mem (A : AdjacencyMapping) (x : String) :
    x ∈ (buildGraph A).nodes ↔ x ∈ adjKeys A ∨ x ∈ adjTargets A := by
  unfold buildGraph
  rw [(buildGraph_edgePhase A _ (buildGraph_nodePhase_endpoints A)).1]
  exact buildGraph_nodePhase_mem A x

theorem buildGraph_nodes_nodup (A : AdjacencyMapping) : (buildGraph A).nodes.Nodup := by
  unfold buildGraph
  rw [(buildGraph_edgePhase A _ (buildGraph_nodePhase_endpoints A)).1, foldl_setNode_nodes]
  exact foldl_insertUnique_nodup _ _ (by simp [Graph.empty])

theorem buildGraph_edges_mem (A : AdjacencyMapping) (e : String × String) :
    e ∈ (buildGraph A).edges ↔ e ∈ adjEdgeList A := by
  unfold buildGraph
  rw [(buildGraph_edgePhase A _ (buildGraph_nodePhase_endpoints A)).2 e, foldl_setNode_edges]
  have h0 : Graph.empty.edges = [] := rfl
  rw [h0]
  simp

theorem buildGraph_edges_nodup (A : AdjacencyMapping) : (buildGraph A).edges.Nodup := by
  unfold buildGraph
  refine buildGraph_edgePhase_nodup A _ ?_
  rw [foldl_setNode_edges]
  exact List.nodup_nil

theorem buildGraph_WF (A : AdjacencyMapping) : (buildGraph A).WF := by
  refine ⟨buildGraph_nodes_nodup A, buildGraph_edges_nodup A, ?_⟩
  intro e he
  rw [buildGraph_edges_mem] at he
  rcases List.mem_flatMap.mp he with ⟨p, hp, hd⟩
  rcases List.mem_map.mp hd with ⟨d, hdmem, he'⟩
  subst he'
  constructor
  · rw [buildGraph_nodes_mem]
    exact Or.inl (List.mem_map.mpr ⟨p, hp, rfl⟩)
  · rw [buildGraph_nodes_mem]
    exact Or.inr (List.mem_flatMap.mpr ⟨p, hp, hdmem⟩)

theorem mem_jsSortStrings (l : List String) (x : String) :
    x ∈ jsSortStrings l ↔ x ∈ l :=
  (@List.perm_insertionSort String (fun a b => a ≤ b) strLeDec l).mem_iff

theorem successors_mem (g : Graph) (v x : String) :
    x ∈ g.successors v ↔ (v, x) ∈ g.edges := by
  unfold Graph.successors
  rw [List.mem_map]
  constructor
  · intro hx
    rcases hx with ⟨e, he, hx⟩
    rcases List.mem_filter.mp he with ⟨he, heq⟩
    have h1 : e.1 = v := by simpa using heq
    have : e = (v, x) := by
      cases e
      simp_all
    rw [← this]
    exact he
  · intro hx
    exact ⟨(v, x), List.mem_filter.mpr ⟨hx, by simp⟩, rfl⟩

theorem predecessors_mem (g : Graph) (v x : String) :
    x ∈ g.predecessors v ↔ (x, v) ∈ g.edges := by
  unfold Graph.predecessors
  rw [List.mem_map]
  constructor
  · intro hx
    rcases hx with ⟨e, he, hx⟩
    rcases List.mem_filter.mp he with ⟨he, heq⟩
    have h1 : e.2 = v := by simpa using heq
    have : e = (x, v) := by
      cases e
      simp_all
    rw [← this]
    exact he
  · intro hx
    exact ⟨(x, v), List.mem_filter.mpr ⟨hx, by simp⟩, rfl⟩

theorem serialize_keys (g : Graph) :
    adjKeys (serializeAdjacency g) = jsSortStrings g.nodes := by
  unfold serializeAdjacency adjKeys
  rw [List.map_map]
  exact List.map_id'' (fun x => rfl) _

theorem serialize_mem_keys (g : Graph) (x : String) :
    x ∈ adjKeys (serializeAdjacency g) ↔ x ∈ g.nodes := by
  rw [serialize_keys, mem_jsSortStrings]

theorem serialize_mem_targets (g : Graph) (x : String) :
    x ∈ adjTargets (serializeAdjacency g) ↔ ∃ n ∈ g.nodes, (n, x) ∈ g.edges := by
  unfold serializeAdjacency adjTargets
  rw [List.flatMap_map, List.mem_flatMap]
  constructor
  · intro hx
    rcases hx with ⟨n, hn, hmem⟩
    rw [mem_jsSortStrings] at hn
    rw [mem_jsSortStrings, successors_mem] at hmem
    exact ⟨n, hn, hmem⟩
  · intro hx
    rcases hx with ⟨n, hn, hmem⟩
    refine ⟨n, ?_, ?_⟩
    · rw [mem_jsSortStrings]
      exact hn
    · rw [mem_jsSortStrings, successors_mem]
      exact hmem

theorem serialize_mem_edgeList (g : Graph) (e : String × String) :
    e ∈ adjEdgeList (serializeAdjacency g) ↔ e.1 ∈ g.nodes ∧ e ∈ g.edges := by
  unfold adjEdgeList serializeAdjacency
  rw [List.flatMap_map, List.mem_flatMap]
  constructor
  · intro hx
    rcases hx with ⟨n, hn, hmem⟩
    rw [mem_jsSortStrings] at hn
    rcases List.mem_map.mp hmem with ⟨d, hd, he⟩
    rw [mem_jsSortStrings, successors_mem] at hd
    subst he
    exact ⟨hn, hd⟩
  · intro hx
    refine ⟨e.1, ?_, ?_⟩
    · rw [mem_jsSortStrings]
      exact hx.1
    · refine List.mem_map.mpr ⟨e.2, ?_, rfl⟩
      rw [mem_jsSortStrings, successors_mem]
      exact hx.2

/-- C4: `buildGraph` produces exactly one node per distinct key-or-target
file and exactly one edge per distinct `(source, target)` pair of the input,
duplicates in the dependency lists being silently collapsed. -/
theorem C4_buildGraph_counts (A : AdjacencyMapping) :
    (buildGraph A).nodeCount = (adjNodeSet A).card ∧
    (buildGraph A).edgeCount = (adjEdgeSet A).card := by
  constructor
  · show (buildGraph A).nodes.length = _
    rw [← List.toFinset_card_of_nodup (buildGraph_nodes_nodup A)]
    unfold adjNodeSet
    congr 1
    apply Finset.ext
    intro x
    rw [List.mem_toFinset, List.mem_toFinset, buildGraph_nodes_mem, List.mem_append]
  · show (buildGraph A).edges.length = _
    rw [← List.toFinset_card_of_nodup (buildGraph_edges_nodup A)]
    unfold adjEdgeSet
    congr 1
    apply Finset.ext
    intro e
    rw [List.mem_toFinset, List.mem_toFinset, buildGraph_edges_mem]

/-- C3: round-trip stability.  Serializing a built graph preserves the node
set and edge set of any adjacency input (values compared as sets), and
rebuilding from a serialization reproduces the node and edge sets of any
graphlib-constructible graph. -/
theorem C3_roundtrip :
    (∀ A : AdjacencyMapping,
      adjNodeSet (serializeAdjacency (buildGraph A)) = adjNodeSet A ∧
      adjEdgeSet (serializeAdjacency (buildGraph A)) = adjEdgeSet A) ∧
    (∀ g : Graph, g.WF →
      (buildGraph (serializeAdjacency g)).nodes.toFinset = g.nodes.toFinset ∧
      (buildGraph (serializeAdjacency g)).edges.toFinset = g.edges.toFinset) := by
  constructor
  · intro A
    have hWF := buildGraph_WF A
    constructor
    · unfold adjNodeSet
      apply Finset.ext
      intro x
      rw [List.mem_toFinset, List.mem_toFinset, List.mem_append, List.mem_append]
      have h1 := serialize_mem_keys (buildGraph A) x
      have h2 := serialize_mem_targets (buildGraph A) x
      rw [h1, h2]
      rw [buildGraph_nodes_mem]
      constructor
      · intro hx
        rcases hx with hx | ⟨n, _, hn2⟩
        · exact hx
        · have := (hWF.2.2 _ hn2).2
          rw [buildGraph_nodes_mem] at this
          exact this
      · intro hx
        exact Or.inl hx
    · unfold adjEdgeSet
      apply Finset.ext
      intro e
      rw [List.mem_toFinset, List.mem_toFinset, serialize_mem_edgeList, buildGraph_edges_mem]
      constructor
      · intro hx
        exact hx.2
      · intro hx
        refine ⟨?_, hx⟩
        have := (hWF.2.2 _ ((buildGraph_edges_mem A e).mpr hx)).1
        rw [buildGraph_nodes_mem] at this
        rw [buildGraph_nodes_mem]
        exact this
  · intro g hWF
    constructor
    · apply Finset.ext
      intro x
      rw [List.mem_toFinset, List.mem_toFinset, buildGraph_nodes_mem]
      rw [serialize_mem_keys, serialize_mem_targets]
      constructor
      · intro hx
        rcases hx with hx | ⟨n, _, hn2⟩
        · exact hx
        · exact (hWF.2.2 _ hn2).2
      · exact Or.inl
    · apply Finset.ext
      intro e
      rw [List.mem_toFinset, List.mem_toFinset, buildGraph_edges_mem, serialize_mem_edgeList]
      constructor
      · intro hx
        exact hx.2
      · intro hx
        exact ⟨(hWF.2.2 _ hx).1, hx⟩

/-- Witness for C3: the well-formedness hypothesis of the rebuild direction
holds for a concretely built graph, and the theorem applies to it. -/
theorem C3_roundtrip_witness :
    (buildGraph [("a", ["b"])]).WF ∧
    (buildGraph (serializeAdjacency (buildGraph [("a", ["b"])]))).nodes.toFinset =
      (buildGraph [("a", ["b"])]).nodes.toFinset :=
  ⟨by decide, (C3_roundtrip.2 (buildGraph [("a", ["b"])]) (by decide)).1⟩

/-! ## Coupling metrics (C5) -/

instance : IsTotal CouplingEntry CouplingLE := by
  constructor
  intro a b
  unfold CouplingLE
  rcases Nat.lt_trichotomy a.count b.count with h | h | h
  · exact Or.inr (Or.inl h)
  · rcases le_total a.node b.node with h2 | h2
    · exact Or.inl (Or.inr ⟨h, h2⟩)
    · exact Or.inr (Or.inr ⟨h.symm, h2⟩)
  · exact Or.inl (Or.inl h)

instance : IsTrans CouplingEntry CouplingLE := by
  constructor
  intro a b c hab hbc
  unfold CouplingLE at hab hbc ⊢
  rcases hab with hab | ⟨hab, hab2⟩ <;> rcases hbc with hbc | ⟨hbc, hbc2⟩
  · exact Or.inl (by omega)
  · exact Or.inl (by omega)
  · exact Or.inl (by omega)
  · exact Or.inr ⟨by omega, le_trans hab2 hbc2⟩

theorem predecessors_nodup (g : Graph) (h : g.edges.Nodup) (v : String) :
    (g.predecessors v).Nodup := by
  unfold Graph.predecessors
  refine (h.filter _).map_on ?_
  intro a ha b hb heq
  rcases List.mem_filter.mp ha with ⟨_, ha2⟩
  rcases List.mem_filter.mp hb with ⟨_, hb2⟩
  cases a
  cases b
  simp_all

theorem successors_nodup (g : Graph) (h : g.edges.Nodup) (v : String) :
    (g.successors v).Nodup := by
  unfold Graph.successors
  refine (h.filter _).map_on ?_
  intro a ha b hb heq
  rcases List.mem_filter.mp ha with ⟨_, ha2⟩
  rcases List.mem_filter.mp hb with ⟨_, hb2⟩
  cases a
  cases b
  simp_all

theorem mem_highFanIn (g : Graph) (tIn tOut : Nat) (en : CouplingEntry) :
    en ∈ (findHighCouplingNodes g tIn tOut).highFanIn ↔
      en.node ∈ g.nodes ∧ en.count = (g.predecessors en.node).length ∧ tIn ≤ en.count := by
  unfold findHighCouplingNodes
  dsimp only
  rw [(@List.perm_insertionSort _ CouplingLE couplingLeDec _).mem_iff]
  rw [List.mem_map]
  constructor
  · intro hx
    rcases hx with ⟨p, hp, he⟩
    rcases List.mem_filter.mp hp with ⟨hp1, hp2⟩
    unfold computeFanInOut at hp1
    dsimp only at hp1
    rcases List.mem_map.mp hp1 with ⟨n, hn, hpe⟩
    subst hpe
    subst he
    exact ⟨hn, rfl, by simpa using hp2⟩
  · intro hx
    rcases hx with ⟨h1, h2, h3⟩
    refine ⟨(en.node, (g.predecessors en.node).length), List.mem_filter.mpr ⟨?_, ?_⟩, ?_⟩
    · unfold computeFanInOut
      dsimp only
      exact List.mem_map.mpr ⟨en.node, h1, rfl⟩
    · simp only [decide_eq_true_eq]
      omega
    · cases en
      simp_all

theorem mem_highFanOut (g : Graph) (tIn tOut : Nat) (en : CouplingEntry) :
    en ∈ (findHighCouplingNodes g tIn tOut).highFanOut ↔
      en.node ∈ g.nodes ∧ en.count = (g.successors en.node).length ∧ tOut ≤ en.count := by
  unfold findHighCouplingNodes
  dsimp only
  rw [(@List.perm_insertionSort _ CouplingLE couplingLeDec _).mem_iff]
  rw [List.mem_map]
  constructor
  · intro hx
    rcases hx with ⟨p, hp, he⟩
    rcases List.mem_filter.mp hp with ⟨hp1, hp2⟩
    unfold computeFanInOut at hp1
    dsimp only at hp1
    rcases List.mem_map.mp hp1 with ⟨n, hn, hpe⟩
    subst hpe
    subst he
    exact ⟨hn, rfl, by simpa using hp2⟩
  · intro hx
    rcases hx with ⟨h1, h2, h3⟩
    refine ⟨(en.node, (g.successors en.node).length), List.mem_filter.mpr ⟨?_, ?_⟩, ?_⟩
    · unfold computeFanInOut
      dsimp only
      exact List.mem_map.mpr ⟨en.node, h1, rfl⟩
    · simp only [decide_eq_true_eq]
      omega
    · cases en
      simp_all

/-! ## Error recovery of `findCycles` (C6) -/

/-- C6: the `catch` of `findCycles` turns any error raised by the cycle
enumeration into the empty cycle list, and `findCycles` is exactly this
recovery applied to the enumeration outcome, so it produces a result for
every graph instead of propagating. -/
theorem C6_findCycles_recovers :
    (∀ e : String, findCyclesRecover (Except.error e) = []) ∧
    (∀ g : Graph, findCycles g = findCyclesRecover (findCyclesAttempt g)) :=
  ⟨fun _ => rfl, fun _ => rfl⟩

/-! ## Adjacency validation (C10) -/

instance : DecidablePred ValidDepEntry := fun d => by
  cases d with
  | vstr s =>
    simp only [ValidDepEntry]
    infer_instance
  | varr l =>
    simp only [ValidDepEntry]
    exact instDecidableFalse
  | vother =>
    simp only [ValidDepEntry]
    exact instDecidableFalse

instance : DecidablePred ValidDeps := fun v => by
  cases v with
  | vstr s =>
    simp only [ValidDeps]
    exact instDecidableFalse
  | varr ds =>
    simp only [ValidDeps]
    exact List.decidableBAll _ ds
  | vother =>
    simp only [ValidDeps]
    exact instDecidableFalse

instance : DecidablePred ValidMapping := fun A => by
  unfold ValidMapping
  exact List.decidableBAll _ A

theorem validateDeps_spec (src : String) : ∀ ds : List JSVal,
    (validateDeps src ds = Except.ok true ∧ ∀ d ∈ ds, ValidDepEntry d) ∨
    ((∃ m, validateDeps src ds = Except.error m) ∧ ¬ ∀ d ∈ ds, ValidDepEntry d)
  | [] => Or.inl ⟨rfl, by simp⟩
  | d :: rest => by
    cases d with
    | vstr s =>
      by_cases h : jsTrim s = ""
      · refine Or.inr ⟨⟨"Invalid dependency: " ++ s ++ " for source " ++ src, ?_⟩, ?_⟩
        · unfold validateDeps
          dsimp only
          rw [if_pos h]
        · intro hall
          exact (hall (.vstr s) (by simp)) h
      · rcases validateDeps_spec src rest with ⟨h1, h2⟩ | ⟨⟨m, h1⟩, h2⟩
        · refine Or.inl ⟨?_, ?_⟩
          · unfold validateDeps
            dsimp only
            rw [if_neg h]
            exact h1
          · intro x hx
            rcases List.mem_cons.mp hx with hx | hx
            · subst hx
              exact h
            · exact h2 x hx
        · refine Or.inr ⟨⟨m, ?_⟩, ?_⟩
          · unfold validateDeps
            dsimp only
            rw [if_neg h]
            exact h1
          · intro hall
            exact h2 (fun x hx => hall x (by simp [hx]))
    | varr l =>
      exact Or.inr ⟨⟨_, rfl⟩, fun hall => (hall (.varr l) (by simp))⟩
    | vother =>
      exact Or.inr ⟨⟨_, rfl⟩, fun hall => (hall .vother (by simp))⟩

theorem validateEntries_spec : ∀ A : List (String × JSVal),
    (validateEntries A = Except.ok true ∧ ValidMapping A) ∨
    ((∃ m, validateEntries A = Except.error m) ∧ ¬ ValidMapping A)
  | [] => Or.inl ⟨rfl, by intro p hp; cases hp⟩
  | (k, v) :: rest => by
    by_cases hk : jsTrim k = ""
    · refine Or.inr ⟨⟨"Invalid source file: " ++ k, ?_⟩, ?_⟩
      · unfold validateEntries
        try dsimp only
        rw [if_pos hk]
      · intro hall
        exact ((hall (k, v) (by simp)).1) hk
    · cases v with
      | varr ds =>
        rcases validateDeps_spec k ds with ⟨h1, h2⟩ | ⟨⟨m, h1⟩, h2⟩
        · rcases validateEntries_spec rest with ⟨h3, h4⟩ | ⟨⟨m2, h3⟩, h4⟩
          · refine Or.inl ⟨?_, ?_⟩
            · unfold validateEntries
              rw [if_neg hk]
              dsimp only
              rw [h1]
              exact h3
            · intro p hp
              rcases List.mem_cons.mp hp with hp | hp
              · subst hp
                exact ⟨hk, h2⟩
              · exact h4 p hp
          · refine Or.inr ⟨⟨m2, ?_⟩, ?_⟩
            · unfold validateEntries
              rw [if_neg hk]
              dsimp only
              rw [h1]
              exact h3
            · intro hall
              exact h4 (fun p hp => hall p (by simp [hp]))
        · refine Or.inr ⟨⟨m, ?_⟩, ?_⟩
          · unfold validateEntries
            rw [if_neg hk]
            dsimp only
            rw [h1]
          · intro hall
            exact h2 ((hall (k, .varr ds) (by simp)).2)
      | vstr s =>
        refine Or.inr ⟨⟨"Dependencies for " ++ k ++ " must be an array", ?_⟩, ?_⟩
        · unfold validateEntries
          try dsimp only
          rw [if_neg hk]
        · intro hall
          exact (hall (k, .vstr s) (by simp)).2
      | vother =>
        refine Or.inr ⟨⟨"Dependencies for " ++ k ++ " must be an array", ?_⟩, ?_⟩
        · unfold validateEntries
          try dsimp only
          rw [if_neg hk]
        · intro hall
          exact (hall (k, .vother) (by simp)).2

/-- C10: `validateAdjacencyMapping` succeeds (returning `true`) exactly when
every key trims non-empty, every value is an array, and every dependency
entry is a string that trims non-empty; on any other input it throws. -/
theorem C10_validateAdjacencyMapping (A : List (String × JSVal)) :
    (validateAdjacencyMapping A = Except.ok true ↔ ValidMapping A) ∧
    (¬ ValidMapping A → ∃ msg, validateAdjacencyMapping A = Except.error msg) := by
  rcases validateEntries_spec A with ⟨h1, h2⟩ | ⟨⟨m, h1⟩, h2⟩
  · refine ⟨⟨fun _ => h2, fun _ => h1⟩, fun hc => absurd h2 hc⟩
  · refine ⟨⟨fun hc => ?_, fun hc => absurd hc h2⟩, fun _ => ⟨m, h1⟩⟩
    rw [show validateAdjacencyMapping A = validateEntries A from rfl, h1] at hc
    cases hc

/-- Witness for C10: a mapping whose value is not an array is invalid and
the validator throws on it. -/
theorem C10_validateAdjacencyMapping_witness :
    ¬ ValidMapping [("a", JSVal.vother)] ∧
    (∃ msg, validateAdjacencyMapping [("a", JSVal.vother)] = Except.error msg) :=
  ⟨by decide, (C10_validateAdjacencyMapping [("a", JSVal.vother)]).2 (by decide)⟩

/-! ## Cycle enumeration granularity (C1) -/

/-- Counterexample to C1: the graph `{a:[b,c], b:[a], c:[a]}` has two
distinct elementary cycles (member sets `{a,b}` and `{a,c}`), yet
`findCycles` returns a single entry (the strongly-connected component
`[a,b,c]`), so the result is not one canonical entry per elementary
cycle. -/
theorem C1_counterexample :
    IsElementaryCycle (buildGraph [("a", ["b", "c"]), ("b", ["a"]), ("c", ["a"])]) ["a", "b"] ∧
    IsElementaryCycle (buildGraph [("a", ["b", "c"]), ("b", ["a"]), ("c", ["a"])]) ["a", "c"] ∧
    findCycles (buildGraph [("a", ["b", "c"]), ("b", ["a"]), ("c", ["a"])]) =
      [["a", "b", "c"]] :=
  ⟨by decide, by decide, by decide⟩

/-- C1 amended: `findCycles` returns one canonical entry per
strongly-connected component containing a cycle (components with more than
one node, plus single nodes with a self-loop), not one entry per elementary
cycle.  On `{a:[b], b:[c], c:[a]}` it returns exactly one cycle `[a,b,c]`;
on `{a:[b], b:[a], x:[y], y:[z], z:[x]}` exactly the two cycles
`[a,b]` and `[x,y,z]` in that order; a self-loop yields the single-node
cycle; an acyclic graph yields no cycles; and on `{a:[b,c], b:[a], c:[a]}`,
which has two elementary cycles inside one component, it returns the single
entry `[a,b,c]`. -/
theorem C1_amended :
    findCycles (buildGraph [("a", ["b"]), ("b", ["c"]), ("c", ["a"])]) = [["a", "b", "c"]] ∧
    findCycles (buildGraph
      [("a", ["b"]), ("b", ["a"]), ("x", ["y"]), ("y", ["z"]), ("z", ["x"])]) =
      [["a", "b"], ["x", "y", "z"]] ∧
    findCycles (buildGraph [("a", ["a"])]) = [["a"]] ∧
    findCycles (buildGraph [("main", ["utils"]), ("utils", ["helpers"]), ("helpers", [])]) = [] ∧
    findCycles (buildGraph [("a", ["b", "c"]), ("b", ["a"]), ("c", ["a"])]) =
      [["a", "b", "c"]] :=
  ⟨by decide, by decide, by decide, by decide, by decide⟩

/-! ## Structural invariants of the tarjan traversal (C2)

The components that `tarjan` emits are pairwise disjoint, duplicate-free and
non-empty: a node enters `visited` exactly when it is pushed (never twice),
the stack therefore never holds duplicates, and every emitted component is a
popped stack segment.  These facts make the comparator of `findCycles`
total on its input: two distinct sorted components can never share their
first element. -/

/-- The node keys of the `visited` map. -/
def visKeys (vs : List (String × VisitedEntry)) : List String := vs.map Prod.fst

theorem ventryUpdate_keys (vs : List (String × VisitedEntry)) (w : String)
    (f : VisitedEntry → VisitedEntry) : visKeys (ventryUpdate vs w f) = visKeys vs := by
  unfold visKeys ventryUpdate
  rw [List.map_map]
  refine List.map_congr_left ?_
  intro p _
  by_cases h : p.1 = w
  · simp [h]
  · simp [h]

theorem vlookup_none_iff (w : String) : ∀ vs : List (String × VisitedEntry),
    vlookup vs w = none ↔ w ∉ visKeys vs
  | [] => by simp [vlookup, visKeys]
  | p :: vs => by
    have ih := vlookup_none_iff w vs
    unfold vlookup at ih ⊢
    by_cases h : w = p.1
    · simp [List.lookup, h, visKeys]
    · simp only [List.lookup, visKeys, List.map_cons, List.mem_cons]
      rw [show (w == p.1) = false from beq_eq_false_iff_ne.mpr h]
      simp only [ih, visKeys]
      constructor
      · intro hx hc
        rcases hc with hc | hc
        · exact h hc
        · exact hx hc
      · intro hx hc
        exact hx (Or.inr hc)

/-- The structural invariant of the tarjan state. -/
structure TarjanInv (s : TarjanState) : Prop where
  stack_nodup : s.stack.Nodup
  stack_vis : ∀ w ∈ s.stack, w ∈ visKeys s.visited
  res_ok : ∀ c ∈ s.results, c ≠ [] ∧ c.Nodup ∧ ∀ x ∈ c, x ∈ visKeys s.visited
  res_disj : List.Pairwise (fun c d => ∀ x ∈ c, x ∉ d) s.results
  res_stack : ∀ c ∈ s.results, ∀ x ∈ c, x ∉ s.stack

/-- One traversal state extends another: the stack grew by fresh nodes, the
visited keys grew, and the results grew at the end. -/
structure TExt (s s' : TarjanState) : Prop where
  stack_ext : ∃ T, s'.stack = T ++ s.stack ∧ ∀ x ∈ T, x ∉ visKeys s.visited
  vis_mono : ∀ x ∈ visKeys s.visited, x ∈ visKeys s'.visited
  res_ext : ∃ R, s'.results = s.results ++ R

theorem TExt.rfl (s : TarjanState) : TExt s s :=
  ⟨⟨[], by simp⟩, fun x hx => hx, ⟨[], by simp⟩⟩

theorem TExt.trans {s₁ s₂ s₃ : TarjanState} (h1 : TExt s₁ s₂) (h2 : TExt s₂ s₃) :
    TExt s₁ s₃ := by
  refine ⟨?_, fun x hx => h2.vis_mono x (h1.vis_mono x hx), ?_⟩
  · obtain ⟨T1, hT1, hf1⟩ := h1.stack_ext
    obtain ⟨T2, hT2, hf2⟩ := h2.stack_ext
    refine ⟨T2 ++ T1, by rw [hT2, hT1, List.append_assoc], ?_⟩
    intro x hx
    rcases List.mem_append.mp hx with hx | hx
    · intro hc
      exact hf2 x hx (h1.vis_mono x hc)
    · exact hf1 x hx
  · obtain ⟨R1, hR1⟩ := h1.res_ext
    obtain ⟨R2, hR2⟩ := h2.res_ext
    exact ⟨R1 ++ R2, by rw [hR2, hR1, List.append_assoc]⟩

/-- A pure lowlink update preserves the invariant. -/
theorem inv_visupdate {s : TarjanState} (h : TarjanInv s) (v : String)
    (f : VisitedEntry → VisitedEntry) :
    TarjanInv { s with visited := ventryUpdate s.visited v f } := by
  refine ⟨h.stack_nodup, ?_, ?_, h.res_disj, h.res_stack⟩
  · intro w hw
    show w ∈ visKeys (ventryUpdate s.visited v f)
    rw [ventryUpdate_keys]
    exact h.stack_vis w hw
  · intro c hc
    obtain ⟨h1, h2, h3⟩ := h.res_ok c hc
    refine ⟨h1, h2, ?_⟩
    intro x hx
    show x ∈ visKeys (ventryUpdate s.visited v f)
    rw [ventryUpdate_keys]
    exact h3 x hx

theorem text_visupdate (s : TarjanState) (v : String) (f : VisitedEntry → VisitedEntry) :
    TExt s { s with visited := ventryUpdate s.visited v f } := by
  refine ⟨⟨[], by simp⟩, ?_, ⟨[], by simp⟩⟩
  intro x hx
  show x ∈ visKeys (ventryUpdate s.visited v f)
  rw [ventryUpdate_keys]
  exact hx

/-- The pop loop splits the stack: the popped prefix becomes the component
tail, the visited keys are unchanged. -/
theorem tarjanPop_spec (v : String) : ∀ (stack : List String)
    (vis : List (String × VisitedEntry)) (cmpt : List String),
    visKeys (tarjanPop v stack vis cmpt).2.1 = visKeys vis ∧
    ∃ pre, stack = pre ++ (tarjanPop v stack vis cmpt).1 ∧
      (tarjanPop v stack vis cmpt).2.2 = cmpt ++ pre ∧ (stack ≠ [] → pre ≠ [])
  | [], vis, cmpt => by
    refine ⟨rfl, [], by simp [tarjanPop], by simp [tarjanPop], fun h => absurd rfl h⟩
  | w :: rest, vis, cmpt => by
    unfold tarjanPop
    dsimp only
    by_cases h : w = v
    · rw [if_pos h]
      dsimp only
      exact ⟨ventryUpdate_keys vis w _, ⟨[w], rfl, rfl, fun _ => by simp⟩⟩
    · rw [if_neg h]
      obtain ⟨hkeys, pre, hsplit, hcmpt, _⟩ :=
        tarjanPop_spec v rest (ventryUpdate vis w (fun e => { e with onStack := false }))
          (cmpt ++ [w])
      refine ⟨by rw [hkeys, ventryUpdate_keys], ⟨w :: pre, ?_, ?_, fun _ => by simp⟩⟩
      · rw [List.cons_append, ← hsplit]
      · rw [hcmpt, List.append_assoc]
        simp

/-- When the target is known not to sit in the popped prefix, the pop is
exact: it removes precisely the segment above and including `v`. -/
theorem tarjanPop_exact (v : String) : ∀ (A B : List String)
    (vis : List (String × VisitedEntry)) (cmpt : List String), v ∉ A →
    (tarjanPop v (A ++ v :: B) vis cmpt).1 = B ∧
    (tarjanPop v (A ++ v :: B) vis cmpt).2.2 = cmpt ++ A ++ [v]
  | [], B, vis, cmpt, _ => by
    rw [List.nil_append]
    unfold tarjanPop
    dsimp only
    rw [if_pos rfl]
    exact ⟨rfl, by simp⟩
  | a :: A, B, vis, cmpt, hv => by
    rw [List.cons_append]
    unfold tarjanPop
    dsimp only
    have ha : a ≠ v := fun hc => hv (by simp [hc])
    rw [if_neg ha]
    obtain ⟨h1, h2⟩ := tarjanPop_exact v A B
      (ventryUpdate vis a (fun e => { e with onStack := false })) (cmpt ++ [a])
      (fun hc => hv (by simp [hc]))
    refine ⟨h1, ?_⟩
    rw [h2]
    simp

theorem tarjanStep_spec (dfs : String → TarjanState → TarjanState)
    (hdfs : ∀ w s, TarjanInv s → w ∉ visKeys s.visited →
      TarjanInv (dfs w s) ∧ TExt s (dfs w s))
    (v : String) (s : TarjanState) (w : String) (h : TarjanInv s) :
    TarjanInv (tarjanStep dfs v s w) ∧ TExt s (tarjanStep dfs v s w) := by
  unfold tarjanStep
  cases hw : vlookup s.visited w with
  | none =>
    have hfresh : w ∉ visKeys s.visited := (vlookup_none_iff w s.visited).mp hw
    obtain ⟨hInv2, hExt2⟩ := hdfs w s h hfresh
    dsimp only
    cases vlookup (dfs w s).visited w with
    | some ew =>
      exact ⟨inv_visupdate hInv2 v _, hExt2.trans (text_visupdate _ v _)⟩
    | none => exact ⟨hInv2, hExt2⟩
  | some ew =>
    dsimp only
    by_cases hOn : ew.onStack = true
    · rw [if_pos hOn]
      exact ⟨inv_visupdate h v _, text_visupdate s v _⟩
    · rw [if_neg hOn]
      exact ⟨h, TExt.rfl s⟩

theorem tarjanFoldl_spec (dfs : String → TarjanState → TarjanState)
    (hdfs : ∀ w s, TarjanInv s → w ∉ visKeys s.visited →
      TarjanInv (dfs w s) ∧ TExt s (dfs w s))
    (v : String) : ∀ (ws : List String) (s : TarjanState), TarjanInv s →
      TarjanInv (ws.foldl (tarjanStep dfs v) s) ∧ TExt s (ws.foldl (tarjanStep dfs v) s)
  | [], s, h => ⟨h, TExt.rfl s⟩
  | w :: ws, s, h => by
    rw [List.foldl_cons]
    obtain ⟨h1, h2⟩ := tarjanStep_spec dfs hdfs v s w h
    obtain ⟨h3, h4⟩ := tarjanFoldl_spec dfs hdfs v ws _ h1
    exact ⟨h3, h2.trans h4⟩

theorem visKeys_append (vs : List (String × VisitedEntry)) (p : String × VisitedEntry) :
    visKeys (vs ++ [p]) = visKeys vs ++ [p.1] := by
  unfold visKeys
  rw [List.map_append]
  rfl

theorem tarjanDFS_spec (g : Graph) : ∀ (fuel : Nat) (v : String) (s : TarjanState),
    TarjanInv s → v ∉ visKeys s.visited →
    TarjanInv (tarjanDFS g fuel v s) ∧ TExt s (tarjanDFS g fuel v s) := by
  intro fuel
  induction fuel with
  | zero =>
    intro v s h _
    exact ⟨h, TExt.rfl s⟩
  | succ fuel ih =>
    intro v s h hfresh
    show TarjanInv (tarjanDFS g (fuel + 1) v s) ∧ TExt s (tarjanDFS g (fuel + 1) v s)
    rw [tarjanDFS]
    try dsimp only
    -- the pushed state
    have hkeys1 : visKeys (s.visited ++ [(v, ⟨true, s.index, s.index⟩)]) =
        visKeys s.visited ++ [v] := visKeys_append s.visited _
    have hInv1 : TarjanInv { s with
        visited := s.visited ++ [(v, ⟨true, s.index, s.index⟩)],
        index := s.index + 1, stack := v :: s.stack } := by
      refine ⟨?_, ?_, ?_, h.res_disj, ?_⟩
      · show (v :: s.stack).Nodup
        rw [List.nodup_cons]
        exact ⟨fun hc => hfresh (h.stack_vis v hc), h.stack_nodup⟩
      · intro w hw
        show w ∈ visKeys (s.visited ++ [(v, ⟨true, s.index, s.index⟩)])
        rw [hkeys1]
        rcases List.mem_cons.mp hw with hw | hw
        · subst hw
          simp
        · exact List.mem_append.mpr (Or.inl (h.stack_vis w hw))
      · intro c hc
        obtain ⟨h1, h2, h3⟩ := h.res_ok c hc
        refine ⟨h1, h2, ?_⟩
        intro x hx
        show x ∈ visKeys (s.visited ++ [(v, ⟨true, s.index, s.index⟩)])
        rw [hkeys1]
        exact List.mem_append.mpr (Or.inl (h3 x hx))
      · intro c hc x hx
        show x ∉ v :: s.stack
        intro hmem
        rcases List.mem_cons.mp hmem with hm | hm
        · subst hm
          exact hfresh ((h.res_ok c hc).2.2 x hx)
        · exact h.res_stack c hc x hx hm
    have hExt1 : TExt s { s with
        visited := s.visited ++ [(v, ⟨true, s.index, s.index⟩)],
        index := s.index + 1, stack := v :: s.stack } := by
      refine ⟨⟨[v], rfl, ?_⟩, ?_, ⟨[], by simp⟩⟩
      · intro x hx
        rcases List.mem_singleton.mp hx with rfl
        exact hfresh
      · intro x hx
        show x ∈ visKeys (s.visited ++ [(v, ⟨true, s.index, s.index⟩)])
        rw [hkeys1]
        exact List.mem_append.mpr (Or.inl hx)
    obtain ⟨hInv2, hExt2⟩ := tarjanFoldl_spec (fun w s' => tarjanDFS g fuel w s')
      (fun w s' hi hf => ih w s' hi hf) v (g.successors v) _ hInv1
    set s2 := List.foldl (tarjanStep (fun w s' => tarjanDFS g fuel w s') v)
      { s with
        visited := s.visited ++ [(v, ⟨true, s.index, s.index⟩)]
        index := s.index + 1
        stack := v :: s.stack } (g.successors v) with hs2
    have hExt02 : TExt s s2 := hExt1.trans hExt2
    rw [tarjanClose]
    cases hv2 : vlookup s2.visited v with
    | none => exact ⟨hInv2, hExt02⟩
    | some ev =>
      dsimp only
      by_cases hll : ev.lowlink = ev.index
      · rw [if_pos hll]
        -- the pop case: the stack is T2 ++ v :: s.stack with v not in T2
        obtain ⟨T2, hT2, hT2f⟩ := hExt2.stack_ext
        have hvT2 : v ∉ T2 := by
          intro hc
          exact hT2f v hc (by rw [hkeys1]; simp)
        have hstack2 : s2.stack = T2 ++ v :: s.stack := hT2
        obtain ⟨hpopk, pre, hsplit, hcmpt, _⟩ := tarjanPop_spec v s2.stack s2.visited []
        have hexact := tarjanPop_exact v T2 s.stack s2.visited [] hvT2
        rw [← hstack2] at hexact
        have hpop1 : (tarjanPop v s2.stack s2.visited []).1 = s.stack := hexact.1
        have hpop2 : (tarjanPop v s2.stack s2.visited []).2.2 = T2 ++ [v] := by
          rw [hexact.2]
          simp
        -- the popped component is a duplicate-free prefix of the stack
        have hstack2_eq : s2.stack = (T2 ++ [v]) ++ s.stack := by
          rw [hstack2, List.append_assoc]
          simp
        have hstack2_nodup : ((T2 ++ [v]) ++ s.stack).Nodup := by
          rw [← hstack2_eq]
          exact hInv2.stack_nodup
        have hcm_nodup : (T2 ++ [v]).Nodup := (List.nodup_append.mp hstack2_nodup).1
        have hdisj : ∀ x ∈ T2 ++ [v], x ∉ s.stack := by
          intro x hx
          exact (List.nodup_append.mp hstack2_nodup).2.2 hx
        have hsub_stack : ∀ x ∈ T2 ++ [v], x ∈ s2.stack := by
          intro x hx
          rw [hstack2_eq]
          exact List.mem_append.mpr (Or.inl hx)
        constructor
        · refine ⟨?_, ?_, ?_, ?_, ?_⟩
          · show ((tarjanPop v s2.stack s2.visited []).1).Nodup
            rw [hpop1]
            exact (List.nodup_append.mp hstack2_nodup).2.1
          · intro w hw
            show w ∈ visKeys (tarjanPop v s2.stack s2.visited []).2.1
            rw [hpopk]
            rw [show (tarjanPop v s2.stack s2.visited []).1 = s.stack from hpop1] at hw
            refine hInv2.stack_vis w ?_
            rw [hstack2_eq]
            exact List.mem_append.mpr (Or.inr hw)
          · intro c hc
            rcases List.mem_append.mp hc with hc | hc
            · obtain ⟨h1, h2, h3⟩ := hInv2.res_ok c hc
              refine ⟨h1, h2, ?_⟩
              intro x hx
              show x ∈ visKeys (tarjanPop v s2.stack s2.visited []).2.1
              rw [hpopk]
              exact h3 x hx
            · rw [List.mem_singleton.mp hc, hpop2]
              refine ⟨by simp, hcm_nodup, ?_⟩
              intro x hx
              show x ∈ visKeys (tarjanPop v s2.stack s2.visited []).2.1
              rw [hpopk]
              exact hInv2.stack_vis x (hsub_stack x hx)
          · rw [List.pairwise_append]
            refine ⟨hInv2.res_disj, by simp, ?_⟩
            intro c hc d hd x hx
            rw [List.mem_singleton.mp hd, hpop2]
            intro hmem
            exact hInv2.res_stack c hc x hx (hsub_stack x hmem)
          · intro c hc x hx
            show x ∉ (tarjanPop v s2.stack s2.visited []).1
            rw [hpop1]
            rcases List.mem_append.mp hc with hc | hc
            · intro hmem
              refine hInv2.res_stack c hc x hx ?_
              rw [hstack2_eq]
              exact List.mem_append.mpr (Or.inr hmem)
            · rw [List.mem_singleton.mp hc, hpop2] at hx
              exact hdisj x hx
        · refine ⟨?_, ?_, ?_⟩
          · refine ⟨[], ?_, by simp⟩
            show (tarjanPop v s2.stack s2.visited []).1 = [] ++ s.stack
            rw [hpop1]
            simp
          · intro x hx
            show x ∈ visKeys (tarjanPop v s2.stack s2.visited []).2.1
            rw [hpopk]
            exact hExt02.vis_mono x hx
          · obtain ⟨R2, hR2⟩ := hExt02.res_ext
            refine ⟨R2 ++ [(tarjanPop v s2.stack s2.visited []).2.2], ?_⟩
            show s2.results ++ [(tarjanPop v s2.stack s2.visited []).2.2] = _
            rw [hR2, List.append_assoc]
      · rw [if_neg hll]
        exact ⟨hInv2, hExt02⟩

theorem tarjanTop_spec (g : Graph) (fuel : Nat) : ∀ (ns : List String) (s : TarjanState),
    TarjanInv s →
    TarjanInv (ns.foldl (fun s v => if (vlookup s.visited v).isSome then s
      else tarjanDFS g fuel v s) s)
  | [], _, h => h
  | v :: ns, s, h => by
    rw [List.foldl_cons]
    refine tarjanTop_spec g fuel ns _ ?_
    by_cases hv : (vlookup s.visited v).isSome
    · rw [if_pos hv]
      exact h
    · rw [if_neg hv]
      have hnone : vlookup s.visited v = none := Option.not_isSome_iff_eq_none.mp hv
      exact (tarjanDFS_spec g fuel v s h ((vlookup_none_iff v s.visited).mp hnone)).1

/-- The components that `alg.tarjan` returns are non-empty, duplicate-free
and pairwise disjoint. -/
theorem tarjan_inv (g : Graph) :
    (∀ c ∈ tarjan g, c ≠ [] ∧ c.Nodup) ∧
    List.Pairwise (fun c d => ∀ x ∈ c, x ∉ d) (tarjan g) := by
  have hinit : TarjanInv ⟨0, [], [], []⟩ := by
    refine ⟨List.nodup_nil, ?_, ?_, List.Pairwise.nil, ?_⟩
    · intro w hw
      cases hw
    · intro c hc
      cases hc
    · intro c hc
      cases hc
  have h := tarjanTop_spec g (g.nodes.length + g.edges.length + 1) g.nodes ⟨0, [], [], []⟩ hinit
  refine ⟨?_, h.res_disj⟩
  intro c hc
  exact ⟨(h.res_ok c hc).1, (h.res_ok c hc).2.1⟩

/-- The cycle filter keeps these facts. -/
theorem algFindCycles_inv (g : Graph) :
    (∀ c ∈ algFindCycles g, c ≠ [] ∧ c.Nodup) ∧
    List.Pairwise (fun c d => ∀ x ∈ c, x ∉ d) (algFindCycles g) := by
  obtain ⟨h1, h2⟩ := tarjan_inv g
  constructor
  · intro c hc
    exact h1 c (List.mem_of_mem_filter hc)
  · exact List.Pairwise.sublist (List.filter_sublist _) h2

/-! ## Reachability and entry accessors for the tarjan correctness proof -/

/-- Reachability along the directed edges of the graph (reflexive-transitive
closure of the edge relation, membership-based and therefore invariant under
reordering of the edge list). -/
def Reach (g : Graph) : String → String → Prop :=
  Relation.ReflTransGen (fun a b => (a, b) ∈ g.edges)

theorem reach_refl (g : Graph) (x : String) : Reach g x x :=
  Relation.ReflTransGen.refl

theorem reach_trans {g : Graph} {x y z : String} (h1 : Reach g x y) (h2 : Reach g y z) :
    Reach g x z :=
  Relation.ReflTransGen.trans h1 h2

theorem reach_edge {g : Graph} {x y : String} (h : (x, y) ∈ g.edges) : Reach g x y :=
  Relation.ReflTransGen.single h

theorem mem_successors_iff (g : Graph) (v w : String) :
    w ∈ g.successors v ↔ (v, w) ∈ g.edges := by
  unfold Graph.successors
  simp only [List.mem_map, List.mem_filter, beq_iff_eq]
  constructor
  · rintro ⟨e, ⟨he, h1⟩, h2⟩
    rcases e with ⟨a, b⟩
    cases h1
    cases h2
    exact he
  · intro h
    exact ⟨(v, w), ⟨h, rfl⟩, rfl⟩

/-- Index of a visited node (0 when unvisited; only read on visited nodes). -/
def idxOf (vs : List (String × VisitedEntry)) (u : String) : Nat :=
  ((vlookup vs u).map VisitedEntry.index).getD 0

/-- Lowlink of a visited node (0 when unvisited; only read on visited nodes). -/
def lowOf (vs : List (String × VisitedEntry)) (u : String) : Nat :=
  ((vlookup vs u).map VisitedEntry.lowlink).getD 0

/-- On-stack flag of a visited node. -/
def flagOf (vs : List (String × VisitedEntry)) (u : String) : Bool :=
  ((vlookup vs u).map VisitedEntry.onStack).getD false

theorem vlookup_isSome_iff (w : String) (vs : List (String × VisitedEntry)) :
    (∃ e, vlookup vs w = some e) ↔ w ∈ visKeys vs := by
  constructor
  · rintro ⟨e, he⟩
    by_contra hc
    rw [← vlookup_none_iff] at hc
    rw [hc] at he
    cases he
  · intro h
    cases he : vlookup vs w with
    | none => exact absurd ((vlookup_none_iff w vs).mp he) (fun hc => hc h)
    | some e => exact ⟨e, rfl⟩

theorem vlookup_mem_keys {w : String} {vs : List (String × VisitedEntry)}
    {e : VisitedEntry} (h : vlookup vs w = some e) : w ∈ visKeys vs :=
  (vlookup_isSome_iff w vs).mp ⟨e, h⟩

/-- Lookup after an in-place entry update. -/
theorem vlookup_update (w : String) (f : VisitedEntry → VisitedEntry) (u : String) :
    ∀ vs : List (String × VisitedEntry),
    vlookup (ventryUpdate vs w f) u =
      if u = w then Option.map f (vlookup vs u) else vlookup vs u
  | [] => by
    by_cases h : u = w <;> simp [ventryUpdate, vlookup, List.lookup, h]
  | (k, e) :: vs => by
    have ih := vlookup_update w f u vs
    unfold vlookup at ih
    show vlookup ((if k = w then (k, f e) else (k, e)) :: ventryUpdate vs w f) u = _
    by_cases hk : k = w
    · rw [if_pos hk]
      by_cases hu : u = k
      · have huw : u = w := hu.trans hk
        rw [if_pos huw]
        subst hu
        simp [vlookup, List.lookup]
      · have huw : u ≠ w := fun hc => hu (hc.trans hk.symm)
        rw [if_neg huw]
        rw [if_neg huw] at ih
        simp only [vlookup, List.lookup,
          show (u == k) = false from beq_eq_false_iff_ne.mpr hu]
        exact ih
    · rw [if_neg hk]
      by_cases hu : u = k
      · have huw : u ≠ w := fun hc => hk (hu.symm.trans hc)
        rw [if_neg huw]
        subst hu
        simp [vlookup, List.lookup]
      · simp only [vlookup, List.lookup,
          show (u == k) = false from beq_eq_false_iff_ne.mpr hu]
        exact ih

/-- Lookup after appending a fresh entry. -/
theorem vlookup_append (u : String) (p : String × VisitedEntry) :
    ∀ vs : List (String × VisitedEntry),
    vlookup (vs ++ [p]) u = if u ∈ visKeys vs then vlookup vs u
      else if u = p.1 then some p.2 else none
  | [] => by
    by_cases h : u = p.1
    · simp [vlookup, visKeys, List.lookup, h, show (u == p.1) = true from beq_iff_eq.mpr h]
    · simp [vlookup, visKeys, List.lookup, h, show (u == p.1) = false from beq_eq_false_iff_ne.mpr h]
  | (k, e) :: vs => by
    have ih := vlookup_append u p vs
    by_cases hu : u = k
    · subst hu
      simp [vlookup, List.lookup, visKeys]
    · show vlookup ((k, e) :: (vs ++ [p])) u = _
      simp only [vlookup, List.lookup,
        show (u == k) = false from beq_eq_false_iff_ne.mpr hu]
      unfold vlookup at ih
      rw [ih]
      by_cases hmem : u ∈ visKeys vs
      · rw [if_pos hmem,
          if_pos (show u ∈ visKeys ((k, e) :: vs) from List.mem_cons.mpr (Or.inr hmem))]
      · rw [if_neg hmem, if_neg (show u ∉ visKeys ((k, e) :: vs) from by
          intro hc
          rcases List.mem_cons.mp hc with hc | hc
          · exact hu hc
          · exact hmem hc)]

/-- The lowlink-folding update used by `tarjanStep`. -/
def minLow (m : Nat) (e : VisitedEntry) : VisitedEntry :=
  { e with lowlink := min e.lowlink m }

/-- The flag-clearing update used by the pop loop. -/
def offStack (e : VisitedEntry) : VisitedEntry :=
  { e with onStack := false }

/-- The visited map produced by clearing the flags of a list of keys. -/
def popVis (L : List String) (vs : List (String × VisitedEntry)) :
    List (String × VisitedEntry) :=
  L.foldl (fun vs w => ventryUpdate vs w offStack) vs

theorem vlookup_popVis (u : String) : ∀ (L : List String) (vs : List (String × VisitedEntry)),
    vlookup (popVis L vs) u =
      if u ∈ L then Option.map offStack (vlookup vs u) else vlookup vs u
  | [], vs => by simp [popVis]
  | w :: L, vs => by
    have ih := vlookup_popVis u L (ventryUpdate vs w offStack)
    show vlookup (popVis L (ventryUpdate vs w offStack)) u = _
    rw [ih, vlookup_update]
    by_cases hw : u = w
    · subst hw
      rw [if_pos (List.mem_cons_self u L)]
      by_cases hL : u ∈ L
      · rw [if_pos hL, if_pos rfl, Option.map_map]
        have hff : (offStack ∘ offStack) = offStack := funext (fun e => rfl)
        rw [hff]
      · rw [if_neg hL, if_pos rfl]
    · by_cases hL : u ∈ L
      · rw [if_pos hL, if_neg hw,
          if_pos (show u ∈ w :: L from List.mem_cons.mpr (Or.inr hL))]
      · rw [if_neg hL, if_neg hw,
          if_neg (show u ∉ w :: L from by
            intro hc
            rcases List.mem_cons.mp hc with hc | hc
            · exact hw hc
            · exact hL hc)]

theorem popVis_keys (vs : List (String × VisitedEntry)) :
    ∀ L : List String, visKeys (popVis L vs) = visKeys vs := by
  intro L
  induction L generalizing vs with
  | nil => rfl
  | cons w L ih =>
    show visKeys (popVis L (ventryUpdate vs w offStack)) = _
    rw [ih, ventryUpdate_keys]

/-- The visited map after an exact pop is `popVis` over the popped segment. -/
theorem tarjanPop_exact_vis (v : String) : ∀ (A B : List String)
    (vis : List (String × VisitedEntry)) (cmpt : List String), v ∉ A →
    (tarjanPop v (A ++ v :: B) vis cmpt).2.1 = popVis (A ++ [v]) vis
  | [], B, vis, cmpt, _ => by
    rw [List.nil_append]
    unfold tarjanPop
    dsimp only
    rw [if_pos rfl]
    rfl
  | a :: A, B, vis, cmpt, hv => by
    rw [List.cons_append]
    unfold tarjanPop
    dsimp only
    have ha : a ≠ v := fun hc => hv (by simp [hc])
    rw [if_neg ha]
    have ih := tarjanPop_exact_vis v A B (ventryUpdate vis a offStack) (cmpt ++ [a])
      (fun hc => hv (by simp [hc]))
    exact ih

/-! Accessor transfer lemmas for the three visited-map operations. -/

theorem idxOf_update_min (vs : List (String × VisitedEntry)) (v : String) (m : Nat)
    (u : String) : idxOf (ventryUpdate vs v (minLow m)) u = idxOf vs u := by
  unfold idxOf
  rw [vlookup_update]
  by_cases h : u = v
  · rw [if_pos h]
    cases vlookup vs u <;> rfl
  · rw [if_neg h]

theorem flagOf_update_min (vs : List (String × VisitedEntry)) (v : String) (m : Nat)
    (u : String) : flagOf (ventryUpdate vs v (minLow m)) u = flagOf vs u := by
  unfold flagOf
  rw [vlookup_update]
  by_cases h : u = v
  · rw [if_pos h]
    cases vlookup vs u <;> rfl
  · rw [if_neg h]

theorem lowOf_update_min_other (vs : List (String × VisitedEntry)) (v : String) (m : Nat)
    (u : String) (h : u ≠ v) : lowOf (ventryUpdate vs v (minLow m)) u = lowOf vs u := by
  unfold lowOf
  rw [vlookup_update, if_neg h]

theorem lowOf_update_min_self (vs : List (String × VisitedEntry)) (v : String) (m : Nat)
    (e : VisitedEntry) (h : vlookup vs v = some e) :
    lowOf (ventryUpdate vs v (minLow m)) v = min e.lowlink m := by
  unfold lowOf
  rw [vlookup_update, if_pos rfl, h]
  rfl

theorem lowOf_update_min_le (vs : List (String × VisitedEntry)) (v : String) (m : Nat)
    (u : String) : lowOf (ventryUpdate vs v (minLow m)) u ≤ lowOf vs u := by
  unfold lowOf
  rw [vlookup_update]
  by_cases h : u = v
  · rw [if_pos h]
    cases vlookup vs u with
    | none => exact Nat.le_refl 0
    | some e => exact Nat.min_le_left _ _
  · rw [if_neg h]

theorem idxOf_popVis (L : List String) (vs : List (String × VisitedEntry)) (u : String) :
    idxOf (popVis L vs) u = idxOf vs u := by
  unfold idxOf
  rw [vlookup_popVis]
  by_cases h : u ∈ L
  · rw [if_pos h]
    cases vlookup vs u <;> rfl
  · rw [if_neg h]

theorem lowOf_popVis (L : List String) (vs : List (String × VisitedEntry)) (u : String) :
    lowOf (popVis L vs) u = lowOf vs u := by
  unfold lowOf
  rw [vlookup_popVis]
  by_cases h : u ∈ L
  · rw [if_pos h]
    cases vlookup vs u <;> rfl
  · rw [if_neg h]

theorem flagOf_popVis_mem (L : List String) (vs : List (String × VisitedEntry)) (u : String)
    (hu : u ∈ L) (hk : u ∈ visKeys vs) : flagOf (popVis L vs) u = false := by
  unfold flagOf
  rw [vlookup_popVis, if_pos hu]
  obtain ⟨e, he⟩ := (vlookup_isSome_iff u vs).mpr hk
  rw [he]
  rfl

theorem flagOf_popVis_not_mem (L : List String) (vs : List (String × VisitedEntry))
    (u : String) (hu : u ∉ L) : flagOf (popVis L vs) u = flagOf vs u := by
  unfold flagOf
  rw [vlookup_popVis, if_neg hu]

theorem idxOf_append_old (vs : List (String × VisitedEntry)) (p : String × VisitedEntry)
    (u : String) (h : u ∈ visKeys vs) : idxOf (vs ++ [p]) u = idxOf vs u := by
  unfold idxOf
  rw [vlookup_append, if_pos h]

theorem lowOf_append_old (vs : List (String × VisitedEntry)) (p : String × VisitedEntry)
    (u : String) (h : u ∈ visKeys vs) : lowOf (vs ++ [p]) u = lowOf vs u := by
  unfold lowOf
  rw [vlookup_append, if_pos h]

theorem flagOf_append_old (vs : List (String × VisitedEntry)) (p : String × VisitedEntry)
    (u : String) (h : u ∈ visKeys vs) : flagOf (vs ++ [p]) u = flagOf vs u := by
  unfold flagOf
  rw [vlookup_append, if_pos h]

theorem vlookup_append_self (vs : List (String × VisitedEntry)) (p : String × VisitedEntry)
    (h : p.1 ∉ visKeys vs) : vlookup (vs ++ [p]) p.1 = some p.2 := by
  rw [vlookup_append, if_neg h, if_pos rfl]

/-! ## The full correctness invariant of the tarjan traversal

`A` is the chain of active ancestors of the depth-first search (the nodes
whose `dfs` call is still running), innermost first.  All other facts are
state-level: they hold of the traversal state between any two atomic
operations. -/

/-- The semantic invariant of the tarjan state.  Together with `TarjanInv`
it pins the meaning of every field: indices are assigned in visit order and
are injective, the `onStack` flag mirrors stack membership, stack indices
decrease from the top, lowlinks are bounded by indices and witnessed by a
reachable open node, lower stack entries reach higher ones, finished open
nodes have a strictly smaller lowlink, edges out of finished nodes have been
folded into their lowlink, and the recorded results are exactly maximal
mutually-reachable components closed under successors. -/
structure SInv (g : Graph) (A : List String) (s : TarjanState) : Prop where
  keys_nodup : (visKeys s.visited).Nodup
  keys_nodes : ∀ u ∈ visKeys s.visited, u ∈ g.nodes
  idx_lt : ∀ u ∈ visKeys s.visited, idxOf s.visited u < s.index
  idx_inj : ∀ u ∈ visKeys s.visited, ∀ z ∈ visKeys s.visited,
    idxOf s.visited u = idxOf s.visited z → u = z
  flag_iff : ∀ u ∈ visKeys s.visited, (flagOf s.visited u = true ↔ u ∈ s.stack)
  stack_sorted : List.Pairwise (fun a b => idxOf s.visited b < idxOf s.visited a) s.stack
  low_le : ∀ u ∈ visKeys s.visited, lowOf s.visited u ≤ idxOf s.visited u
  ol : ∀ u ∈ s.stack, ∃ z ∈ s.stack, idxOf s.visited z = lowOf s.visited u ∧ Reach g u z
  i2 : ∀ u ∈ s.stack, ∀ z ∈ s.stack, idxOf s.visited u ≤ idxOf s.visited z → Reach g u z
  strict : ∀ u ∈ s.stack, u ∉ A → lowOf s.visited u < idxOf s.visited u
  er : ∀ u ∈ visKeys s.visited, u ∉ A → ∀ w ∈ g.successors u,
    w ∈ visKeys s.visited ∧ (w ∈ s.stack →
      lowOf s.visited u ≤ idxOf s.visited w ∨ idxOf s.visited u < idxOf s.visited w)
  rd : ∀ c ∈ s.results, ∀ x ∈ c, ∀ y ∈ c, Reach g x y
  maxd : ∀ c ∈ s.results, ∀ x ∈ c, ∀ y, Reach g x y → Reach g y x → y ∈ c
  dc : ∀ c ∈ s.results, ∀ x ∈ c, ∀ w ∈ g.successors x,
    w ∈ visKeys s.visited ∧ w ∉ s.stack
  part : ∀ u ∈ visKeys s.visited, u ∈ s.stack ∨ ∃ c ∈ s.results, u ∈ c

/-- What one completed `dfs(v)` call adds on top of the state it received:
`v` is now visited with index equal to the entry counter, the entries of
previously visited nodes are untouched, the stack grew by a segment of fresh
nodes reachable from `v` (all of it popped again if `v` closed its
component), fresh nodes carry indices at least `v`-s, and the lowlink of `v`
bounds the lowlink of every fresh node still open. -/
structure DfsPost (g : Graph) (v : String) (s t' : TarjanState) : Prop where
  vkey : v ∈ visKeys t'.visited
  frz : ∀ u ∈ visKeys s.visited, vlookup t'.visited u = vlookup s.visited u
  keys_pre : ∃ K, visKeys t'.visited = visKeys s.visited ++ v :: K
  stk : ∃ T, t'.stack = T ++ s.stack ∧ (∀ x ∈ T, x ∉ visKeys s.visited ∧ Reach g v x)
    ∧ (v ∈ T ∨ T = [])
  vidx : idxOf t'.visited v = s.index
  idx_mono : s.index < t'.index
  newidx : ∀ u ∈ visKeys t'.visited, u ∉ visKeys s.visited → s.index ≤ idxOf t'.visited u
  mlow : ∀ u ∈ t'.stack, u ∉ s.stack → lowOf t'.visited v ≤ lowOf t'.visited u
  selfpop : v ∉ t'.stack → lowOf t'.visited v = idxOf t'.visited v

/-- The invariant of the fold over the successors of `v` inside `dfs(v)`,
relative to the state `s` that `dfs(v)` received: `processed` is the list of
successors already folded. -/
structure MidInv (g : Graph) (A : List String) (v : String) (s : TarjanState)
    (processed : List String) (s₂ : TarjanState) : Prop where
  ti : TarjanInv s₂
  inv : SInv g (v :: A) s₂
  frz : ∀ u ∈ visKeys s.visited, vlookup s₂.visited u = vlookup s.visited u
  keys_pre : ∃ K, visKeys s₂.visited = visKeys s.visited ++ v :: K
  stk : ∃ T, s₂.stack = T ++ v :: s.stack ∧
    ∀ x ∈ T, x ∉ visKeys s.visited ∧ x ≠ v ∧ Reach g v x
  vidx : idxOf s₂.visited v = s.index
  idx_mono : s.index < s₂.index
  newidx : ∀ u ∈ visKeys s₂.visited, u ∉ visKeys s.visited → s.index ≤ idxOf s₂.visited u
  mlow : ∀ u ∈ s₂.stack, u ∉ s.stack → lowOf s₂.visited v ≤ lowOf s₂.visited u
  ps : ∀ w ∈ processed, w ∈ visKeys s₂.visited ∧ (w ∈ s₂.stack →
    lowOf s₂.visited v ≤ idxOf s₂.visited w ∨ s.index < idxOf s₂.visited w)

theorem pairwise_of_mem_imp {α : Type} {R S : α → α → Prop} :
    ∀ {l : List α}, (∀ a ∈ l, ∀ b ∈ l, R a b → S a b) → l.Pairwise R → l.Pairwise S
  | [], _, _ => List.Pairwise.nil
  | a :: l, h, hp => by
    rw [List.pairwise_cons] at hp ⊢
    refine ⟨fun b hb => h a (List.mem_cons_self a l) b (List.mem_cons.mpr (Or.inr hb))
      (hp.1 b hb), ?_⟩
    exact pairwise_of_mem_imp
      (fun x hx y hy => h x (List.mem_cons.mpr (Or.inr hx)) y (List.mem_cons.mpr (Or.inr hy)))
      hp.2

theorem nodup_length_le {l₁ l₂ : List String} (h₁ : l₁.Nodup)
    (hsub : ∀ x ∈ l₁, x ∈ l₂) : l₁.length ≤ l₂.length := by
  calc l₁.length = l₁.toFinset.card := (List.toFinset_card_of_nodup h₁).symm
    _ ≤ l₂.toFinset.card := Finset.card_le_card (fun x hx =>
        List.mem_toFinset.mpr (hsub x (List.mem_toFinset.mp hx)))
    _ ≤ l₂.length := l₂.toFinset_card_le

/-- Every node of the current stack reaches any successor of the node most
recently pushed: nodes at or below it reach it through the stack, nodes
above it are finished and descend through their lowlink witness. -/
theorem stack_reach_new (g : Graph) (A : List String) (v : String) (s₂ : TarjanState)
    (hS : SInv g (v :: A) s₂) (hv : v ∈ s₂.stack)
    (hAidx : ∀ x ∈ A, idxOf s₂.visited x < idxOf s₂.visited v)
    (w : String) (hw : (v, w) ∈ g.edges) :
    ∀ u ∈ s₂.stack, Reach g u w := by
  suffices h : ∀ n, ∀ u ∈ s₂.stack, idxOf s₂.visited u < n → Reach g u w by
    intro u hu
    exact h (idxOf s₂.visited u + 1) u hu (Nat.lt_succ_self _)
  intro n
  induction n with
  | zero =>
    intro u _ h
    cases h
  | succ n ih =>
    intro u hu hun
    by_cases hle : idxOf s₂.visited u ≤ idxOf s₂.visited v
    · exact reach_trans (hS.i2 u hu v hv hle) (reach_edge hw)
    · have hgt : idxOf s₂.visited v < idxOf s₂.visited u := Nat.lt_of_not_le hle
      have hnA : u ∉ v :: A := by
        intro hc
        rcases List.mem_cons.mp hc with hc | hc
        · subst hc
          exact Nat.lt_irrefl _ hgt
        · exact Nat.lt_irrefl _ (Nat.lt_trans (hAidx u hc) hgt)
      obtain ⟨z, hz, hzidx, hzr⟩ := hS.ol u hu
      have hzlt : idxOf s₂.visited z < idxOf s₂.visited u := by
        rw [hzidx]
        exact hS.strict u hu hnA
      exact reach_trans hzr (ih z hz (Nat.lt_of_lt_of_le hzlt (Nat.lt_succ_iff.mp hun)))

/-- Pushing a fresh node `v` establishes the fold invariant with an empty
processed list. -/
theorem dfs_push (g : Graph) (A : List String) (v : String) (s : TarjanState)
    (hTI : TarjanInv s) (hS : SInv g A s) (hfresh : v ∉ visKeys s.visited)
    (hvnode : v ∈ g.nodes) (hreach : ∀ u ∈ s.stack, Reach g u v)
    (hA : ∀ x ∈ A, x ∈ s.stack) :
    MidInv g A v s [] { s with
      visited := s.visited ++ [(v, ⟨true, s.index, s.index⟩)],
      index := s.index + 1, stack := v :: s.stack } := by
  have hkeys1 : visKeys (s.visited ++ [(v, ⟨true, s.index, s.index⟩)]) =
      visKeys s.visited ++ [v] := visKeys_append s.visited _
  have hne : ∀ u ∈ visKeys s.visited, u ≠ v := fun u hu hc => hfresh (hc ▸ hu)
  have hlookv : vlookup (s.visited ++ [(v, ⟨true, s.index, s.index⟩)]) v =
      some ⟨true, s.index, s.index⟩ :=
    vlookup_append_self s.visited (v, ⟨true, s.index, s.index⟩) hfresh
  have hidxv : idxOf (s.visited ++ [(v, ⟨true, s.index, s.index⟩)]) v = s.index := by
    unfold idxOf
    rw [hlookv]
    rfl
  have hlowv : lowOf (s.visited ++ [(v, ⟨true, s.index, s.index⟩)]) v = s.index := by
    unfold lowOf
    rw [hlookv]
    rfl
  have hflagv : flagOf (s.visited ++ [(v, ⟨true, s.index, s.index⟩)]) v = true := by
    unfold flagOf
    rw [hlookv]
    rfl
  have hio : ∀ u ∈ visKeys s.visited,
      idxOf (s.visited ++ [(v, ⟨true, s.index, s.index⟩)]) u = idxOf s.visited u :=
    fun u hu => idxOf_append_old s.visited _ u hu
  have hlo : ∀ u ∈ visKeys s.visited,
      lowOf (s.visited ++ [(v, ⟨true, s.index, s.index⟩)]) u = lowOf s.visited u :=
    fun u hu => lowOf_append_old s.visited _ u hu
  have hfo : ∀ u ∈ visKeys s.visited,
      flagOf (s.visited ++ [(v, ⟨true, s.index, s.index⟩)]) u = flagOf s.visited u :=
    fun u hu => flagOf_append_old s.visited _ u hu
  have hstackkeys : ∀ u ∈ s.stack, u ∈ visKeys s.visited := hTI.stack_vis
  have hmem1 : ∀ u, u ∈ visKeys s.visited ++ [v] ↔ u ∈ visKeys s.visited ∨ u = v := by
    intro u
    rw [List.mem_append, List.mem_singleton]
  refine ⟨?_, ?_, ?_, ?_, ?_, ?_, ?_, ?_, ?_, ?_⟩
  · -- TarjanInv
    refine ⟨?_, ?_, ?_, hTI.res_disj, ?_⟩
    · show (v :: s.stack).Nodup
      rw [List.nodup_cons]
      exact ⟨fun hc => hfresh (hstackkeys v hc), hTI.stack_nodup⟩
    · intro w hw
      show w ∈ visKeys (s.visited ++ [(v, ⟨true, s.index, s.index⟩)])
      rw [hkeys1, hmem1]
      rcases List.mem_cons.mp hw with hw | hw
      · exact Or.inr hw
      · exact Or.inl (hstackkeys w hw)
    · intro c hc
      obtain ⟨h1, h2, h3⟩ := hTI.res_ok c hc
      refine ⟨h1, h2, fun x hx => ?_⟩
      show x ∈ visKeys (s.visited ++ [(v, ⟨true, s.index, s.index⟩)])
      rw [hkeys1, hmem1]
      exact Or.inl (h3 x hx)
    · intro c hc x hx
      show x ∉ v :: s.stack
      intro hmem
      rcases List.mem_cons.mp hmem with hm | hm
      · exact hfresh (hm ▸ (hTI.res_ok c hc).2.2 x hx)
      · exact hTI.res_stack c hc x hx hm
  · -- SInv g (v :: A)
    refine ⟨?_, ?_, ?_, ?_, ?_, ?_, ?_, ?_, ?_, ?_, ?_, ?_, ?_, ?_, ?_⟩
    · show (visKeys (s.visited ++ [(v, ⟨true, s.index, s.index⟩)])).Nodup
      rw [hkeys1, List.nodup_append]
      exact ⟨hS.keys_nodup, List.nodup_singleton v,
        fun x hx hx2 => hne x hx (List.mem_singleton.mp hx2)⟩
    · intro u hu
      rw [hkeys1, hmem1] at hu
      rcases hu with hu | hu
      · exact hS.keys_nodes u hu
      · exact hu ▸ hvnode
    · intro u hu
      show idxOf _ u < s.index + 1
      rw [hkeys1, hmem1] at hu
      rcases hu with hu | hu
      · rw [hio u hu]
        exact Nat.lt_succ_of_lt (hS.idx_lt u hu)
      · subst hu
        rw [hidxv]
        exact Nat.lt_succ_self _
    · intro u hu z hz
      rw [hkeys1, hmem1] at hu hz
      rcases hu with hu | hu <;> rcases hz with hz | hz
      · rw [hio u hu, hio z hz]
        exact hS.idx_inj u hu z hz
      · subst hz
        rw [hio u hu, hidxv]
        intro hc
        exact absurd (hc ▸ hS.idx_lt u hu) (Nat.lt_irrefl _)
      · subst hu
        rw [hio z hz, hidxv]
        intro hc
        exact absurd (hc ▸ hS.idx_lt z hz) (fun hh => Nat.lt_irrefl _ hh)
      · subst hu
        intro _
        exact hz.symm
    · intro u hu
      show flagOf _ u = true ↔ u ∈ v :: s.stack
      rw [hkeys1, hmem1] at hu
      rcases hu with hu | hu
      · rw [hfo u hu]
        rw [List.mem_cons]
        constructor
        · intro h
          exact Or.inr ((hS.flag_iff u hu).mp h)
        · intro h
          rcases h with h | h
          · exact absurd h (hne u hu)
          · exact (hS.flag_iff u hu).mpr h
      · subst hu
        rw [hflagv]
        simp
    · show List.Pairwise _ (v :: s.stack)
      rw [List.pairwise_cons]
      constructor
      · intro b hb
        rw [hio b (hstackkeys b hb), hidxv]
        exact hS.idx_lt b (hstackkeys b hb)
      · refine pairwise_of_mem_imp (fun a ha b hb h => ?_) hS.stack_sorted
        rw [hio b (hstackkeys b hb), hio a (hstackkeys a ha)]
        exact h
    · intro u hu
      rw [hkeys1, hmem1] at hu
      rcases hu with hu | hu
      · rw [hio u hu, hlo u hu]
        exact hS.low_le u hu
      · subst hu
        rw [hidxv, hlowv]
    · intro u hu
      rcases List.mem_cons.mp hu with hu | hu
      · subst hu
        exact ⟨u, List.mem_cons_self u s.stack, by rw [hidxv, hlowv], reach_refl g u⟩
      · obtain ⟨z, hz, hzidx, hzr⟩ := hS.ol u hu
        refine ⟨z, List.mem_cons.mpr (Or.inr hz), ?_, hzr⟩
        rw [hio z (hstackkeys z hz), hlo u (hstackkeys u hu)]
        exact hzidx
    · intro u hu z hz hle
      rcases List.mem_cons.mp hu with hueq | hus
      · rcases List.mem_cons.mp hz with hzeq | hzs
        · rw [hueq, hzeq]
          exact reach_refl g v
        · rw [hueq] at hle ⊢
          rw [hidxv, hio z (hstackkeys z hzs)] at hle
          exact absurd (Nat.lt_of_le_of_lt hle (hS.idx_lt z (hstackkeys z hzs)))
            (Nat.lt_irrefl _)
      · rcases List.mem_cons.mp hz with hzeq | hzs
        · rw [hzeq]
          exact hreach u hus
        · rw [hio u (hstackkeys u hus), hio z (hstackkeys z hzs)] at hle
          exact hS.i2 u hus z hzs hle
    · intro u hu hnA
      have hu' : u ∈ s.stack := by
        rcases List.mem_cons.mp hu with hu | hu
        · exact absurd (List.mem_cons.mpr (Or.inl hu)) hnA
        · exact hu
      have hnAu : u ∉ A := fun hc => hnA (List.mem_cons.mpr (Or.inr hc))
      rw [hio u (hstackkeys u hu'), hlo u (hstackkeys u hu')]
      exact hS.strict u hu' hnAu
    · intro u hu hnA w hw
      rw [hkeys1, hmem1] at hu
      rcases hu with hu | hu
      · have hnAu : u ∉ A := fun hc => hnA (List.mem_cons.mpr (Or.inr hc))
        obtain ⟨hwk, hcl⟩ := hS.er u hu hnAu w hw
        constructor
        · rw [hkeys1, hmem1]
          exact Or.inl hwk
        · intro hws
          have hws' : w ∈ s.stack := by
            rcases List.mem_cons.mp hws with hws | hws
            · exact absurd hws (hne w hwk)
            · exact hws
          rw [hlo u hu, hio w hwk, hio u hu]
          exact hcl hws'
      · exact absurd (List.mem_cons.mpr (Or.inl hu)) hnA
    · intro c hc
      exact hS.rd c hc
    · intro c hc
      exact hS.maxd c hc
    · intro c hc x hx w hw
      obtain ⟨hwk, hws⟩ := hS.dc c hc x hx w hw
      constructor
      · rw [hkeys1, hmem1]
        exact Or.inl hwk
      · intro hmem
        rcases List.mem_cons.mp hmem with hm | hm
        · exact hne w hwk hm
        · exact hws hm
    · intro u hu
      rw [hkeys1, hmem1] at hu
      rcases hu with hu | hu
      · rcases hS.part u hu with h | h
        · exact Or.inl (List.mem_cons.mpr (Or.inr h))
        · exact Or.inr h
      · exact Or.inl (List.mem_cons.mpr (Or.inl hu))
  · -- frz
    intro u hu
    show vlookup (s.visited ++ [(v, ⟨true, s.index, s.index⟩)]) u = vlookup s.visited u
    rw [vlookup_append, if_pos hu]
  · -- keys_pre
    exact ⟨[], by rw [hkeys1]⟩
  · -- stk
    exact ⟨[], rfl, fun x hx => absurd hx (List.not_mem_nil x)⟩
  · -- vidx
    exact hidxv
  · -- idx_mono
    exact Nat.lt_succ_self _
  · -- newidx
    intro u hu hnu
    rw [hkeys1, hmem1] at hu
    rcases hu with hu | hu
    · exact absurd hu hnu
    · subst hu
      rw [hidxv]
  · -- mlow
    intro u hu hnu
    rcases List.mem_cons.mp hu with hu | hu
    · subst hu
      exact Nat.le_refl _
    · exact absurd hu hnu
  · -- ps
    intro w hw
    exact absurd hw (List.not_mem_nil w)

theorem idxOf_congr {vs vs' : List (String × VisitedEntry)} {u : String}
    (h : vlookup vs' u = vlookup vs u) : idxOf vs' u = idxOf vs u := by
  unfold idxOf
  rw [h]

theorem lowOf_congr {vs vs' : List (String × VisitedEntry)} {u : String}
    (h : vlookup vs' u = vlookup vs u) : lowOf vs' u = lowOf vs u := by
  unfold lowOf
  rw [h]

theorem flagOf_congr {vs vs' : List (String × VisitedEntry)} {u : String}
    (h : vlookup vs' u = vlookup vs u) : flagOf vs' u = flagOf vs u := by
  unfold flagOf
  rw [h]

theorem lowOf_lookup {vs : List (String × VisitedEntry)} {u : String} {e : VisitedEntry}
    (h : vlookup vs u = some e) : lowOf vs u = e.lowlink := by
  unfold lowOf
  rw [h]
  rfl

theorem idxOf_lookup {vs : List (String × VisitedEntry)} {u : String} {e : VisitedEntry}
    (h : vlookup vs u = some e) : idxOf vs u = e.index := by
  unfold idxOf
  rw [h]
  rfl

theorem flagOf_lookup {vs : List (String × VisitedEntry)} {u : String} {e : VisitedEntry}
    (h : vlookup vs u = some e) : flagOf vs u = e.onStack := by
  unfold flagOf
  rw [h]
  rfl

/-- Folding a value into the lowlink of `v` preserves the semantic invariant,
provided a lowlink witness for the new value is supplied when `v` is open.
All other clauses are robust under a decrease of one lowlink. -/
theorem sinv_update_min (g : Graph) (B : List String) (s₂ : TarjanState) (v : String)
    (m : Nat) (hS₂ : SInv g B s₂)
    (hsk : ∀ x ∈ s₂.stack, x ∈ visKeys s₂.visited)
    (hol : v ∈ s₂.stack → ∃ z ∈ s₂.stack,
      idxOf s₂.visited z = min (lowOf s₂.visited v) m ∧ Reach g v z) :
    SInv g B { s₂ with visited := ventryUpdate s₂.visited v (minLow m) } := by
  have hkeys : visKeys (ventryUpdate s₂.visited v (minLow m)) = visKeys s₂.visited :=
    ventryUpdate_keys s₂.visited v (minLow m)
  have hio : ∀ u, idxOf (ventryUpdate s₂.visited v (minLow m)) u = idxOf s₂.visited u :=
    idxOf_update_min s₂.visited v m
  have hfo : ∀ u, flagOf (ventryUpdate s₂.visited v (minLow m)) u = flagOf s₂.visited u :=
    flagOf_update_min s₂.visited v m
  have hlon : ∀ u, u ≠ v →
      lowOf (ventryUpdate s₂.visited v (minLow m)) u = lowOf s₂.visited u :=
    fun u h => lowOf_update_min_other s₂.visited v m u h
  have hlole : ∀ u, lowOf (ventryUpdate s₂.visited v (minLow m)) u ≤ lowOf s₂.visited u :=
    fun u => lowOf_update_min_le s₂.visited v m u
  have hlov : v ∈ visKeys s₂.visited →
      lowOf (ventryUpdate s₂.visited v (minLow m)) v = min (lowOf s₂.visited v) m := by
    intro hvk
    obtain ⟨e, he⟩ := (vlookup_isSome_iff v s₂.visited).mpr hvk
    rw [lowOf_update_min_self s₂.visited v m e he, lowOf_lookup he]
  refine ⟨?_, ?_, ?_, ?_, ?_, ?_, ?_, ?_, ?_, ?_, ?_, hS₂.rd, hS₂.maxd, ?_, ?_⟩
  · dsimp only
    rw [hkeys]
    exact hS₂.keys_nodup
  · dsimp only
    intro u hu
    rw [hkeys] at hu
    exact hS₂.keys_nodes u hu
  · dsimp only
    intro u hu
    rw [hkeys] at hu
    rw [hio u]
    exact hS₂.idx_lt u hu
  · dsimp only
    intro u hu z hz
    rw [hkeys] at hu hz
    rw [hio u, hio z]
    exact hS₂.idx_inj u hu z hz
  · dsimp only
    intro u hu
    rw [hkeys] at hu
    rw [hfo u]
    exact hS₂.flag_iff u hu
  · dsimp only
    refine pairwise_of_mem_imp (fun a _ b _ h => ?_) hS₂.stack_sorted
    rw [hio a, hio b]
    exact h
  · dsimp only
    intro u hu
    rw [hkeys] at hu
    rw [hio u]
    exact Nat.le_trans (hlole u) (hS₂.low_le u hu)
  · dsimp only
    intro u hu
    by_cases huv : u = v
    · subst huv
      obtain ⟨z, hz, hzi, hzr⟩ := hol hu
      refine ⟨z, hz, ?_, hzr⟩
      rw [hio z, hzi, hlov (hsk u hu)]
    · obtain ⟨z, hz, hzi, hzr⟩ := hS₂.ol u hu
      refine ⟨z, hz, ?_, hzr⟩
      rw [hio z, hlon u huv, hzi]
  · dsimp only
    intro u hu z hz hle
    rw [hio u, hio z] at hle
    exact hS₂.i2 u hu z hz hle
  · dsimp only
    intro u hu hnB
    rw [hio u]
    exact Nat.lt_of_le_of_lt (hlole u) (hS₂.strict u hu hnB)
  · dsimp only
    intro u hu hnB w hw
    rw [hkeys] at hu
    obtain ⟨hwk, hcl⟩ := hS₂.er u hu hnB w hw
    refine ⟨by rw [hkeys]; exact hwk, ?_⟩
    intro hws
    rcases hcl hws with h | h
    · exact Or.inl (by rw [hio w]; exact Nat.le_trans (hlole u) h)
    · exact Or.inr (by rw [hio u, hio w]; exact h)
  · dsimp only
    intro c hc x hx w hw
    obtain ⟨hwk, hws⟩ := hS₂.dc c hc x hx w hw
    exact ⟨by rw [hkeys]; exact hwk, hws⟩
  · dsimp only
    intro u hu
    rw [hkeys] at hu
    exact hS₂.part u hu

/-- One iteration of the successor fold inside `dfs(v)` preserves the fold
invariant, extending the processed list by that successor. -/
theorem dfs_step (g : Graph) (hWF : g.WF) (fuel : Nat)
    (hdfs : ∀ (B : List String) (x : String) (t : TarjanState),
      TarjanInv t → SInv g B t → x ∉ visKeys t.visited → x ∈ g.nodes →
      (∀ u ∈ t.stack, Reach g u x) → (∀ y ∈ B, y ∈ t.stack) →
      g.nodes.length < (visKeys t.visited).length + fuel →
      SInv g B (tarjanDFS g fuel x t) ∧ DfsPost g x t (tarjanDFS g fuel x t))
    (A : List String) (v : String) (s : TarjanState)
    (hS : SInv g A s) (hA : ∀ x ∈ A, x ∈ s.stack)
    (hAk : ∀ x ∈ A, x ∈ visKeys s.visited)
    (hfreshv : v ∉ visKeys s.visited)
    (hfuel : g.nodes.length < (visKeys s.visited).length + 1 + fuel)
    (processed : List String) (s₂ : TarjanState)
    (hM : MidInv g A v s processed s₂)
    (w : String) (hw : w ∈ g.successors v) :
    MidInv g A v s (processed ++ [w])
      (tarjanStep (fun x t => tarjanDFS g fuel x t) v s₂ w) := by
  obtain ⟨T, hTstk, hTprop⟩ := hM.stk
  have hv₂ : v ∈ s₂.stack := by
    rw [hTstk]
    exact List.mem_append.mpr (Or.inr (List.mem_cons_self v s.stack))
  have hsk₂ : ∀ x ∈ s₂.stack, x ∈ visKeys s₂.visited := hM.ti.stack_vis
  have hvk₂ : v ∈ visKeys s₂.visited := hsk₂ v hv₂
  have hkeysub : ∀ u ∈ visKeys s.visited, u ∈ visKeys s₂.visited := by
    intro u hu
    obtain ⟨K, hK⟩ := hM.keys_pre
    rw [hK]
    exact List.mem_append.mpr (Or.inl hu)
  have hedge : (v, w) ∈ g.edges := (mem_successors_iff g v w).mp hw
  have hvlow₂ : lowOf s₂.visited v ≤ s.index := by
    have h := hM.inv.low_le v hvk₂
    rw [hM.vidx] at h
    exact h
  unfold tarjanStep
  cases hlw : vlookup s₂.visited w with
  | none =>
    dsimp only
    have hfw : w ∉ visKeys s₂.visited := (vlookup_none_iff w s₂.visited).mp hlw
    have hwnode : w ∈ g.nodes := (hWF.2.2 (v, w) hedge).2
    have hAidx : ∀ x ∈ A, idxOf s₂.visited x < idxOf s₂.visited v := by
      intro x hx
      rw [hM.vidx, idxOf_congr (hM.frz x (hAk x hx))]
      exact hS.idx_lt x (hAk x hx)
    have hpre : ∀ u ∈ s₂.stack, Reach g u w :=
      stack_reach_new g A v s₂ hM.inv hv₂ hAidx w hedge
    have hstackA : ∀ x ∈ v :: A, x ∈ s₂.stack := by
      intro x hx
      rcases List.mem_cons.mp hx with hx | hx
      · exact hx ▸ hv₂
      · rw [hTstk]
        exact List.mem_append.mpr (Or.inr (List.mem_cons.mpr (Or.inr (hA x hx))))
    have hfuel₂ : g.nodes.length < (visKeys s₂.visited).length + fuel := by
      obtain ⟨K, hK⟩ := hM.keys_pre
      rw [hK, List.length_append, List.length_cons]
      omega
    obtain ⟨hS₃, hP₃⟩ := hdfs (v :: A) w s₂ hM.ti hM.inv hfw hwnode hpre hstackA hfuel₂
    have hTI₃ : TarjanInv (tarjanDFS g fuel w s₂) := (tarjanDFS_spec g fuel w s₂ hM.ti hfw).1
    set s₃ := tarjanDFS g fuel w s₂ with hs₃
    obtain ⟨ew, hew⟩ := (vlookup_isSome_iff w s₃.visited).mpr hP₃.vkey
    rw [hew]
    dsimp only
    show MidInv g A v s (processed ++ [w])
      { s₃ with visited := ventryUpdate s₃.visited v (minLow ew.lowlink) }
    have hfrz₃ := hP₃.frz
    have hlkv₃ : vlookup s₃.visited v = vlookup s₂.visited v := hfrz₃ v hvk₂
    have hlow₃v : lowOf s₃.visited v = lowOf s₂.visited v := lowOf_congr hlkv₃
    have hidx₃v : idxOf s₃.visited v = s.index := (idxOf_congr hlkv₃).trans hM.vidx
    obtain ⟨T₃, hT₃stk, hT₃f, _⟩ := hP₃.stk
    have hv₃ : v ∈ s₃.stack := by
      rw [hT₃stk]
      exact List.mem_append.mpr (Or.inr hv₂)
    have hewlow : lowOf s₃.visited w = ew.lowlink := lowOf_lookup hew
    have hewidx : idxOf s₃.visited w = s₂.index := hP₃.vidx
    have hkeys₃sub : ∀ u ∈ visKeys s₂.visited, u ∈ visKeys s₃.visited := by
      intro u hu
      obtain ⟨K, hK⟩ := hP₃.keys_pre
      rw [hK]
      exact List.mem_append.mpr (Or.inl hu)
    have hol : v ∈ s₃.stack → ∃ z ∈ s₃.stack,
        idxOf s₃.visited z = min (lowOf s₃.visited v) ew.lowlink ∧ Reach g v z := by
      intro hv₃x
      rcases Nat.le_total (lowOf s₃.visited v) ew.lowlink with hle | hge
      · rw [min_eq_left hle]
        exact hS₃.ol v hv₃x
      · rw [min_eq_right hge]
        have hws₃ : w ∈ s₃.stack := by
          by_contra hcon
          have hsp := hP₃.selfpop hcon
          rw [hewlow, hewidx] at hsp
          rw [hlow₃v] at hge
          have hmono := hM.idx_mono
          omega
        obtain ⟨z, hz, hzi, hzr⟩ := hS₃.ol w hws₃
        exact ⟨z, hz, by rw [hzi, hewlow], reach_trans (reach_edge hedge) hzr⟩
    have hS₄ := sinv_update_min g (v :: A) s₃ v ew.lowlink hS₃ hTI₃.stack_vis hol
    have hio₄ : ∀ u, idxOf (ventryUpdate s₃.visited v (minLow ew.lowlink)) u
        = idxOf s₃.visited u := idxOf_update_min s₃.visited v ew.lowlink
    have hlon₄ : ∀ u, u ≠ v → lowOf (ventryUpdate s₃.visited v (minLow ew.lowlink)) u
        = lowOf s₃.visited u := fun u h => lowOf_update_min_other s₃.visited v ew.lowlink u h
    have hvk₃ : v ∈ visKeys s₃.visited := hkeys₃sub v hvk₂
    have hlov₄ : lowOf (ventryUpdate s₃.visited v (minLow ew.lowlink)) v
        = min (lowOf s₃.visited v) ew.lowlink := by
      obtain ⟨e, he⟩ := (vlookup_isSome_iff v s₃.visited).mpr hvk₃
      rw [lowOf_update_min_self s₃.visited v ew.lowlink e he, lowOf_lookup he]
    have hkeys₄ : visKeys (ventryUpdate s₃.visited v (minLow ew.lowlink))
        = visKeys s₃.visited := ventryUpdate_keys s₃.visited v (minLow ew.lowlink)
    have hvne : ∀ u ∈ visKeys s.visited, u ≠ v := fun u hu hc => hfreshv (hc ▸ hu)
    refine ⟨inv_visupdate hTI₃ v (minLow ew.lowlink), hS₄, ?_, ?_, ?_, ?_, ?_, ?_, ?_, ?_⟩
    · -- frz
      intro u hu
      dsimp only
      rw [vlookup_update, if_neg (hvne u hu), hfrz₃ u (hkeysub u hu)]
      exact hM.frz u hu
    · -- keys_pre
      dsimp only
      rw [hkeys₄]
      obtain ⟨K, hK⟩ := hM.keys_pre
      obtain ⟨K3, hK3⟩ := hP₃.keys_pre
      refine ⟨K ++ w :: K3, ?_⟩
      rw [hK3, hK, List.append_assoc]
      rfl
    · -- stk
      dsimp only
      refine ⟨T₃ ++ T, ?_, ?_⟩
      · rw [hT₃stk, hTstk, List.append_assoc]
      · intro x hx
        rcases List.mem_append.mp hx with hx | hx
        · have hxf := (hT₃f x hx).1
          refine ⟨fun hc => hxf (hkeysub x hc), fun hc => hxf (hc ▸ hvk₂), ?_⟩
          exact reach_trans (reach_edge hedge) (hT₃f x hx).2
        · exact hTprop x hx
    · -- vidx
      dsimp only
      rw [hio₄ v, hidx₃v]
    · -- idx_mono
      dsimp only
      exact Nat.lt_trans hM.idx_mono hP₃.idx_mono
    · -- newidx
      dsimp only
      intro u hu hnu
      rw [hkeys₄] at hu
      rw [hio₄ u]
      by_cases hu₂ : u ∈ visKeys s₂.visited
      · rw [idxOf_congr (hfrz₃ u hu₂)]
        exact hM.newidx u hu₂ hnu
      · exact Nat.le_trans (Nat.le_of_lt hM.idx_mono) (hP₃.newidx u hu hu₂)
    · -- mlow
      dsimp only
      intro u hu hnu
      by_cases huv : u = v
      · rw [huv]
      · rw [hlon₄ u huv, hlov₄]
        rw [hT₃stk] at hu
        rcases List.mem_append.mp hu with hu | hu
        · have hu₂ : u ∉ s₂.stack := fun hc => (hT₃f u hu).1 (hsk₂ u hc)
          have h1 := hP₃.mlow u (by rw [hT₃stk]; exact List.mem_append.mpr (Or.inl hu)) hu₂
          rw [hewlow] at h1
          exact Nat.le_trans (Nat.min_le_right _ _) h1
        · have h1 := hM.mlow u hu hnu
          have h2 : lowOf s₃.visited u = lowOf s₂.visited u :=
            lowOf_congr (hfrz₃ u (hsk₂ u hu))
          rw [h2]
          rw [hlow₃v]
          exact Nat.le_trans (Nat.min_le_left _ _) h1
    · -- ps
      dsimp only
      intro w' hw'
      rcases List.mem_append.mp hw' with hw' | hw'
      · obtain ⟨hpk, hpcl⟩ := hM.ps w' hw'
        refine ⟨by rw [hkeys₄]; exact hkeys₃sub w' hpk, ?_⟩
        intro hws
        have hws₂ : w' ∈ s₂.stack := by
          rw [hT₃stk] at hws
          rcases List.mem_append.mp hws with hws | hws
          · exact absurd hpk (hT₃f w' hws).1
          · exact hws
        rcases hpcl hws₂ with h | h
        · refine Or.inl ?_
          rw [hio₄ w', idxOf_congr (hfrz₃ w' hpk), hlov₄, hlow₃v]
          exact Nat.le_trans (Nat.min_le_left _ _) h
        · refine Or.inr ?_
          rw [hio₄ w', idxOf_congr (hfrz₃ w' hpk)]
          exact h
      · rw [List.mem_singleton.mp hw']
        refine ⟨by rw [hkeys₄]; exact hP₃.vkey, fun _ => Or.inr ?_⟩
        rw [hio₄ w, hewidx]
        exact hM.idx_mono
  | some ew =>
    dsimp only
    by_cases hOn : ew.onStack = true
    · rw [if_pos hOn]
      show MidInv g A v s (processed ++ [w])
        { s₂ with visited := ventryUpdate s₂.visited v (minLow ew.index) }
      have hwk₂ : w ∈ visKeys s₂.visited := vlookup_mem_keys hlw
      have hws₂ : w ∈ s₂.stack := (hM.inv.flag_iff w hwk₂).mp
        (by rw [flagOf_lookup hlw]; exact hOn)
      have hewidx₂ : idxOf s₂.visited w = ew.index := idxOf_lookup hlw
      have hol : v ∈ s₂.stack → ∃ z ∈ s₂.stack,
          idxOf s₂.visited z = min (lowOf s₂.visited v) ew.index ∧ Reach g v z := by
        intro hv₂x
        rcases Nat.le_total (lowOf s₂.visited v) ew.index with hle | hge
        · rw [min_eq_left hle]
          exact hM.inv.ol v hv₂x
        · rw [min_eq_right hge]
          exact ⟨w, hws₂, hewidx₂, reach_edge hedge⟩
      have hS₄ := sinv_update_min g (v :: A) s₂ v ew.index hM.inv hsk₂ hol
      have hio₄ : ∀ u, idxOf (ventryUpdate s₂.visited v (minLow ew.index)) u
          = idxOf s₂.visited u := idxOf_update_min s₂.visited v ew.index
      have hlon₄ : ∀ u, u ≠ v → lowOf (ventryUpdate s₂.visited v (minLow ew.index)) u
          = lowOf s₂.visited u := fun u h => lowOf_update_min_other s₂.visited v ew.index u h
      have hlov₄ : lowOf (ventryUpdate s₂.visited v (minLow ew.index)) v
          = min (lowOf s₂.visited v) ew.index := by
        obtain ⟨e, he⟩ := (vlookup_isSome_iff v s₂.visited).mpr hvk₂
        rw [lowOf_update_min_self s₂.visited v ew.index e he, lowOf_lookup he]
      have hkeys₄ : visKeys (ventryUpdate s₂.visited v (minLow ew.index))
          = visKeys s₂.visited := ventryUpdate_keys s₂.visited v (minLow ew.index)
      have hvne : ∀ u ∈ visKeys s.visited, u ≠ v := fun u hu hc => hfreshv (hc ▸ hu)
      refine ⟨inv_visupdate hM.ti v (minLow ew.index), hS₄, ?_, ?_, ?_, ?_, ?_, ?_, ?_, ?_⟩
      · intro u hu
        dsimp only
        rw [vlookup_update, if_neg (hvne u hu)]
        exact hM.frz u hu
      · dsimp only
        rw [hkeys₄]
        exact hM.keys_pre
      · dsimp only
        exact ⟨T, hTstk, hTprop⟩
      · dsimp only
        rw [hio₄ v]
        exact hM.vidx
      · dsimp only
        exact hM.idx_mono
      · dsimp only
        intro u hu hnu
        rw [hkeys₄] at hu
        rw [hio₄ u]
        exact hM.newidx u hu hnu
      · dsimp only
        intro u hu hnu
        by_cases huv : u = v
        · rw [huv]
        · rw [hlon₄ u huv, hlov₄]
          exact Nat.le_trans (Nat.min_le_left _ _) (hM.mlow u hu hnu)
      · dsimp only
        intro w' hw'
        rcases List.mem_append.mp hw' with hw' | hw'
        · obtain ⟨hpk, hpcl⟩ := hM.ps w' hw'
          refine ⟨by rw [hkeys₄]; exact hpk, ?_⟩
          intro hws
          rcases hpcl hws with h | h
          · refine Or.inl ?_
            rw [hio₄ w', hlov₄]
            exact Nat.le_trans (Nat.min_le_left _ _) h
          · refine Or.inr ?_
            rw [hio₄ w']
            exact h
        · rw [List.mem_singleton.mp hw']
          refine ⟨by rw [hkeys₄]; exact hwk₂, fun _ => Or.inl ?_⟩
          rw [hio₄ w, hewidx₂, hlov₄]
          exact Nat.min_le_right _ _
    · rw [if_neg hOn]
      refine ⟨hM.ti, hM.inv, hM.frz, hM.keys_pre, ⟨T, hTstk, hTprop⟩, hM.vidx,
        hM.idx_mono, hM.newidx, hM.mlow, ?_⟩
      intro w' hw'
      rcases List.mem_append.mp hw' with hw' | hw'
      · exact hM.ps w' hw'
      · rw [List.mem_singleton.mp hw']
        refine ⟨vlookup_mem_keys hlw, ?_⟩
        intro hws
        have hfl : flagOf s₂.visited w = true :=
          (hM.inv.flag_iff w (vlookup_mem_keys hlw)).mpr hws
        rw [flagOf_lookup hlw] at hfl
        exact absurd hfl hOn

/-- The successor fold preserves the fold invariant. -/
theorem dfs_foldl_full (g : Graph) (hWF : g.WF) (fuel : Nat)
    (hdfs : ∀ (B : List String) (x : String) (t : TarjanState),
      TarjanInv t → SInv g B t → x ∉ visKeys t.visited → x ∈ g.nodes →
      (∀ u ∈ t.stack, Reach g u x) → (∀ y ∈ B, y ∈ t.stack) →
      g.nodes.length < (visKeys t.visited).length + fuel →
      SInv g B (tarjanDFS g fuel x t) ∧ DfsPost g x t (tarjanDFS g fuel x t))
    (A : List String) (v : String) (s : TarjanState)
    (hS : SInv g A s) (hA : ∀ x ∈ A, x ∈ s.stack)
    (hAk : ∀ x ∈ A, x ∈ visKeys s.visited)
    (hfreshv : v ∉ visKeys s.visited)
    (hfuel : g.nodes.length < (visKeys s.visited).length + 1 + fuel) :
    ∀ (ws : List String), (∀ x ∈ ws, x ∈ g.successors v) →
    ∀ (processed : List String) (s₂ : TarjanState),
    MidInv g A v s processed s₂ →
    MidInv g A v s (processed ++ ws)
      (ws.foldl (tarjanStep (fun x t => tarjanDFS g fuel x t) v) s₂)
  | [], _, processed, s₂, hM => by
    rw [List.append_nil]
    exact hM
  | w :: ws, hws, processed, s₂, hM => by
    rw [List.foldl_cons]
    have h1 := dfs_step g hWF fuel hdfs A v s hS hA hAk hfreshv hfuel processed s₂ hM
      w (hws w (List.mem_cons_self w ws))
    have h2 := dfs_foldl_full g hWF fuel hdfs A v s hS hA hAk hfreshv hfuel ws
      (fun x hx => hws x (List.mem_cons.mpr (Or.inr hx))) (processed ++ [w]) _ h1
    rw [show processed ++ w :: ws = (processed ++ [w]) ++ ws by simp]
    exact h2

/-- Closing `dfs(v)` after its successor fold: either the component of `v` is
popped — and it is a maximal mutually-reachable set closed under successors —
or `v` stays open with a strictly smaller lowlink.  Either way the semantic
invariant is restored for the caller and the call postcondition holds. -/
theorem dfs_close (g : Graph) (A : List String) (v : String) (s : TarjanState)
    (hTI : TarjanInv s) (hS : SInv g A s) (hA : ∀ x ∈ A, x ∈ s.stack)
    (hAk : ∀ x ∈ A, x ∈ visKeys s.visited)
    (hfreshv : v ∉ visKeys s.visited)
    (s₂ : TarjanState) (hM : MidInv g A v s (g.successors v) s₂) :
    SInv g A (tarjanClose v s₂) ∧ DfsPost g v s (tarjanClose v s₂) := by
  obtain ⟨T, hTstk, hTprop⟩ := hM.stk
  have hv₂ : v ∈ s₂.stack := by
    rw [hTstk]
    exact List.mem_append.mpr (Or.inr (List.mem_cons_self v s.stack))
  have hsk₂ : ∀ x ∈ s₂.stack, x ∈ visKeys s₂.visited := hM.ti.stack_vis
  have hvk₂ : v ∈ visKeys s₂.visited := hsk₂ v hv₂
  have hkeysub : ∀ u ∈ visKeys s.visited, u ∈ visKeys s₂.visited := by
    intro u hu
    obtain ⟨K, hK⟩ := hM.keys_pre
    rw [hK]
    exact List.mem_append.mpr (Or.inl hu)
  have hfrzio : ∀ u ∈ visKeys s.visited, idxOf s₂.visited u = idxOf s.visited u :=
    fun u hu => idxOf_congr (hM.frz u hu)
  have hsstack_idx : ∀ u ∈ s.stack, idxOf s₂.visited u < s.index := by
    intro u hu
    rw [hfrzio u (hTI.stack_vis u hu)]
    exact hS.idx_lt u (hTI.stack_vis u hu)
  have hstack₂eq : s₂.stack = (T ++ [v]) ++ s.stack := by
    rw [hTstk, List.append_assoc]
    rfl
  have hPmem : ∀ x, x ∈ T ++ [v] ↔ x ∈ T ∨ x = v := by
    intro x
    rw [List.mem_append, List.mem_singleton]
  have hPfresh : ∀ x ∈ T ++ [v], x ∉ visKeys s.visited := by
    intro x hx
    rcases (hPmem x).mp hx with hx | hx
    · exact (hTprop x hx).1
    · exact hx ▸ hfreshv
  have hPsub : ∀ x ∈ T ++ [v], x ∈ s₂.stack := by
    intro x hx
    rw [hstack₂eq]
    exact List.mem_append.mpr (Or.inl hx)
  have hPkeys : ∀ x ∈ T ++ [v], x ∈ visKeys s₂.visited := fun x hx => hsk₂ x (hPsub x hx)
  have hPidx : ∀ x ∈ T ++ [v], s.index ≤ idxOf s₂.visited x :=
    fun x hx => hM.newidx x (hPkeys x hx) (hPfresh x hx)
  have hPnotS : ∀ x ∈ T ++ [v], x ∉ s.stack :=
    fun x hx hc => hPfresh x hx (hTI.stack_vis x hc)
  have hPreach : ∀ x ∈ T ++ [v], Reach g v x := by
    intro x hx
    rcases (hPmem x).mp hx with hx | hx
    · exact (hTprop x hx).2.2
    · exact hx ▸ reach_refl g x
  have hnotA : ∀ x ∈ T ++ [v], x ∉ v :: A → x ∉ v :: A := fun _ _ h => h
  have hTnotvA : ∀ x ∈ T, x ∉ v :: A := by
    intro x hx hc
    rcases List.mem_cons.mp hc with hc | hc
    · exact (hTprop x hx).2.1 hc
    · exact (hTprop x hx).1 (hAk x hc)
  have hstacksplit : ∀ z ∈ s₂.stack, z ∈ T ++ [v] ∨ z ∈ s.stack := by
    intro z hz
    rw [hstack₂eq] at hz
    exact List.mem_append.mp hz
  obtain ⟨ev, hev⟩ := (vlookup_isSome_iff v s₂.visited).mpr hvk₂
  have hlowev : lowOf s₂.visited v = ev.lowlink := lowOf_lookup hev
  have hidxev : idxOf s₂.visited v = ev.index := idxOf_lookup hev
  unfold tarjanClose
  rw [hev]
  dsimp only
  by_cases hll : ev.lowlink = ev.index
  · rw [if_pos hll]
    have hlowvidx : lowOf s₂.visited v = s.index := by
      rw [hlowev, hll, ← hidxev, hM.vidx]
    -- the successors of popped nodes stay at or above the component root
    have hPsucc : ∀ x ∈ T ++ [v], ∀ y ∈ g.successors x, y ∈ visKeys s₂.visited ∧
        (y ∈ s₂.stack → s.index ≤ idxOf s₂.visited y) := by
      intro x hx y hy
      rcases (hPmem x).mp hx with hxT | hxv
      · obtain ⟨hk, hcl⟩ := hM.inv.er x (hPkeys x hx) (hTnotvA x hxT) y hy
        refine ⟨hk, fun hys => ?_⟩
        rcases hcl hys with h | h
        · have h2 : s.index ≤ lowOf s₂.visited x := by
            rw [← hlowvidx]
            exact hM.mlow x (hPsub x hx) (hPnotS x hx)
          exact Nat.le_trans h2 h
        · exact Nat.le_trans (hPidx x hx) (Nat.le_of_lt h)
      · subst hxv
        obtain ⟨hk, hcl⟩ := hM.ps y hy
        refine ⟨hk, fun hys => ?_⟩
        rcases hcl hys with h | h
        · rw [hlowvidx] at h
          exact h
        · exact Nat.le_of_lt h
    -- everything reachable from v lies in the popped component or in an
    -- already recorded component
    have hPC : ∀ y, Reach g v y → y ∈ T ++ [v] ∨ ∃ c ∈ s₂.results, y ∈ c := by
      intro y hy
      induction hy with
      | refl => exact Or.inl (List.mem_append.mpr (Or.inr (List.mem_singleton.mpr rfl)))
      | @tail m y hvm hmy ih =>
        have hysucc : y ∈ g.successors m := (mem_successors_iff g m y).mpr hmy
        rcases ih with hmP | ⟨c, hc, hmc⟩
        · obtain ⟨hyk, hycl⟩ := hPsucc m hmP y hysucc
          by_cases hys : y ∈ s₂.stack
          · refine Or.inl ?_
            rcases hstacksplit y hys with h | h
            · exact h
            · exact absurd (hycl hys) (Nat.not_le_of_lt (hsstack_idx y h))
          · rcases hM.inv.part y hyk with h | h
            · exact absurd h hys
            · exact Or.inr h
        · obtain ⟨hyk, hys⟩ := hM.inv.dc c hc m hmc y hysucc
          rcases hM.inv.part y hyk with h | h
          · exact absurd h hys
          · exact Or.inr h
    -- every popped node reaches v back through its lowlink witness chain
    have hchain : ∀ x ∈ T ++ [v], Reach g x v := by
      suffices h : ∀ n, ∀ x ∈ T ++ [v], idxOf s₂.visited x < n → Reach g x v by
        intro x hx
        exact h (idxOf s₂.visited x + 1) x hx (Nat.lt_succ_self _)
      intro n
      induction n with
      | zero =>
        intro x _ h
        cases h
      | succ n ih =>
        intro x hx hxn
        rcases (hPmem x).mp hx with hxT | hxv
        · obtain ⟨z, hz, hzi, hzr⟩ := hM.inv.ol x (hPsub x hx)
          have hzlow : s.index ≤ lowOf s₂.visited x := by
            rw [← hlowvidx]
            exact hM.mlow x (hPsub x hx) (hPnotS x hx)
          have hzP : z ∈ T ++ [v] := by
            rcases hstacksplit z hz with h | h
            · exact h
            · exact absurd (hsstack_idx z h)
                (Nat.not_lt_of_le (hzi ▸ hzlow))
          rcases (hPmem z).mp hzP with hzT | hzv
          · have hzlt : idxOf s₂.visited z < idxOf s₂.visited x := by
              rw [hzi]
              exact hM.inv.strict x (hPsub x hx) (hTnotvA x hxT)
            exact reach_trans hzr
              (ih z hzP (Nat.lt_of_lt_of_le hzlt (Nat.lt_succ_iff.mp hxn)))
          · exact hzv ▸ hzr
        · exact hxv ▸ reach_refl g v
    -- normalise the popped pieces
    have hvT : v ∉ T := fun hc => (hTprop v hc).2.1 rfl
    have hexact := tarjanPop_exact v T s.stack s₂.visited [] hvT
    have hexvis := tarjanPop_exact_vis v T s.stack s₂.visited [] hvT
    rw [← hTstk] at hexact hexvis
    have hpop1 : (tarjanPop v s₂.stack s₂.visited []).1 = s.stack := hexact.1
    have hpop2 : (tarjanPop v s₂.stack s₂.visited []).2.2 = T ++ [v] := by
      rw [hexact.2]
      simp
    rw [hpop1, hpop2, hexvis]
    have hio : ∀ u, idxOf (popVis (T ++ [v]) s₂.visited) u = idxOf s₂.visited u :=
      fun u => idxOf_popVis (T ++ [v]) s₂.visited u
    have hlo : ∀ u, lowOf (popVis (T ++ [v]) s₂.visited) u = lowOf s₂.visited u :=
      fun u => lowOf_popVis (T ++ [v]) s₂.visited u
    have hkeys : visKeys (popVis (T ++ [v]) s₂.visited) = visKeys s₂.visited :=
      popVis_keys s₂.visited (T ++ [v])
    have hmemstack : ∀ u ∈ s.stack, u ∈ s₂.stack := by
      intro u hu
      rw [hstack₂eq]
      exact List.mem_append.mpr (Or.inr hu)
    constructor
    · refine ⟨?_, ?_, ?_, ?_, ?_, ?_, ?_, ?_, ?_, ?_, ?_, ?_, ?_, ?_, ?_⟩
      · dsimp only
        rw [hkeys]
        exact hM.inv.keys_nodup
      · dsimp only
        intro u hu
        rw [hkeys] at hu
        exact hM.inv.keys_nodes u hu
      · dsimp only
        intro u hu
        rw [hkeys] at hu
        rw [hio u]
        exact hM.inv.idx_lt u hu
      · dsimp only
        intro u hu z hz
        rw [hkeys] at hu hz
        rw [hio u, hio z]
        exact hM.inv.idx_inj u hu z hz
      · dsimp only
        intro u hu
        rw [hkeys] at hu
        by_cases hP : u ∈ T ++ [v]
        · rw [flagOf_popVis_mem (T ++ [v]) s₂.visited u hP hu]
          constructor
          · intro h
            cases h
          · intro h
            exact absurd h (hPnotS u hP)
        · rw [flagOf_popVis_not_mem (T ++ [v]) s₂.visited u hP]
          rw [hM.inv.flag_iff u hu]
          constructor
          · intro h
            rcases hstacksplit u h with h2 | h2
            · exact absurd h2 hP
            · exact h2
          · exact hmemstack u
      · dsimp only
        refine pairwise_of_mem_imp (fun a ha b hb h => ?_) hS.stack_sorted
        rw [hio b, hio a, hfrzio a (hTI.stack_vis a ha), hfrzio b (hTI.stack_vis b hb)]
        exact h
      · dsimp only
        intro u hu
        rw [hkeys] at hu
        rw [hio u, hlo u]
        exact hM.inv.low_le u hu
      · dsimp only
        intro u hu
        obtain ⟨z, hz, hzi, hzr⟩ := hM.inv.ol u (hmemstack u hu)
        have hzS : z ∈ s.stack := by
          rcases hstacksplit z hz with h | h
          · exfalso
            have h1 : idxOf s₂.visited z = lowOf s₂.visited u := hzi
            have h2 : lowOf s₂.visited u ≤ idxOf s₂.visited u :=
              hM.inv.low_le u (hsk₂ u (hmemstack u hu))
            have h3 : idxOf s₂.visited u < s.index := hsstack_idx u hu
            have h4 := hPidx z h
            omega
          · exact h
        refine ⟨z, hzS, ?_, hzr⟩
        rw [hio z, hlo u]
        exact hzi
      · dsimp only
        intro u hu z hz hle
        rw [hio u, hio z] at hle
        exact hM.inv.i2 u (hmemstack u hu) z (hmemstack z hz) hle
      · dsimp only
        intro u hu hnA
        have hune : u ≠ v := fun hc => hfreshv (hc ▸ hTI.stack_vis u hu)
        have hnvA : u ∉ v :: A := by
          intro hc
          rcases List.mem_cons.mp hc with hc | hc
          · exact hune hc
          · exact hnA hc
        rw [hio u, hlo u]
        exact hM.inv.strict u (hmemstack u hu) hnvA
      · dsimp only
        intro u hu hnA w hw
        rw [hkeys] at hu
        by_cases huv : u = v
        · subst huv
          obtain ⟨hk, _⟩ := hM.ps w hw
          refine ⟨by rw [hkeys]; exact hk, ?_⟩
          intro hws
          exfalso
          obtain ⟨_, hcl⟩ := hPsucc u (List.mem_append.mpr (Or.inr (List.mem_singleton.mpr rfl))) w hw
          exact Nat.not_le_of_lt (hsstack_idx w hws) (hcl (hmemstack w hws))
        · have hnvA : u ∉ v :: A := by
            intro hc
            rcases List.mem_cons.mp hc with hc | hc
            · exact huv hc
            · exact hnA hc
          obtain ⟨hk, hcl⟩ := hM.inv.er u hu hnvA w hw
          refine ⟨by rw [hkeys]; exact hk, ?_⟩
          intro hws
          rcases hcl (hmemstack w hws) with h | h
          · exact Or.inl (by rw [hlo u, hio w]; exact h)
          · exact Or.inr (by rw [hio u, hio w]; exact h)
      · dsimp only
        intro c hc x hx y hy
        rcases List.mem_append.mp hc with hc | hc
        · exact hM.inv.rd c hc x hx y hy
        · rw [List.mem_singleton.mp hc] at hx hy
          exact reach_trans (hchain x hx) (hPreach y hy)
      · dsimp only
        intro c hc x hx y hxy hyx
        rcases List.mem_append.mp hc with hc | hc
        · exact hM.inv.maxd c hc x hx y hxy hyx
        · rw [List.mem_singleton.mp hc] at hx ⊢
          have hvy : Reach g v y := reach_trans (hPreach x hx) hxy
          have hyv : Reach g y v := reach_trans hyx (hchain x hx)
          rcases hPC y hvy with h | ⟨c2, hc2, hyc2⟩
          · exact h
          · exfalso
            have hvc2 : v ∈ c2 := hM.inv.maxd c2 hc2 y hyc2 v hyv hvy
            exact hM.ti.res_stack c2 hc2 v hvc2 hv₂
      · dsimp only
        intro c hc x hx w hw
        rcases List.mem_append.mp hc with hc | hc
        · obtain ⟨hk, hws⟩ := hM.inv.dc c hc x hx w hw
          exact ⟨by rw [hkeys]; exact hk, fun hc2 => hws (hmemstack w hc2)⟩
        · rw [List.mem_singleton.mp hc] at hx
          obtain ⟨hk, hcl⟩ := hPsucc x hx w hw
          refine ⟨by rw [hkeys]; exact hk, ?_⟩
          intro hws
          exact Nat.not_le_of_lt (hsstack_idx w hws) (hcl (hmemstack w hws))
      · dsimp only
        intro u hu
        rw [hkeys] at hu
        rcases hM.inv.part u hu with h | ⟨c, hc, huc⟩
        · rcases hstacksplit u h with h2 | h2
          · exact Or.inr ⟨T ++ [v], List.mem_append.mpr (Or.inr (List.mem_singleton.mpr rfl)), h2⟩
          · exact Or.inl h2
        · exact Or.inr ⟨c, List.mem_append.mpr (Or.inl hc), huc⟩
    · refine ⟨?_, ?_, ?_, ?_, ?_, ?_, ?_, ?_, ?_⟩
      · dsimp only
        rw [hkeys]
        exact hvk₂
      · dsimp only
        intro u hu
        rw [vlookup_popVis, if_neg (fun hc => hPfresh u hc hu)]
        exact hM.frz u hu
      · dsimp only
        rw [hkeys]
        exact hM.keys_pre
      · dsimp only
        exact ⟨[], rfl, fun x hx => absurd hx (List.not_mem_nil x), Or.inr rfl⟩
      · dsimp only
        rw [hio v]
        exact hM.vidx
      · dsimp only
        exact hM.idx_mono
      · dsimp only
        intro u hu hnu
        rw [hkeys] at hu
        rw [hio u]
        exact hM.newidx u hu hnu
      · dsimp only
        intro u hu hnu
        exact absurd hu hnu
      · dsimp only
        intro _
        rw [hio v, hlo v, hlowvidx, hM.vidx]
  · rw [if_neg hll]
    have hlowlt : lowOf s₂.visited v < idxOf s₂.visited v := by
      rw [hlowev, hidxev]
      exact Nat.lt_of_le_of_ne (by rw [← hlowev, ← hidxev]; exact hM.inv.low_le v hvk₂) hll
    constructor
    · refine ⟨hM.inv.keys_nodup, hM.inv.keys_nodes, hM.inv.idx_lt, hM.inv.idx_inj,
        hM.inv.flag_iff, hM.inv.stack_sorted, hM.inv.low_le, hM.inv.ol, hM.inv.i2,
        ?_, ?_, hM.inv.rd, hM.inv.maxd, hM.inv.dc, hM.inv.part⟩
      · intro u hu hnA
        by_cases huv : u = v
        · subst huv
          exact hlowlt
        · have hnvA : u ∉ v :: A := by
            intro hc
            rcases List.mem_cons.mp hc with hc | hc
            · exact huv hc
            · exact hnA hc
          exact hM.inv.strict u hu hnvA
      · intro u hu hnA w hw
        by_cases huv : u = v
        · subst huv
          obtain ⟨hk, hcl⟩ := hM.ps w hw
          refine ⟨hk, ?_⟩
          intro hws
          rcases hcl hws with h | h
          · exact Or.inl h
          · exact Or.inr (by rw [hM.vidx]; exact h)
        · have hnvA : u ∉ v :: A := by
            intro hc
            rcases List.mem_cons.mp hc with hc | hc
            · exact huv hc
            · exact hnA hc
          exact hM.inv.er u hu hnvA w hw
    · refine ⟨hvk₂, hM.frz, hM.keys_pre, ?_, hM.vidx, hM.idx_mono, hM.newidx, hM.mlow, ?_⟩
      · refine ⟨T ++ [v], by rw [hstack₂eq], ?_, Or.inl (List.mem_append.mpr (Or.inr (List.mem_singleton.mpr rfl)))⟩
        intro x hx
        exact ⟨hPfresh x hx, hPreach x hx⟩
      · intro hcon
        exact absurd hv₂ hcon

/-- Full specification of `dfs(v)`: the semantic invariant is preserved and
the call postcondition holds, provided the fuel exceeds the number of
unvisited nodes. -/
theorem dfs_full (g : Graph) (hWF : g.WF) : ∀ (fuel : Nat) (A : List String) (v : String)
    (s : TarjanState), TarjanInv s → SInv g A s → v ∉ visKeys s.visited → v ∈ g.nodes →
    (∀ u ∈ s.stack, Reach g u v) → (∀ x ∈ A, x ∈ s.stack) →
    g.nodes.length < (visKeys s.visited).length + fuel →
    SInv g A (tarjanDFS g fuel v s) ∧ DfsPost g v s (tarjanDFS g fuel v s) := by
  intro fuel
  induction fuel with
  | zero =>
    intro A v s hTI hS hfresh hvnode hreach hA hfuel
    exfalso
    have hle := nodup_length_le hS.keys_nodup hS.keys_nodes
    omega
  | succ fuel ih =>
    intro A v s hTI hS hfresh hvnode hreach hA hfuel
    have hAk : ∀ x ∈ A, x ∈ visKeys s.visited := fun x hx => hTI.stack_vis x (hA x hx)
    have hfuel' : g.nodes.length < (visKeys s.visited).length + 1 + fuel := by omega
    rw [tarjanDFS]
    try dsimp only
    have hM0 := dfs_push g A v s hTI hS hfresh hvnode hreach hA
    have hMid := dfs_foldl_full g hWF fuel ih A v s hS hA hAk hfresh hfuel'
      (g.successors v) (fun x hx => hx) [] _ hM0
    rw [List.nil_append] at hMid
    exact dfs_close g A v s hTI hS hA hAk hfresh _ hMid

/-- The semantic invariant holds of the initial state. -/
theorem sinv_init (g : Graph) : SInv g [] ⟨0, [], [], []⟩ := by
  refine ⟨List.nodup_nil, ?_, ?_, ?_, ?_, List.Pairwise.nil, ?_, ?_, ?_, ?_, ?_, ?_, ?_, ?_, ?_⟩
  all_goals intro u hu
  all_goals first
    | cases hu
    | (intro z hz; cases hz)
    | skip

/-- The top-level loop of `tarjan`: between any two root calls the stack is
empty, the invariant holds, and every processed node has been visited. -/
theorem tarjan_top_full (g : Graph) (hWF : g.WF) (fuel : Nat)
    (hfuel : g.nodes.length < fuel) :
    ∀ (ns : List String) (s : TarjanState), (∀ x ∈ ns, x ∈ g.nodes) →
    TarjanInv s → SInv g [] s → s.stack = [] →
    TarjanInv (ns.foldl (fun s v => if (vlookup s.visited v).isSome then s
        else tarjanDFS g fuel v s) s) ∧
    SInv g [] (ns.foldl (fun s v => if (vlookup s.visited v).isSome then s
        else tarjanDFS g fuel v s) s) ∧
    (ns.foldl (fun s v => if (vlookup s.visited v).isSome then s
        else tarjanDFS g fuel v s) s).stack = [] ∧
    (∀ x ∈ ns, x ∈ visKeys (ns.foldl (fun s v => if (vlookup s.visited v).isSome then s
        else tarjanDFS g fuel v s) s).visited) ∧
    (∀ x ∈ visKeys s.visited, x ∈ visKeys (ns.foldl
      (fun s v => if (vlookup s.visited v).isSome then s
        else tarjanDFS g fuel v s) s).visited)
  | [], s, _, hTI, hS, hempty => ⟨hTI, hS, hempty,
      fun x hx => absurd hx (List.not_mem_nil x), fun x hx => hx⟩
  | v :: ns, s, hns, hTI, hS, hempty => by
    rw [List.foldl_cons]
    by_cases hv : (vlookup s.visited v).isSome
    · rw [if_pos hv]
      obtain ⟨h1, h2, h3, h4, h5⟩ := tarjan_top_full g hWF fuel hfuel ns s
        (fun x hx => hns x (List.mem_cons.mpr (Or.inr hx))) hTI hS hempty
      refine ⟨h1, h2, h3, ?_, h5⟩
      intro x hx
      rcases List.mem_cons.mp hx with hx | hx
      · subst hx
        obtain ⟨e, he⟩ := Option.isSome_iff_exists.mp hv
        exact h5 x (vlookup_mem_keys he)
      · exact h4 x hx
    · rw [if_neg hv]
      have hfresh : v ∉ visKeys s.visited :=
        (vlookup_none_iff v s.visited).mp (Option.not_isSome_iff_eq_none.mp hv)
      have hvnode : v ∈ g.nodes := hns v (List.mem_cons_self v ns)
      have hreach : ∀ u ∈ s.stack, Reach g u v := by
        rw [hempty]
        intro u hu
        cases hu
      have hfuel' : g.nodes.length < (visKeys s.visited).length + fuel :=
        Nat.lt_of_lt_of_le hfuel (Nat.le_add_left _ _)
      obtain ⟨hS₁, hP₁⟩ := dfs_full g hWF fuel [] v s hTI hS hfresh hvnode hreach
        (fun x hx => absurd hx (List.not_mem_nil x)) hfuel'
      have hTI₁ : TarjanInv (tarjanDFS g fuel v s) :=
        (tarjanDFS_spec g fuel v s hTI hfresh).1
      have hempty₁ : (tarjanDFS g fuel v s).stack = [] := by
        obtain ⟨T, hT, hTf, hTor⟩ := hP₁.stk
        rw [hempty, List.append_nil] at hT
        rcases hTor with hvT | hTnil
        · exfalso
          have hv₁ : v ∈ (tarjanDFS g fuel v s).stack := by
            rw [hT]
            exact hvT
          have hstrict := hS₁.strict v hv₁ (List.not_mem_nil v)
          obtain ⟨z, hz, hzi, _⟩ := hS₁.ol v hv₁
          have hzT : z ∈ T := by
            rw [hT] at hz
            exact hz
          have hzfresh := (hTf z hzT).1
          have hzk : z ∈ visKeys (tarjanDFS g fuel v s).visited := hTI₁.stack_vis z hz
          have hge := hP₁.newidx z hzk hzfresh
          have hvidx := hP₁.vidx
          omega
        · rw [hT, hTnil]
      have hkm : ∀ x ∈ visKeys s.visited, x ∈ visKeys (tarjanDFS g fuel v s).visited := by
        intro x hx
        obtain ⟨e, he⟩ := (vlookup_isSome_iff x s.visited).mpr hx
        exact vlookup_mem_keys ((hP₁.frz x hx).trans he)
      obtain ⟨h1, h2, h3, h4, h5⟩ := tarjan_top_full g hWF fuel hfuel ns
       (tarjanDFS g fuel v s)
        (fun x hx => hns x (List.mem_cons.mpr (Or.inr hx))) hTI₁ hS₁ hempty₁
      refine ⟨h1, h2, h3, ?_, fun x hx => h5 x (hkm x hx)⟩
      intro x hx
      rcases List.mem_cons.mp hx with hx | hx
      · subst hx
        exact h5 x hP₁.vkey
      · exact h4 x hx

/-- Characterization of `alg.tarjan`: its components are exactly the
maximal mutually-reachable classes of graph nodes — nonempty, duplicate-free,
pairwise disjoint, covering every node, and each one closed under and
generated by mutual reachability from any of its members. -/
theorem tarjan_char (g : Graph) (hWF : g.WF) :
    (∀ c ∈ tarjan g, c ≠ [] ∧ c.Nodup ∧ (∀ x ∈ c, x ∈ g.nodes) ∧
      (∀ x ∈ c, ∀ y, y ∈ c ↔ (y ∈ g.nodes ∧ Reach g x y ∧ Reach g y x))) ∧
    (∀ x ∈ g.nodes, ∃ c ∈ tarjan g, x ∈ c) ∧
    List.Pairwise (fun c d => ∀ x ∈ c, x ∉ d) (tarjan g) := by
  have hinit : TarjanInv ⟨0, [], [], []⟩ := by
    refine ⟨List.nodup_nil, ?_, ?_, List.Pairwise.nil, ?_⟩
    · intro w hw
      cases hw
    · intro c hc
      cases hc
    · intro c hc
      cases hc
  obtain ⟨hTIf, hSf, hemptyf, hcov, _⟩ := tarjan_top_full g hWF
    (g.nodes.length + g.edges.length + 1) (by omega) g.nodes ⟨0, [], [], []⟩
    (fun x hx => hx) hinit (sinv_init g) rfl
  refine ⟨?_, ?_, hTIf.res_disj⟩
  · intro c hc
    obtain ⟨h1, h2, h3⟩ := hTIf.res_ok c hc
    refine ⟨h1, h2, fun x hx => hSf.keys_nodes x (h3 x hx), ?_⟩
    intro x hx y
    constructor
    · intro hy
      exact ⟨hSf.keys_nodes y (h3 y hy), hSf.rd c hc x hx y hy, hSf.rd c hc y hy x hx⟩
    · rintro ⟨_, hxy, hyx⟩
      exact hSf.maxd c hc x hx y hxy hyx
  · intro x hx
    have hxk := hcov x hx
    rcases hSf.part x hxk with h | h
    · rw [hemptyf] at h
      cases h
    · exact h


instance : IsTotal (List String) CycleLE := by
  constructor
  intro a b
  unfold CycleLE
  rcases lt_trichotomy (a.headD "") (b.headD "") with h | h | h
  · exact Or.inl (Or.inl h)
  · rcases Nat.le_total a.length b.length with h2 | h2
    · exact Or.inl (Or.inr ⟨h, h2⟩)
    · exact Or.inr (Or.inr ⟨h.symm, h2⟩)
  · exact Or.inr (Or.inl h)

instance : IsTrans (List String) CycleLE := by
  constructor
  intro a b c hab hbc
  unfold CycleLE at hab hbc ⊢
  rcases hab with hab | ⟨hab, hab2⟩ <;> rcases hbc with hbc | ⟨hbc, hbc2⟩
  · exact Or.inl (lt_trans hab hbc)
  · exact Or.inl (lt_of_lt_of_eq hab hbc)
  · exact Or.inl (lt_of_eq_of_lt hab hbc)
  · exact Or.inr ⟨hab.trans hbc, le_trans hab2 hbc2⟩

/-- The lexicographically smallest member of a (non-empty) member list. -/
def minMember : List String → String
  | [] => ""
  | [x] => x
  | x :: y :: t => min x (minMember (y :: t))

theorem sorted_headD_min : ∀ l : List String, List.Sorted (fun a b => a ≤ b) l →
    l ≠ [] → minMember l = l.headD ""
  | [], _, hne => absurd rfl hne
  | [x], _, _ => rfl
  | x :: y :: t, hs, _ => by
    have htail := sorted_headD_min (y :: t) (List.sorted_cons.mp hs).2 (by simp)
    rw [minMember, htail]
    show min x y = x
    exact min_eq_left ((List.sorted_cons.mp hs).1 y (by simp))

theorem findCycles_eq (g : Graph) : findCycles g =
    @List.insertionSort _ CycleLE cycleLeDec ((algFindCycles g).map jsSortStrings) := rfl

/-- Every returned cycle is a sorted, duplicate-free, non-empty member
list. -/
theorem findCycles_each (g : Graph) :
    ∀ c ∈ findCycles g, List.Sorted (fun a b => a ≤ b) c ∧ c.Nodup ∧ c ≠ [] := by
  intro c hc
  rw [findCycles_eq] at hc
  have hc2 := (@List.perm_insertionSort _ CycleLE cycleLeDec _).mem_iff.mp hc
  rcases List.mem_map.mp hc2 with ⟨c0, hc0, he⟩
  obtain ⟨hne, hnd⟩ := (algFindCycles_inv g).1 c0 hc0
  subst he
  refine ⟨@List.sorted_insertionSort _ _ strLeDec _ _ c0, ?_, ?_⟩
  · exact ((@List.perm_insertionSort _ _ strLeDec c0).nodup_iff).mpr hnd
  · intro hcon
    have hperm : List.Perm (jsSortStrings c0) c0 := @List.perm_insertionSort _ _ strLeDec c0
    have hlen : c0.length = 0 := by
      rw [← hperm.length_eq, hcon]
      rfl
    exact hne (List.length_eq_zero.mp hlen)

/-- The returned cycles are pairwise disjoint. -/
theorem findCycles_disjoint (g : Graph) :
    List.Pairwise (fun c d => ∀ x ∈ c, x ∉ d) (findCycles g) := by
  rw [findCycles_eq]
  have hmap : List.Pairwise (fun c d => ∀ x ∈ c, x ∉ d)
      ((algFindCycles g).map jsSortStrings) := by
    refine List.Pairwise.map _ ?_ (algFindCycles_inv g).2
    intro a b hab x hx
    intro hc
    exact hab x ((mem_jsSortStrings a x).mp hx) ((mem_jsSortStrings b x).mp hc)
  have hsymm : Symmetric (fun c d : List String => ∀ x ∈ c, x ∉ d) := by
    intro a b hab x hx hc
    exact hab x hc hx
  exact ((@List.perm_insertionSort _ CycleLE cycleLeDec
    ((algFindCycles g).map jsSortStrings)).pairwise_iff (fun h => hsymm h)).mpr hmap

/-- The returned cycle list is sorted by the comparator of the source. -/
theorem findCycles_sorted (g : Graph) :
    List.Pairwise CycleLE (findCycles g) := by
  rw [findCycles_eq]
  exact @List.sorted_insertionSort _ CycleLE cycleLeDec _ _ _

/-- The ordering stated by the specification: lexicographically smallest
member first, then cycle length, then full lexicographic comparison of the
member lists. -/
def CycleOrder (a b : List String) : Prop :=
  minMember a < minMember b ∨
    (minMember a = minMember b ∧ (a.length < b.length ∨ (a.length = b.length ∧ a ≤ b)))

/-- The returned cycle list is ordered by smallest member, then length,
then full lexicographic order, in the code-point collation model (the later
tie-breaks never fire: distinct returned cycles are disjoint, so their
smallest members differ). -/
theorem findCycles_cycleOrder (g : Graph) :
    List.Pairwise CycleOrder (findCycles g) := by
  have hand := (findCycles_sorted g).and (findCycles_disjoint g)
  refine hand.imp_of_mem ?_
  intro a b ha hb hab
  obtain ⟨hle, hdisj⟩ := hab
  obtain ⟨hsa, hnda, hnea⟩ := findCycles_each g a ha
  obtain ⟨hsb, hndb, hneb⟩ := findCycles_each g b hb
  have hheada : a.headD "" ∈ a := by
    cases a with
    | nil => exact absurd rfl hnea
    | cons x t => simp
  have hheadb : b.headD "" ∈ b := by
    cases b with
    | nil => exact absurd rfl hneb
    | cons x t => simp
  have hne : a.headD "" ≠ b.headD "" := by
    intro hc
    exact hdisj _ hheada (by rw [hc]; exact hheadb)
  have hlt : a.headD "" < b.headD "" := by
    unfold CycleLE at hle
    rcases hle with hle | ⟨hle, _⟩
    · exact hle
    · exact absurd hle hne
  unfold CycleOrder
  left
  rw [sorted_headD_min a hsa hnea, sorted_headD_min b hsb hneb]
  exact hlt

/-! ## Recommendation synthesis (C9) -/

/-- The nodes qualifying for a high-fan-out recommendation. -/
def qualifyingFanOut (g : Graph) (t : Nat) : List (String × Nat) :=
  (computeFanInOut g).fanOut.filter (fun p => t ≤ p.2)

/-- The nodes qualifying for a high-fan-in recommendation. -/
def qualifyingFanIn (g : Graph) (t : Nat) : List (String × Nat) :=
  (computeFanInOut g).fanIn.filter (fun p => t ≤ p.2)

/-- C9: the recommendations decompose into the cycle block (one aggregate
plus at most three cycle-specific messages when cycles exist), at most three
"split this module" messages for the highest-fan-out qualifiers, at most
three fan-in messages using the interface-extraction wording exactly when the
fan-in reaches twice the threshold and the monitor wording otherwise, and the
trailing graph-wide heuristics. -/
theorem C9_generateRecommendations (g : Graph) (opts : AnalyzerOptions) :
    ∃ s1 s2 s3 s4 : List String, generateRecommendations g opts = s1 ++ s2 ++ s3 ++ s4 ∧
      s1 = (if 0 < (findCycles g).length then
        aggregateCycleMsg (findCycles g).length ::
          ((findCycles g).take 3).map
            (fun cycle => breakCycleMsg (cycle.map (displayNode opts.useBasenames)))
        else []) ∧
      s1.length = (if (findCycles g).length = 0 then 0 else 1 + min 3 (findCycles g).length) ∧
      s2 = ((@List.insertionSort _ CountGE countGeDec
          (qualifyingFanOut g opts.fanOutThreshold)).take 3).map
        (fun p => splitModuleMsg (displayNode opts.useBasenames p.1) p.2) ∧
      s2.length = min 3 (qualifyingFanOut g opts.fanOutThreshold).length ∧
      s3 = ((@List.insertionSort _ CountGE countGeDec
          (qualifyingFanIn g opts.fanInThreshold)).take 3).map
        (fun p => if opts.fanInThreshold * 2 ≤ p.2 then
            extractInterfacesMsg (displayNode opts.useBasenames p.1) p.2
          else monitorMsg (displayNode opts.useBasenames p.1) p.2) ∧
      s3.length = min 3 (qualifyingFanIn g opts.fanInThreshold).length := by
  refine ⟨_, _, _, _, rfl, rfl, ?_, rfl, ?_, rfl, ?_⟩
  · by_cases h : (findCycles g).length = 0
    · rw [if_neg (by omega), if_pos h]
      rfl
    · rw [if_pos (by omega), if_neg h]
      rw [List.length_cons, List.length_map, List.length_take]
      omega
  · rw [List.length_map, List.length_take,
      (@List.perm_insertionSort _ CountGE countGeDec _).length_eq]
    rfl
  · rw [List.length_map, List.length_take,
      (@List.perm_insertionSort _ CountGE countGeDec _).length_eq]
    rfl

/-! ## The analysis functions never mutate the graph (C8)

Running each state-passing analysis function leaves the graph state exactly
as it was and returns the value of the pure function. -/

theorem stateBind_eq {α β : Type} (m : StateM Graph α) (k : α → StateM Graph β) (g : Graph) :
    (m >>= k) g = k (m g).1 (m g).2 := rfl

theorem nodesM_eq (g : Graph) : nodesM g = (g.nodes, g) := rfl

theorem edgeCountM_eq (g : Graph) : edgeCountM g = (g.edges.length, g) := rfl

theorem successorsM_eq (v : String) (g : Graph) : successorsM v g = (g.successors v, g) := rfl

theorem mapStateM_eq {β α : Type} (f : β → StateM Graph α) (fp : Graph → β → α)
    (hf : ∀ x g, f x g = (fp g x, g)) :
    ∀ (l : List β) (g : Graph), mapStateM f l g = (l.map (fp g), g)
  | [], _ => rfl
  | x :: xs, g => by
    rw [mapStateM]
    rw [stateBind_eq, hf]
    dsimp only
    rw [stateBind_eq, mapStateM_eq f fp hf xs g]
    rfl

theorem filterStateM_eq {β : Type} (f : β → StateM Graph Bool) (fp : Graph → β → Bool)
    (hf : ∀ x g, f x g = (fp g x, g)) :
    ∀ (l : List β) (g : Graph), filterStateM f l g = (l.filter (fp g), g)
  | [], _ => rfl
  | x :: xs, g => by
    rw [filterStateM]
    rw [stateBind_eq, hf]
    dsimp only
    rw [stateBind_eq, filterStateM_eq f fp hf xs g]
    rw [List.filter_cons]
    by_cases hx : fp g x = true
    · rw [if_pos hx]
      rfl
    · rw [if_neg hx]
      rfl

theorem foldlM_state_eq (f : TarjanState → String → StateM Graph TarjanState)
    (fp : Graph → TarjanState → String → TarjanState)
    (hf : ∀ s w g, f s w g = (fp g s w, g)) :
    ∀ (l : List String) (s : TarjanState) (g : Graph),
      (List.foldlM f s l) g = (List.foldl (fp g) s l, g)
  | [], _, _ => rfl
  | w :: l, s, g => by
    rw [List.foldlM_cons, List.foldl_cons, stateBind_eq, hf]
    exact foldlM_state_eq f fp hf l (fp g s w) g

theorem serializeAdjacencyM_eq (g : Graph) :
    serializeAdjacencyM g = (serializeAdjacency g, g) := by
  unfold serializeAdjacencyM
  rw [stateBind_eq]
  exact mapStateM_eq _ (fun g n => (n, jsSortStrings (g.successors n)))
    (fun x g => rfl) (jsSortStrings g.nodes) g

theorem tarjanStepM_eq (dfs : String → TarjanState → StateM Graph TarjanState)
    (dfsP : Graph → String → TarjanState → TarjanState)
    (hdfs : ∀ w s g, dfs w s g = (dfsP g w s, g)) (v : String) (s : TarjanState)
    (w : String) (g : Graph) :
    tarjanStepM dfs v s w g = (tarjanStep (dfsP g) v s w, g) := by
  unfold tarjanStepM tarjanStep
  cases vlookup s.visited w with
  | none =>
    dsimp only
    rw [stateBind_eq, hdfs]
    dsimp only
    cases vlookup (dfsP g w s).visited w with
    | some ew => rfl
    | none => rfl
  | some ew =>
    dsimp only
    by_cases hOn : ew.onStack = true
    · simp only [if_pos hOn]
      rfl
    · simp only [if_neg hOn]
      rfl

theorem tarjanDFSM_eq : ∀ (fuel : Nat) (v : String) (s : TarjanState) (g : Graph),
    tarjanDFSM fuel v s g = (tarjanDFS g fuel v s, g) := by
  intro fuel
  induction fuel with
  | zero =>
    intro v s g
    rfl
  | succ fuel ih =>
    intro v s g
    rw [tarjanDFSM, tarjanDFS]
    try dsimp only
    rw [stateBind_eq]
    simp only [successorsM_eq]
    rw [stateBind_eq]
    rw [foldlM_state_eq (tarjanStepM (fun w s' => tarjanDFSM fuel w s') v)
      (fun g => tarjanStep (fun w s' => tarjanDFS g fuel w s') v)
      (fun s w g => tarjanStepM_eq _ _ (fun w s g => ih w s g) v s w g)]
    rfl

theorem tarjanM_eq (g : Graph) : tarjanM g = (tarjan g, g) := by
  unfold tarjanM tarjan
  rw [stateBind_eq]
  simp only [nodesM_eq]
  rw [stateBind_eq]
  simp only [edgeCountM_eq]
  rw [stateBind_eq]
  have hfs : ∀ (s : TarjanState) (v : String) (g' : Graph),
      (fun s v => if (vlookup s.visited v).isSome then pure s
        else tarjanDFSM (g.nodes.length + g.edges.length + 1) v s) s v g' =
      ((fun g' s v => if (vlookup s.visited v).isSome then s
        else tarjanDFS g' (g.nodes.length + g.edges.length + 1) v s) g' s v, g') := by
    intro s v g'
    by_cases hv : (vlookup s.visited v).isSome
    · simp only [if_pos hv]
      rfl
    · simp only [if_neg hv]
      exact tarjanDFSM_eq (g.nodes.length + g.edges.length + 1) v s g'
  have hfeq := foldlM_state_eq _ _ hfs g.nodes ⟨0, [], [], []⟩ g
  rw [hfeq]
  rfl

theorem findCyclesM_eq (g : Graph) : findCyclesM g = (findCycles g, g) := by
  unfold findCyclesM
  rw [stateBind_eq, tarjanM_eq]
  dsimp only
  rw [stateBind_eq]
  have hfs : ∀ (x : List String) (g' : Graph),
      ((fun cmpt => do
        let selfLoop ← hasEdgeM (cmpt.headD "") (cmpt.headD "")
        pure (decide (cmpt.length > 1) || (cmpt.length == 1 && selfLoop))) :
          List String → StateM Graph Bool) x g' =
      ((fun g' cmpt => decide (cmpt.length > 1) ||
        (cmpt.length == 1 && Graph.hasEdge g' (cmpt.headD "") (cmpt.headD ""))) g' x, g') :=
    fun x g' => rfl
  have hfeq := filterStateM_eq _ _ hfs (tarjan g) g
  rw [hfeq]
  rfl

theorem computeFanInOutM_eq (g : Graph) : computeFanInOutM g = (computeFanInOut g, g) := by
  unfold computeFanInOutM
  rw [stateBind_eq]
  simp only [nodesM_eq]
  rw [stateBind_eq]
  have hfs : ∀ (x : String) (g' : Graph),
      ((fun n => do
        let ss ← successorsM n
        let ps ← predecessorsM n
        pure ((n, ps.length), (n, ss.length))) :
          String → StateM Graph ((String × Nat) × (String × Nat))) x g' =
      ((fun g' n => ((n, (Graph.predecessors g' n).length),
        (n, (Graph.successors g' n).length))) g' x, g') :=
    fun x g' => rfl
  have hfeq := mapStateM_eq _ _ hfs g.nodes g
  rw [hfeq]
  dsimp only
  rw [List.map_map, List.map_map]
  rfl

theorem findHighCouplingNodesM_eq (tIn tOut : Nat) (g : Graph) :
    findHighCouplingNodesM tIn tOut g = (findHighCouplingNodes g tIn tOut, g) := by
  unfold findHighCouplingNodesM
  rw [stateBind_eq, computeFanInOutM_eq]
  rfl

theorem C8_analysis_never_mutates (g : Graph) :
    serializeAdjacencyM g = (serializeAdjacency g, g) ∧
    findCyclesM g = (findCycles g, g) ∧
    computeFanInOutM g = (computeFanInOut g, g) ∧
    ∀ tIn tOut : Nat, findHighCouplingNodesM tIn tOut g = (findHighCouplingNodes g tIn tOut, g) :=
  ⟨serializeAdjacencyM_eq g, findCyclesM_eq g, computeFanInOutM_eq g,
    fun tIn tOut => findHighCouplingNodesM_eq tIn tOut g⟩

/-! ## Order-invariance of the analysis results (C7)

`findCycles` and `findHighCouplingNodes` depend only on the node and edge
sets of the graph, not on the order in which the graph was constructed.
`computeFanInOut` does not: its result records list the nodes in insertion
order.  The development below derives the first fact from the tarjan
characterization. -/

theorem reach_congr (g₁ g₂ : Graph)
    (he : ∀ e : String × String, e ∈ g₁.edges ↔ e ∈ g₂.edges) (x y : String) :
    Reach g₁ x y ↔ Reach g₂ x y := by
  constructor
  · exact fun h => Relation.ReflTransGen.mono (fun a b hab => (he (a, b)).mp hab) h
  · exact fun h => Relation.ReflTransGen.mono (fun a b hab => (he (a, b)).mpr hab) h

/-- What it means, in terms of the node and edge sets only, to be one of the
sorted member lists that `findCycles` assembles: a sorted duplicate-free
list of the members of a mutually-reachable class of some node, which is
cyclic (more than one member, or a self-loop). -/
def SCCSorted (g : Graph) (c : List String) : Prop :=
  List.Sorted (fun a b => a ≤ b) c ∧ c.Nodup ∧
  (∃ x ∈ g.nodes, ∀ y, y ∈ c ↔ (y ∈ g.nodes ∧ Reach g x y ∧ Reach g y x)) ∧
  (1 < c.length ∨ (c.length = 1 ∧ (c.headD "", c.headD "") ∈ g.edges))

theorem eq_of_sorted_nodup_mem (l₁ l₂ : List String)
    (s₁ : List.Sorted (fun a b => a ≤ b) l₁) (s₂ : List.Sorted (fun a b => a ≤ b) l₂)
    (n₁ : l₁.Nodup) (n₂ : l₂.Nodup) (hm : ∀ y, y ∈ l₁ ↔ y ∈ l₂) : l₁ = l₂ := by
  refine List.eq_of_perm_of_sorted ?_ s₁ s₂
  refine List.perm_of_nodup_nodup_toFinset_eq n₁ n₂ ?_
  refine Finset.ext fun y => ?_
  rw [List.mem_toFinset, List.mem_toFinset]
  exact hm y

theorem jsSortStrings_sorted (l : List String) :
    List.Sorted (fun a b => a ≤ b) (jsSortStrings l) :=
  @List.sorted_insertionSort _ _ strLeDec _ _ l

theorem jsSortStrings_singleton (x : String) : jsSortStrings [x] = [x] := rfl

/-- Membership in the list of sorted cyclic components, characterized purely
by the node and edge sets. -/
theorem mem_map_sort_algFindCycles (g : Graph) (hWF : g.WF) (c : List String) :
    c ∈ (algFindCycles g).map jsSortStrings ↔ SCCSorted g c := by
  obtain ⟨hchar, hcov, _⟩ := tarjan_char g hWF
  constructor
  · intro hc
    obtain ⟨c₀, hc₀, hsort⟩ := List.mem_map.mp hc
    obtain ⟨hc₀t, hpred⟩ := List.mem_filter.mp hc₀
    obtain ⟨hne, hnd, hnodes, hiff⟩ := hchar c₀ hc₀t
    obtain ⟨x, hx⟩ := List.exists_mem_of_ne_nil c₀ hne
    have hperm : (jsSortStrings c₀).Perm c₀ := @List.perm_insertionSort _ _ strLeDec c₀
    subst hsort
    refine ⟨jsSortStrings_sorted c₀, hperm.nodup_iff.mpr hnd, ⟨x, hnodes x hx, ?_⟩, ?_⟩
    · intro y
      rw [mem_jsSortStrings]
      exact hiff x hx y
    · rw [Bool.or_eq_true, Bool.and_eq_true] at hpred
      rcases hpred with h | ⟨h1, h2⟩
      · refine Or.inl ?_
        rw [hperm.length_eq]
        exact of_decide_eq_true h
      · have hlen : c₀.length = 1 := beq_iff_eq.mp h1
        obtain ⟨z, hz⟩ := List.length_eq_one.mp hlen
        subst hz
        refine Or.inr ⟨rfl, ?_⟩
        rw [jsSortStrings_singleton]
        have h2' : ((z, z) ∈ g.edges) := of_decide_eq_true h2
        exact h2'
  · rintro ⟨hsort, hnd, ⟨x, hxn, hiff⟩, hcyc⟩
    obtain ⟨c₀, hc₀t, hxc₀⟩ := hcov x hxn
    obtain ⟨hne, hnd₀, hnodes₀, hiff₀⟩ := hchar c₀ hc₀t
    have hmem : ∀ y, y ∈ c ↔ y ∈ c₀ := by
      intro y
      rw [hiff y, hiff₀ x hxc₀ y]
    have hceq : c = jsSortStrings c₀ := by
      refine eq_of_sorted_nodup_mem c (jsSortStrings c₀) hsort (jsSortStrings_sorted c₀)
        hnd ((@List.perm_insertionSort _ _ strLeDec c₀).nodup_iff.mpr hnd₀) ?_
      intro y
      rw [mem_jsSortStrings]
      exact hmem y
    have hlen : c.length = c₀.length := by
      rw [hceq]
      exact (@List.perm_insertionSort _ _ strLeDec c₀).length_eq
    refine List.mem_map.mpr ⟨c₀, List.mem_filter.mpr ⟨hc₀t, ?_⟩, hceq.symm⟩
    rw [Bool.or_eq_true, Bool.and_eq_true]
    rcases hcyc with h | ⟨h1, h2⟩
    · refine Or.inl (decide_eq_true ?_)
      omega
    · have hlen₀ : c₀.length = 1 := by omega
      obtain ⟨z, hz⟩ := List.length_eq_one.mp hlen₀
      subst hz
      have hcz : c = [z] := by
        rw [hceq, jsSortStrings_singleton]
      refine Or.inr ⟨beq_iff_eq.mpr rfl, ?_⟩
      rw [hcz] at h2
      exact decide_eq_true h2
theorem sccsorted_mono (g₁ g₂ : Graph)
    (hn : ∀ x : String, x ∈ g₁.nodes ↔ x ∈ g₂.nodes)
    (he : ∀ e : String × String, e ∈ g₁.edges ↔ e ∈ g₂.edges) (c : List String)
    (h : SCCSorted g₁ c) : SCCSorted g₂ c := by
  obtain ⟨hsort, hnd, ⟨x, hxn, hiff⟩, hcyc⟩ := h
  refine ⟨hsort, hnd, ⟨x, (hn x).mp hxn, ?_⟩, ?_⟩
  · intro y
    rw [hiff y, hn y, reach_congr g₁ g₂ he x y, reach_congr g₁ g₂ he y x]
  · rcases hcyc with h | ⟨h1, h2⟩
    · exact Or.inl h
    · exact Or.inr ⟨h1, (he _).mp h2⟩

theorem sccsorted_congr (g₁ g₂ : Graph)
    (hn : ∀ x : String, x ∈ g₁.nodes ↔ x ∈ g₂.nodes)
    (he : ∀ e : String × String, e ∈ g₁.edges ↔ e ∈ g₂.edges) (c : List String) :
    SCCSorted g₁ c ↔ SCCSorted g₂ c :=
  ⟨sccsorted_mono g₁ g₂ hn he c,
    sccsorted_mono g₂ g₁ (fun x => (hn x).symm) (fun e => (he e).symm) c⟩

theorem map_sort_nonnil (g : Graph) :
    ∀ c ∈ (algFindCycles g).map jsSortStrings, c ≠ [] := by
  intro c hc hcon
  obtain ⟨c₀, hc₀, hsort⟩ := List.mem_map.mp hc
  obtain ⟨hne, _⟩ := (algFindCycles_inv g).1 c₀ hc₀
  have hperm : (jsSortStrings c₀).Perm c₀ := @List.perm_insertionSort _ _ strLeDec c₀
  refine hne (List.length_eq_zero.mp ?_)
  rw [← hperm.length_eq, hsort, hcon]
  rfl

theorem map_sort_disjoint (g : Graph) :
    List.Pairwise (fun c d => ∀ x ∈ c, x ∉ d) ((algFindCycles g).map jsSortStrings) := by
  refine List.Pairwise.map _ ?_ (algFindCycles_inv g).2
  intro a b hab x hx hc
  exact hab x ((mem_jsSortStrings a x).mp hx) ((mem_jsSortStrings b x).mp hc)

theorem map_sort_nodup (g : Graph) : ((algFindCycles g).map jsSortStrings).Nodup := by
  refine pairwise_of_mem_imp (fun a ha b _ hdis => ?_) (map_sort_disjoint g)
  intro hcon
  obtain ⟨x, hx⟩ := List.exists_mem_of_ne_nil a (map_sort_nonnil g a ha)
  exact hdis x hx (hcon ▸ hx)

theorem map_sort_perm (g₁ g₂ : Graph) (h₁ : g₁.WF) (h₂ : g₂.WF)
    (hn : ∀ x : String, x ∈ g₁.nodes ↔ x ∈ g₂.nodes)
    (he : ∀ e : String × String, e ∈ g₁.edges ↔ e ∈ g₂.edges) :
    ((algFindCycles g₁).map jsSortStrings).Perm ((algFindCycles g₂).map jsSortStrings) := by
  refine List.perm_of_nodup_nodup_toFinset_eq (map_sort_nodup g₁) (map_sort_nodup g₂) ?_
  refine Finset.ext fun c => ?_
  rw [List.mem_toFinset, List.mem_toFinset, mem_map_sort_algFindCycles g₁ h₁ c,
    mem_map_sort_algFindCycles g₂ h₂ c]
  exact sccsorted_congr g₁ g₂ hn he c

theorem eq_of_perm_pairwise_antisymmOn {α : Type} {R : α → α → Prop} :
    ∀ {l₁ l₂ : List α}, l₁.Perm l₂ → l₁.Pairwise R → l₂.Pairwise R →
    (∀ a ∈ l₁, ∀ b ∈ l₁, R a b → R b a → a = b) → l₁ = l₂
  | [], l₂, h, _, _, _ => by
    have hlen := h.length_eq
    cases l₂ with
    | nil => rfl
    | cons b t₂ => cases hlen
  | a :: t₁, l₂, h, hp₁, hp₂, hanti => by
    cases l₂ with
    | nil =>
      have hlen := h.length_eq
      cases hlen
    | cons b t₂ =>
      by_cases hba : a = b
      · subst hba
        have ht := h.cons_inv
        have hrec := eq_of_perm_pairwise_antisymmOn ht (List.pairwise_cons.mp hp₁).2
          (List.pairwise_cons.mp hp₂).2
          (fun x hx y hy => hanti x (List.mem_cons.mpr (Or.inr hx))
            y (List.mem_cons.mpr (Or.inr hy)))
        rw [hrec]
      · exfalso
        have hat₂ : a ∈ t₂ := by
          rcases List.mem_cons.mp (h.mem_iff.mp (List.mem_cons_self a t₁)) with hc | hc
          · exact absurd hc hba
          · exact hc
        have hbt₁ : b ∈ t₁ := by
          rcases List.mem_cons.mp (h.symm.mem_iff.mp (List.mem_cons_self b t₂)) with hc | hc
          · exact absurd hc.symm hba
          · exact hc
        have hRab : R a b := (List.pairwise_cons.mp hp₁).1 b hbt₁
        have hRba : R b a := (List.pairwise_cons.mp hp₂).1 a hat₂
        exact hba (hanti a (List.mem_cons_self a t₁) b (List.mem_cons.mpr (Or.inr hbt₁))
          hRab hRba)

theorem cycle_antisymmOn (g : Graph) :
    ∀ a ∈ (algFindCycles g).map jsSortStrings, ∀ b ∈ (algFindCycles g).map jsSortStrings,
    CycleLE a b → CycleLE b a → a = b := by
  intro a ha b hb hab hba
  have hhead : a.headD "" = b.headD "" := by
    unfold CycleLE at hab hba
    rcases hab with hab | ⟨hab, _⟩
    · rcases hba with hba | ⟨hba, _⟩
      · exact absurd hba (lt_asymm hab)
      · exact hba.symm
    · exact hab
  by_contra hne
  have hsymm : Symmetric (fun c d : List String => ∀ x ∈ c, x ∉ d) := by
    intro c d hcd x hx hxc
    exact hcd x hxc hx
  have hdisj := List.Pairwise.forall hsymm (map_sort_disjoint g) ha hb hne
  have hha : a.headD "" ∈ a := by
    cases a with
    | nil => exact absurd rfl (map_sort_nonnil g [] ha)
    | cons x t => exact List.mem_cons_self x t
  have hhb : b.headD "" ∈ b := by
    cases b with
    | nil => exact absurd rfl (map_sort_nonnil g [] hb)
    | cons x t => exact List.mem_cons_self x t
  exact hdisj (a.headD "") hha (hhead ▸ hhb)

/-- `findCycles` depends only on the node and edge sets of a well-formed
graph. -/
theorem findCycles_order_invariant (g₁ g₂ : Graph) (h₁ : g₁.WF) (h₂ : g₂.WF)
    (hn : ∀ x : String, x ∈ g₁.nodes ↔ x ∈ g₂.nodes)
    (he : ∀ e : String × String, e ∈ g₁.edges ↔ e ∈ g₂.edges) :
    findCycles g₁ = findCycles g₂ := by
  rw [findCycles_eq, findCycles_eq]
  have hperm : ((algFindCycles g₁).map jsSortStrings).Perm
      ((algFindCycles g₂).map jsSortStrings) := map_sort_perm g₁ g₂ h₁ h₂ hn he
  have hp1 := @List.perm_insertionSort _ CycleLE cycleLeDec ((algFindCycles g₁).map jsSortStrings)
  have hp2 := @List.perm_insertionSort _ CycleLE cycleLeDec ((algFindCycles g₂).map jsSortStrings)
  refine @eq_of_perm_pairwise_antisymmOn (List String) CycleLE _ _
    (hp1.trans (hperm.trans hp2.symm)) ?_ ?_ ?_
  · exact @List.sorted_insertionSort _ CycleLE cycleLeDec _ _ _
  · exact @List.sorted_insertionSort _ CycleLE cycleLeDec _ _ _
  · intro a ha b hb
    exact cycle_antisymmOn g₁ a (hp1.mem_iff.mp ha) b (hp1.mem_iff.mp hb)

instance : IsAntisymm CouplingEntry CouplingLE := by
  constructor
  intro a b hab hba
  obtain ⟨an, ac⟩ := a
  obtain ⟨bn, bc⟩ := b
  unfold CouplingLE at hab hba
  dsimp only at hab hba
  rcases hab with h | ⟨h1, h2⟩
  · rcases hba with h' | ⟨h1', h2'⟩
    · exact absurd h' (lt_asymm h)
    · omega
  · rcases hba with h' | ⟨h1', h2'⟩
    · omega
    · have hn : an = bn := le_antisymm h2 h2'
      rw [h1, hn]

theorem successors_length_eq (g₁ g₂ : Graph) (he : g₁.edges.Perm g₂.edges) (n : String) :
    (g₁.successors n).length = (g₂.successors n).length := by
  unfold Graph.successors
  rw [List.length_map, List.length_map, (he.filter _).length_eq]

theorem predecessors_length_eq (g₁ g₂ : Graph) (he : g₁.edges.Perm g₂.edges) (n : String) :
    (g₁.predecessors n).length = (g₂.predecessors n).length := by
  unfold Graph.predecessors
  rw [List.length_map, List.length_map, (he.filter _).length_eq]

/-- The `computeFanInOut` records agree up to the ordering of their keys. -/
theorem computeFanInOut_perm (g₁ g₂ : Graph)
    (hn : g₁.nodes.Perm g₂.nodes) (he : g₁.edges.Perm g₂.edges) :
    (computeFanInOut g₁).fanIn.Perm (computeFanInOut g₂).fanIn ∧
    (computeFanInOut g₁).fanOut.Perm (computeFanInOut g₂).fanOut := by
  unfold computeFanInOut
  dsimp only
  constructor
  · have hmap : g₁.nodes.map (fun n => (n, (g₁.predecessors n).length)) =
        g₁.nodes.map (fun n => (n, (g₂.predecessors n).length)) :=
      List.map_congr_left (fun n _ => by rw [predecessors_length_eq g₁ g₂ he n])
    rw [hmap]
    exact hn.map _
  · have hmap : g₁.nodes.map (fun n => (n, (g₁.successors n).length)) =
        g₁.nodes.map (fun n => (n, (g₂.successors n).length)) :=
      List.map_congr_left (fun n _ => by rw [successors_length_eq g₁ g₂ he n])
    rw [hmap]
    exact hn.map _

/-- `findHighCouplingNodes` depends only on the node and edge sets. -/
theorem findHighCouplingNodes_order_invariant (g₁ g₂ : Graph)
    (hn : g₁.nodes.Perm g₂.nodes) (he : g₁.edges.Perm g₂.edges)
    (tIn tOut : Nat) :
    findHighCouplingNodes g₁ tIn tOut = findHighCouplingNodes g₂ tIn tOut := by
  obtain ⟨hfi, hfo⟩ := computeFanInOut_perm g₁ g₂ hn he
  have hIn : @List.insertionSort _ CouplingLE couplingLeDec
      (((computeFanInOut g₁).fanIn.filter (fun p => tIn ≤ p.2)).map
        (fun p => CouplingEntry.mk p.1 p.2)) =
      @List.insertionSort _ CouplingLE couplingLeDec
      (((computeFanInOut g₂).fanIn.filter (fun p => tIn ≤ p.2)).map
        (fun p => CouplingEntry.mk p.1 p.2)) := by
    have hp : (((computeFanInOut g₁).fanIn.filter (fun p => tIn ≤ p.2)).map
        (fun p => CouplingEntry.mk p.1 p.2)).Perm
        (((computeFanInOut g₂).fanIn.filter (fun p => tIn ≤ p.2)).map
        (fun p => CouplingEntry.mk p.1 p.2)) := (hfi.filter _).map _
    have hs1 : List.Sorted CouplingLE (@List.insertionSort _ CouplingLE couplingLeDec
        (((computeFanInOut g₁).fanIn.filter (fun p => tIn ≤ p.2)).map
          (fun p => CouplingEntry.mk p.1 p.2))) :=
      @List.sorted_insertionSort _ CouplingLE couplingLeDec _ _ _
    have hs2 : List.Sorted CouplingLE (@List.insertionSort _ CouplingLE couplingLeDec
        (((computeFanInOut g₂).fanIn.filter (fun p => tIn ≤ p.2)).map
          (fun p => CouplingEntry.mk p.1 p.2))) :=
      @List.sorted_insertionSort _ CouplingLE couplingLeDec _ _ _
    exact List.eq_of_perm_of_sorted
      ((@List.perm_insertionSort _ CouplingLE couplingLeDec _).trans
        (hp.trans (@List.perm_insertionSort _ CouplingLE couplingLeDec _).symm)) hs1 hs2
  have hOut : @List.insertionSort _ CouplingLE couplingLeDec
      (((computeFanInOut g₁).fanOut.filter (fun p => tOut ≤ p.2)).map
        (fun p => CouplingEntry.mk p.1 p.2)) =
      @List.insertionSort _ CouplingLE couplingLeDec
      (((computeFanInOut g₂).fanOut.filter (fun p => tOut ≤ p.2)).map
        (fun p => CouplingEntry.mk p.1 p.2)) := by
    have hp : (((computeFanInOut g₁).fanOut.filter (fun p => tOut ≤ p.2)).map
        (fun p => CouplingEntry.mk p.1 p.2)).Perm
        (((computeFanInOut g₂).fanOut.filter (fun p => tOut ≤ p.2)).map
        (fun p => CouplingEntry.mk p.1 p.2)) := (hfo.filter _).map _
    have hs1 : List.Sorted CouplingLE (@List.insertionSort _ CouplingLE couplingLeDec
        (((computeFanInOut g₁).fanOut.filter (fun p => tOut ≤ p.2)).map
          (fun p => CouplingEntry.mk p.1 p.2))) :=
      @List.sorted_insertionSort _ CouplingLE couplingLeDec _ _ _
    have hs2 : List.Sorted CouplingLE (@List.insertionSort _ CouplingLE couplingLeDec
        (((computeFanInOut g₂).fanOut.filter (fun p => tOut ≤ p.2)).map
          (fun p => CouplingEntry.mk p.1 p.2))) :=
      @List.sorted_insertionSort _ CouplingLE couplingLeDec _ _ _
    exact List.eq_of_perm_of_sorted
      ((@List.perm_insertionSort _ CouplingLE couplingLeDec _).trans
        (hp.trans (@List.perm_insertionSort _ CouplingLE couplingLeDec _).symm)) hs1 hs2
  unfold findHighCouplingNodes
  dsimp only
  rw [hIn, hOut]



/-! ## Collation-generic properties of the sorting comparators -/

theorem codePoint_lt_iff (x y : String) : codePointOrder.lt x y ↔ x < y := by
  show (charListLe x.toList y.toList = true ∧ charListLe y.toList x.toList = false) ↔ x < y
  constructor
  · intro h
    exact (strLt_iff x y).mp h.2
  · intro h
    exact ⟨(strLe_iff x y).mpr (le_of_lt h), (strLt_iff x y).mpr h⟩

theorem codePoint_eqv_iff (x y : String) : codePointOrder.eqv x y ↔ x = y := by
  show (charListLe x.toList y.toList = true ∧ charListLe y.toList x.toList = true) ↔ x = y
  constructor
  · intro h
    exact le_antisymm ((strLe_iff x y).mp h.1) ((strLe_iff y x).mp h.2)
  · intro h
    subst h
    exact ⟨(strLe_iff x x).mpr (le_refl x), (strLe_iff x x).mpr (le_refl x)⟩

theorem cycleLeWith_codePoint_iff (a b : List String) :
    CycleLEWith codePointOrder a b ↔ CycleLE a b := by
  unfold CycleLEWith CycleLE
  rw [codePoint_lt_iff, codePoint_eqv_iff]

theorem couplingLeWith_codePoint_iff (a b : CouplingEntry) :
    CouplingLEWith codePointOrder a b ↔ CouplingLE a b := by
  unfold CouplingLEWith CouplingLE
  constructor
  · rintro (h | ⟨h1, h2⟩)
    · exact Or.inl h
    · exact Or.inr ⟨h1, (strLe_iff _ _).mp h2⟩
  · rintro (h | ⟨h1, h2⟩)
    · exact Or.inl h
    · exact Or.inr ⟨h1, (strLe_iff _ _).mpr h2⟩

theorem orderedInsert_congr {α : Type} (R S : α → α → Prop) (dR : DecidableRel R)
    (dS : DecidableRel S) (h : ∀ a b, R a b ↔ S a b) (a : α) :
    ∀ l : List α, @List.orderedInsert _ R dR a l = @List.orderedInsert _ S dS a l
  | [] => rfl
  | b :: t => by
    rw [List.orderedInsert, List.orderedInsert]
    by_cases hr : R a b
    · rw [if_pos hr, if_pos ((h a b).mp hr)]
    · rw [if_neg hr, if_neg (fun hc => hr ((h a b).mpr hc)),
        orderedInsert_congr R S dR dS h a t]

theorem insertionSort_congr {α : Type} (R S : α → α → Prop) (dR : DecidableRel R)
    (dS : DecidableRel S) (h : ∀ a b, R a b ↔ S a b) :
    ∀ l : List α, @List.insertionSort _ R dR l = @List.insertionSort _ S dS l
  | [] => rfl
  | a :: t => by
    rw [List.insertionSort, List.insertionSort, insertionSort_congr R S dR dS h t,
      orderedInsert_congr R S dR dS h a]

/-- Under the code-point collation model, the collation-generic `findCycles`
is the `findCycles` function transcribed with `CycleLE`. -/
theorem findCyclesWith_codePoint (g : Graph) :
    findCyclesWith codePointOrder g = findCycles g := by
  unfold findCyclesWith findCyclesAttemptWith findCyclesRecover
  rw [findCycles_eq]
  exact insertionSort_congr _ _ (cycleLeWithDec codePointOrder) cycleLeDec
    cycleLeWith_codePoint_iff _

/-- Under the code-point collation model, the collation-generic
`findHighCouplingNodes` is the `findHighCouplingNodes` function transcribed
with `CouplingLE`. -/
theorem findHighCouplingNodesWith_codePoint (g : Graph) (tIn tOut : Nat) :
    findHighCouplingNodesWith codePointOrder g tIn tOut = findHighCouplingNodes g tIn tOut := by
  unfold findHighCouplingNodesWith findHighCouplingNodes
  dsimp only
  rw [insertionSort_congr _ _ (couplingLeWithDec codePointOrder) couplingLeDec
    couplingLeWith_codePoint_iff
    (((computeFanInOut g).fanIn.filter (fun p => tIn ≤ p.2)).map
      (fun p => CouplingEntry.mk p.1 p.2)),
    insertionSort_congr _ _ (couplingLeWithDec codePointOrder) couplingLeDec
    couplingLeWith_codePoint_iff
    (((computeFanInOut g).fanOut.filter (fun p => tOut ≤ p.2)).map
      (fun p => CouplingEntry.mk p.1 p.2))]

theorem locale_trichotomy (L : LocaleOrder) (x y : String) :
    L.lt x y ∨ L.eqv x y ∨ L.lt y x := by
  unfold LocaleOrder.lt LocaleOrder.eqv
  cases h1 : L.le x y with
  | true =>
    cases h2 : L.le y x with
    | true => exact Or.inr (Or.inl ⟨rfl, rfl⟩)
    | false => exact Or.inl ⟨rfl, rfl⟩
  | false =>
    cases h2 : L.le y x with
    | true => exact Or.inr (Or.inr ⟨rfl, rfl⟩)
    | false =>
      rcases L.total x y with h | h
      · rw [h1] at h
        cases h
      · rw [h2] at h
        cases h

theorem locale_lt_le (L : LocaleOrder) (x y : String) (h : L.lt x y) : L.le x y = true := h.1

theorem locale_lt_trans (L : LocaleOrder) {x y z : String} (h1 : L.lt x y) (h2 : L.lt y z) :
    L.lt x z := by
  refine ⟨L.trans x y z h1.1 h2.1, ?_⟩
  cases h : L.le z x with
  | false => rfl
  | true =>
    have := L.trans y z x h2.1 h
    rw [h1.2] at this
    cases this

theorem locale_lt_eqv_trans (L : LocaleOrder) {x y z : String} (h1 : L.lt x y)
    (h2 : L.eqv y z) : L.lt x z := by
  refine ⟨L.trans x y z h1.1 h2.1, ?_⟩
  cases h : L.le z x with
  | false => rfl
  | true =>
    have := L.trans y z x h2.1 h
    rw [h1.2] at this
    cases this

theorem locale_eqv_lt_trans (L : LocaleOrder) {x y z : String} (h1 : L.eqv x y)
    (h2 : L.lt y z) : L.lt x z := by
  refine ⟨L.trans x y z h1.1 h2.1, ?_⟩
  cases h : L.le z x with
  | false => rfl
  | true =>
    have := L.trans z x y h (h1.1)
    rw [h2.2] at this
    cases this

theorem locale_eqv_trans (L : LocaleOrder) {x y z : String} (h1 : L.eqv x y)
    (h2 : L.eqv y z) : L.eqv x z :=
  ⟨L.trans x y z h1.1 h2.1, L.trans z y x h2.2 h1.2⟩

theorem locale_lt_not_eqv (L : LocaleOrder) {x y : String} (h : L.lt x y) : ¬ L.eqv x y := by
  intro hc
  have h2 := hc.2
  rw [h.2] at h2
  cases h2

theorem cycleLeWith_total (L : LocaleOrder) : ∀ a b : List String,
    CycleLEWith L a b ∨ CycleLEWith L b a := by
  intro a b
  unfold CycleLEWith
  rcases locale_trichotomy L (a.headD "") (b.headD "") with h | h | h
  · exact Or.inl (Or.inl h)
  · rcases Nat.le_total a.length b.length with h2 | h2
    · exact Or.inl (Or.inr ⟨h, h2⟩)
    · exact Or.inr (Or.inr ⟨⟨h.2, h.1⟩, h2⟩)
  · exact Or.inr (Or.inl h)

theorem cycleLeWith_trans (L : LocaleOrder) : ∀ a b c : List String,
    CycleLEWith L a b → CycleLEWith L b c → CycleLEWith L a c := by
  intro a b c hab hbc
  unfold CycleLEWith at hab hbc ⊢
  rcases hab with hab | ⟨hab, hab2⟩ <;> rcases hbc with hbc | ⟨hbc, hbc2⟩
  · exact Or.inl (locale_lt_trans L hab hbc)
  · exact Or.inl (locale_lt_eqv_trans L hab hbc)
  · exact Or.inl (locale_eqv_lt_trans L hab hbc)
  · exact Or.inr ⟨locale_eqv_trans L hab hbc, le_trans hab2 hbc2⟩

theorem couplingLeWith_total (L : LocaleOrder) : ∀ a b : CouplingEntry,
    CouplingLEWith L a b ∨ CouplingLEWith L b a := by
  intro a b
  unfold CouplingLEWith
  rcases Nat.lt_trichotomy a.count b.count with h | h | h
  · exact Or.inr (Or.inl h)
  · rcases L.total a.node b.node with h2 | h2
    · exact Or.inl (Or.inr ⟨h, h2⟩)
    · exact Or.inr (Or.inr ⟨h.symm, h2⟩)
  · exact Or.inl (Or.inl h)

theorem couplingLeWith_trans (L : LocaleOrder) : ∀ a b c : CouplingEntry,
    CouplingLEWith L a b → CouplingLEWith L b c → CouplingLEWith L a c := by
  intro a b c hab hbc
  unfold CouplingLEWith at hab hbc ⊢
  rcases hab with hab | ⟨hab1, hab2⟩ <;> rcases hbc with hbc | ⟨hbc1, hbc2⟩
  · exact Or.inl (by omega)
  · exact Or.inl (by omega)
  · exact Or.inl (by omega)
  · exact Or.inr ⟨by omega, L.trans _ _ _ hab2 hbc2⟩

theorem findCyclesWith_eq (L : LocaleOrder) (g : Graph) : findCyclesWith L g =
    @List.insertionSort _ (CycleLEWith L) (cycleLeWithDec L)
      ((algFindCycles g).map jsSortStrings) := rfl

/-- Under every collation model, each returned cycle is a sorted,
duplicate-free, non-empty member list. -/
theorem findCyclesWith_each (L : LocaleOrder) (g : Graph) :
    ∀ c ∈ findCyclesWith L g, List.Sorted (fun a b => a ≤ b) c ∧ c.Nodup ∧ c ≠ [] := by
  intro c hc
  rw [findCyclesWith_eq] at hc
  have hc2 := (@List.perm_insertionSort _ (CycleLEWith L) (cycleLeWithDec L) _).mem_iff.mp hc
  rcases List.mem_map.mp hc2 with ⟨c0, hc0, he⟩
  obtain ⟨hne, hnd⟩ := (algFindCycles_inv g).1 c0 hc0
  subst he
  refine ⟨@List.sorted_insertionSort _ _ strLeDec _ _ c0, ?_, ?_⟩
  · exact ((@List.perm_insertionSort _ _ strLeDec c0).nodup_iff).mpr hnd
  · intro hcon
    have hperm : List.Perm (jsSortStrings c0) c0 := @List.perm_insertionSort _ _ strLeDec c0
    have hlen : c0.length = 0 := by
      rw [← hperm.length_eq, hcon]
      rfl
    exact hne (List.length_eq_zero.mp hlen)

/-- Under every collation model, the returned cycle list is sorted by the
comparator of the source read in that model. -/
theorem findCyclesWith_sorted (L : LocaleOrder) (g : Graph) :
    List.Pairwise (CycleLEWith L) (findCyclesWith L g) := by
  rw [findCyclesWith_eq]
  haveI : IsTotal (List String) (CycleLEWith L) := ⟨cycleLeWith_total L⟩
  haveI : IsTrans (List String) (CycleLEWith L) := ⟨cycleLeWith_trans L⟩
  exact @List.sorted_insertionSort _ (CycleLEWith L) (cycleLeWithDec L) _ _ _

theorem cycle_antisymmOn_with (L : LocaleOrder)
    (hanti : ∀ a b : String, L.le a b = true → L.le b a = true → a = b) (g : Graph) :
    ∀ a ∈ (algFindCycles g).map jsSortStrings, ∀ b ∈ (algFindCycles g).map jsSortStrings,
    CycleLEWith L a b → CycleLEWith L b a → a = b := by
  intro a ha b hb hab hba
  have heqv : L.eqv (a.headD "") (b.headD "") := by
    unfold CycleLEWith at hab hba
    rcases hab with hab | ⟨hab, _⟩
    · rcases hba with hba | ⟨hba, _⟩
      · exact absurd hba.1 (by rw [hab.2]; intro hc; cases hc)
      · exact absurd hba.1 (by rw [hab.2]; intro hc; cases hc)
    · exact hab
  have hhead : a.headD "" = b.headD "" := hanti _ _ heqv.1 heqv.2
  by_contra hne
  have hsymm : Symmetric (fun c d : List String => ∀ x ∈ c, x ∉ d) := by
    intro c d hcd x hx hxc
    exact hcd x hxc hx
  have hdisj := List.Pairwise.forall hsymm (map_sort_disjoint g) ha hb hne
  have hha : a.headD "" ∈ a := by
    cases a with
    | nil => exact absurd rfl (map_sort_nonnil g [] ha)
    | cons x t => exact List.mem_cons_self x t
  have hhb : b.headD "" ∈ b := by
    cases b with
    | nil => exact absurd rfl (map_sort_nonnil g [] hb)
    | cons x t => exact List.mem_cons_self x t
  exact hdisj (a.headD "") hha (hhead ▸ hhb)

/-- Under every antisymmetric collation model, `findCycles` depends only on
the node and edge sets of a well-formed graph. -/
theorem findCyclesWith_order_invariant (L : LocaleOrder)
    (hanti : ∀ a b : String, L.le a b = true → L.le b a = true → a = b)
    (g₁ g₂ : Graph) (h₁ : g₁.WF) (h₂ : g₂.WF)
    (hn : ∀ x : String, x ∈ g₁.nodes ↔ x ∈ g₂.nodes)
    (he : ∀ e : String × String, e ∈ g₁.edges ↔ e ∈ g₂.edges) :
    findCyclesWith L g₁ = findCyclesWith L g₂ := by
  rw [findCyclesWith_eq, findCyclesWith_eq]
  have hperm : ((algFindCycles g₁).map jsSortStrings).Perm
      ((algFindCycles g₂).map jsSortStrings) := map_sort_perm g₁ g₂ h₁ h₂ hn he
  have hp1 := @List.perm_insertionSort _ (CycleLEWith L) (cycleLeWithDec L)
    ((algFindCycles g₁).map jsSortStrings)
  have hp2 := @List.perm_insertionSort _ (CycleLEWith L) (cycleLeWithDec L)
    ((algFindCycles g₂).map jsSortStrings)
  haveI : IsTotal (List String) (CycleLEWith L) := ⟨cycleLeWith_total L⟩
  haveI : IsTrans (List String) (CycleLEWith L) := ⟨cycleLeWith_trans L⟩
  refine @eq_of_perm_pairwise_antisymmOn (List String) (CycleLEWith L) _ _
    (hp1.trans (hperm.trans hp2.symm)) ?_ ?_ ?_
  · exact @List.sorted_insertionSort _ (CycleLEWith L) (cycleLeWithDec L) _ _ _
  · exact @List.sorted_insertionSort _ (CycleLEWith L) (cycleLeWithDec L) _ _ _
  · intro a ha b hb
    exact cycle_antisymmOn_with L hanti g₁ a (hp1.mem_iff.mp ha) b (hp1.mem_iff.mp hb)

theorem couplingLeWith_antisymm (L : LocaleOrder)
    (hanti : ∀ a b : String, L.le a b = true → L.le b a = true → a = b) :
    ∀ a b : CouplingEntry, CouplingLEWith L a b → CouplingLEWith L b a → a = b := by
  intro a b hab hba
  obtain ⟨an, ac⟩ := a
  obtain ⟨bn, bc⟩ := b
  unfold CouplingLEWith at hab hba
  dsimp only at hab hba
  rcases hab with h | ⟨h1, h2⟩
  · rcases hba with h' | ⟨h1', h2'⟩
    · omega
    · omega
  · rcases hba with h' | ⟨h1', h2'⟩
    · omega
    · have hn : an = bn := hanti an bn h2 h2'
      rw [h1, hn]

/-- Under every antisymmetric collation model, `findHighCouplingNodes`
depends only on the node and edge sets. -/
theorem findHighCouplingNodesWith_order_invariant (L : LocaleOrder)
    (hanti : ∀ a b : String, L.le a b = true → L.le b a = true → a = b)
    (g₁ g₂ : Graph) (hn : g₁.nodes.Perm g₂.nodes) (he : g₁.edges.Perm g₂.edges)
    (tIn tOut : Nat) :
    findHighCouplingNodesWith L g₁ tIn tOut = findHighCouplingNodesWith L g₂ tIn tOut := by
  obtain ⟨hfi, hfo⟩ := computeFanInOut_perm g₁ g₂ hn he
  haveI : IsTotal CouplingEntry (CouplingLEWith L) := ⟨couplingLeWith_total L⟩
  haveI : IsTrans CouplingEntry (CouplingLEWith L) := ⟨couplingLeWith_trans L⟩
  haveI : IsAntisymm CouplingEntry (CouplingLEWith L) := ⟨couplingLeWith_antisymm L hanti⟩
  have hIn : @List.insertionSort _ (CouplingLEWith L) (couplingLeWithDec L)
      (((computeFanInOut g₁).fanIn.filter (fun p => tIn ≤ p.2)).map
        (fun p => CouplingEntry.mk p.1 p.2)) =
      @List.insertionSort _ (CouplingLEWith L) (couplingLeWithDec L)
      (((computeFanInOut g₂).fanIn.filter (fun p => tIn ≤ p.2)).map
        (fun p => CouplingEntry.mk p.1 p.2)) := by
    have hp : (((computeFanInOut g₁).fanIn.filter (fun p => tIn ≤ p.2)).map
        (fun p => CouplingEntry.mk p.1 p.2)).Perm
        (((computeFanInOut g₂).fanIn.filter (fun p => tIn ≤ p.2)).map
        (fun p => CouplingEntry.mk p.1 p.2)) := (hfi.filter _).map _
    have hs1 : List.Sorted (CouplingLEWith L) (@List.insertionSort _ (CouplingLEWith L)
        (couplingLeWithDec L) (((computeFanInOut g₁).fanIn.filter (fun p => tIn ≤ p.2)).map
          (fun p => CouplingEntry.mk p.1 p.2))) :=
      @List.sorted_insertionSort _ (CouplingLEWith L) (couplingLeWithDec L) _ _ _
    have hs2 : List.Sorted (CouplingLEWith L) (@List.insertionSort _ (CouplingLEWith L)
        (couplingLeWithDec L) (((computeFanInOut g₂).fanIn.filter (fun p => tIn ≤ p.2)).map
          (fun p => CouplingEntry.mk p.1 p.2))) :=
      @List.sorted_insertionSort _ (CouplingLEWith L) (couplingLeWithDec L) _ _ _
    exact List.eq_of_perm_of_sorted
      ((@List.perm_insertionSort _ (CouplingLEWith L) (couplingLeWithDec L) _).trans
        (hp.trans (@List.perm_insertionSort _ (CouplingLEWith L)
          (couplingLeWithDec L) _).symm)) hs1 hs2
  have hOut : @List.insertionSort _ (CouplingLEWith L) (couplingLeWithDec L)
      (((computeFanInOut g₁).fanOut.filter (fun p => tOut ≤ p.2)).map
        (fun p => CouplingEntry.mk p.1 p.2)) =
      @List.insertionSort _ (CouplingLEWith L) (couplingLeWithDec L)
      (((computeFanInOut g₂).fanOut.filter (fun p => tOut ≤ p.2)).map
        (fun p => CouplingEntry.mk p.1 p.2)) := by
    have hp : (((computeFanInOut g₁).fanOut.filter (fun p => tOut ≤ p.2)).map
        (fun p => CouplingEntry.mk p.1 p.2)).Perm
        (((computeFanInOut g₂).fanOut.filter (fun p => tOut ≤ p.2)).map
        (fun p => CouplingEntry.mk p.1 p.2)) := (hfo.filter _).map _
    have hs1 : List.Sorted (CouplingLEWith L) (@List.insertionSort _ (CouplingLEWith L)
        (couplingLeWithDec L) (((computeFanInOut g₁).fanOut.filter (fun p => tOut ≤ p.2)).map
          (fun p => CouplingEntry.mk p.1 p.2))) :=
      @List.sorted_insertionSort _ (CouplingLEWith L) (couplingLeWithDec L) _ _ _
    have hs2 : List.Sorted (CouplingLEWith L) (@List.insertionSort _ (CouplingLEWith L)
        (couplingLeWithDec L) (((computeFanInOut g₂).fanOut.filter (fun p => tOut ≤ p.2)).map
          (fun p => CouplingEntry.mk p.1 p.2))) :=
      @List.sorted_insertionSort _ (CouplingLEWith L) (couplingLeWithDec L) _ _ _
    exact List.eq_of_perm_of_sorted
      ((@List.perm_insertionSort _ (CouplingLEWith L) (couplingLeWithDec L) _).trans
        (hp.trans (@List.perm_insertionSort _ (CouplingLEWith L)
          (couplingLeWithDec L) _).symm)) hs1 hs2
  unfold findHighCouplingNodesWith
  dsimp only
  rw [hIn, hOut]

/-- The code-point collation is antisymmetric. -/
theorem codePoint_antisymm : ∀ a b : String,
    codePointOrder.le a b = true → codePointOrder.le b a = true → a = b :=
  fun a b h1 h2 => (codePoint_eqv_iff a b).mp ⟨h1, h2⟩

/-- Membership in the collation-generic `highFanIn` agrees with the
code-point one: only the order differs. -/
theorem mem_highFanInWith (L : LocaleOrder) (g : Graph) (tIn tOut : Nat)
    (en : CouplingEntry) :
    en ∈ (findHighCouplingNodesWith L g tIn tOut).highFanIn ↔
      en.node ∈ g.nodes ∧ en.count = (g.predecessors en.node).length ∧ tIn ≤ en.count := by
  have hplain := mem_highFanIn g tIn tOut en
  unfold findHighCouplingNodes at hplain
  dsimp only at hplain
  rw [(@List.perm_insertionSort _ CouplingLE couplingLeDec _).mem_iff] at hplain
  unfold findHighCouplingNodesWith
  dsimp only
  rw [(@List.perm_insertionSort _ (CouplingLEWith L) (couplingLeWithDec L) _).mem_iff]
  exact hplain

theorem mem_highFanOutWith (L : LocaleOrder) (g : Graph) (tIn tOut : Nat)
    (en : CouplingEntry) :
    en ∈ (findHighCouplingNodesWith L g tIn tOut).highFanOut ↔
      en.node ∈ g.nodes ∧ en.count = (g.successors en.node).length ∧ tOut ≤ en.count := by
  have hplain := mem_highFanOut g tIn tOut en
  unfold findHighCouplingNodes at hplain
  dsimp only at hplain
  rw [(@List.perm_insertionSort _ CouplingLE couplingLeDec _).mem_iff] at hplain
  unfold findHighCouplingNodesWith
  dsimp only
  rw [(@List.perm_insertionSort _ (CouplingLEWith L) (couplingLeWithDec L) _).mem_iff]
  exact hplain

/-- C2 (amended): every returned cycle is the code-point-sorted,
duplicate-free list of its member nodes (the inner sort is the default JS
sort), and the cycle list is ordered by the `localeCompare`-smallest member
first, then by length — under whatever collation the runtime provides.
Only in the code-point collation model, where `findCyclesWith
codePointOrder` is the transcribed `findCycles`, is the list ordered by
code-point-lexicographically smallest member; a collation that, like ICU,
orders "a" before "B" yields a different order on mixed-case names (see the
counterexample). -/
theorem C2_amended (L : LocaleOrder) (g : Graph) :
    (∀ c ∈ findCyclesWith L g, List.Sorted (fun a b => a ≤ b) c ∧ c.Nodup ∧ c ≠ []) ∧
    List.Pairwise (CycleLEWith L) (findCyclesWith L g) ∧
    findCyclesWith codePointOrder g = findCycles g ∧
    List.Pairwise CycleOrder (findCycles g) :=
  ⟨findCyclesWith_each L g, findCyclesWith_sorted L g, findCyclesWith_codePoint g,
    findCycles_cycleOrder g⟩

/-- C2 counterexample: under a collation that, like ICU in Node, orders "a"
strictly before "B" (the case-folded model; Node reports a positive
`"B".localeCompare("a")`), the program returns the cycle list
`[["a"], ["B"]]` on two self-loops — not sorted by lexicographically
(code-point) smallest member, since "B" precedes "a" in code points; the
code-point model returns the opposite order.  The claimed lexicographic
ordering therefore fails on mixed-case names. -/
theorem C2_counterexample :
    caseFoldOrder.le "a" "B" = true ∧ caseFoldOrder.le "B" "a" = false ∧
    codePointOrder.le "B" "a" = true ∧ codePointOrder.le "a" "B" = false ∧
    findCyclesWith caseFoldOrder (buildGraph [("B", ["B"]), ("a", ["a"])]) = [["a"], ["B"]] ∧
    findCycles (buildGraph [("B", ["B"]), ("a", ["a"])]) = [["B"], ["a"]] := by
  decide

/-- C5 (amended): `findHighCouplingNodes` keeps exactly the nodes whose
distinct predecessor (resp. successor) count meets the fan-in (fan-out)
threshold, with defaults 5 and 10, sorted by count descending with ties
broken by `a.node.localeCompare(b.node)` ascending — under whatever
collation the runtime provides.  The tie order is code-point-alphabetical
only in the code-point collation model, where `findHighCouplingNodesWith
codePointOrder` is the transcribed `findHighCouplingNodes`. -/
theorem C5_amended (L : LocaleOrder) (g : Graph) (hWF : g.WF) (tIn tOut : Nat) :
    (∀ en, en ∈ (findHighCouplingNodesWith L g tIn tOut).highFanIn ↔
      en.node ∈ g.nodes ∧ en.count = (g.predecessors en.node).toFinset.card ∧ tIn ≤ en.count) ∧
    (∀ en, en ∈ (findHighCouplingNodesWith L g tIn tOut).highFanOut ↔
      en.node ∈ g.nodes ∧ en.count = (g.successors en.node).toFinset.card ∧ tOut ≤ en.count) ∧
    List.Sorted (CouplingLEWith L) (findHighCouplingNodesWith L g tIn tOut).highFanIn ∧
    List.Sorted (CouplingLEWith L) (findHighCouplingNodesWith L g tIn tOut).highFanOut ∧
    findHighCouplingNodesWith L g = findHighCouplingNodesWith L g 5 10 ∧
    findHighCouplingNodesWith codePointOrder g tIn tOut = findHighCouplingNodes g tIn tOut := by
  haveI : IsTotal CouplingEntry (CouplingLEWith L) := ⟨couplingLeWith_total L⟩
  haveI : IsTrans CouplingEntry (CouplingLEWith L) := ⟨couplingLeWith_trans L⟩
  refine ⟨?_, ?_, ?_, ?_, rfl, findHighCouplingNodesWith_codePoint g tIn tOut⟩
  · intro en
    rw [mem_highFanInWith, List.toFinset_card_of_nodup (predecessors_nodup g hWF.2.1 en.node)]
  · intro en
    rw [mem_highFanOutWith, List.toFinset_card_of_nodup (successors_nodup g hWF.2.1 en.node)]
  · exact @List.sorted_insertionSort _ (CouplingLEWith L) (couplingLeWithDec L) _ _ _
  · exact @List.sorted_insertionSort _ (CouplingLEWith L) (couplingLeWithDec L) _ _ _

/-- C5 counterexample: two nodes "B" and "a" with equal qualifying fan-in.
Under a collation that, like ICU in Node, orders "a" strictly before "B"
(the case-folded model), the program lists "a" first; the claimed
code-point-alphabetical tie-break would list "B" first, as the code-point
model does. -/
theorem C5_counterexample :
    caseFoldOrder.le "a" "B" = true ∧ caseFoldOrder.le "B" "a" = false ∧
    codePointOrder.le "B" "a" = true ∧ codePointOrder.le "a" "B" = false ∧
    (findHighCouplingNodesWith caseFoldOrder (buildGraph [("x", ["B", "a"])]) 1 1).highFanIn =
      [CouplingEntry.mk "a" 1, CouplingEntry.mk "B" 1] ∧
    (findHighCouplingNodes (buildGraph [("x", ["B", "a"])]) 1 1).highFanIn =
      [CouplingEntry.mk "B" 1, CouplingEntry.mk "a" 1] := by
  decide

/-- Witness for the amended C5: the characterization under the code-point
collation model applied to a concretely built graph with thresholds 1
and 1. -/
theorem C5_amended_witness :
    (buildGraph [("a", ["b"]), ("c", ["b"])]).WF ∧
    (CouplingEntry.mk "b" 2 ∈
        (findHighCouplingNodesWith codePointOrder
          (buildGraph [("a", ["b"]), ("c", ["b"])]) 1 1).highFanIn ↔
      "b" ∈ (buildGraph [("a", ["b"]), ("c", ["b"])]).nodes ∧
      2 = ((buildGraph [("a", ["b"]), ("c", ["b"])]).predecessors "b").toFinset.card ∧
      1 ≤ 2) :=
  ⟨by decide,
    (C5_amended codePointOrder (buildGraph [("a", ["b"]), ("c", ["b"])]) (by decide) 1 1).1
      (CouplingEntry.mk "b" 2)⟩

/-- C7 (amended): repeated calls are trivially identical since the embedded
functions are pure.  Across construction orders, `findCycles` and
`findHighCouplingNodes` return identical results on well-formed graphs with
the same node and edge sets whenever the runtime collation is antisymmetric
on strings — in particular in the code-point collation model; real
`localeCompare` may equate distinct canonically-equivalent names, and then
even `findCycles` can depend on construction order (see the counterexample).
`computeFanInOut` agrees across construction orders only up to the ordering
of its record keys, which follows node insertion order. -/
theorem C7_amended (L : LocaleOrder)
    (hanti : ∀ a b : String, L.le a b = true → L.le b a = true → a = b)
    (g₁ g₂ : Graph) (h₁ : g₁.WF) (h₂ : g₂.WF)
    (hn : g₁.nodes.Perm g₂.nodes) (he : g₁.edges.Perm g₂.edges) :
    findCyclesWith L g₁ = findCyclesWith L g₂ ∧
    (∀ tIn tOut : Nat,
      findHighCouplingNodesWith L g₁ tIn tOut = findHighCouplingNodesWith L g₂ tIn tOut) ∧
    (computeFanInOut g₁).fanIn.Perm (computeFanInOut g₂).fanIn ∧
    (computeFanInOut g₁).fanOut.Perm (computeFanInOut g₂).fanOut := by
  obtain ⟨hfi, hfo⟩ := computeFanInOut_perm g₁ g₂ hn he
  exact ⟨findCyclesWith_order_invariant L hanti g₁ g₂ h₁ h₂
      (fun x => hn.mem_iff) (fun e => he.mem_iff),
    fun tIn tOut => findHighCouplingNodesWith_order_invariant L hanti g₁ g₂ hn he tIn tOut,
    hfi, hfo⟩

/-- C7 counterexample: two failure modes of the claimed construction-order
determinism.  First, `computeFanInOut` on two well-formed graphs with
identical node and edge sets built in different orders returns different
records (keys in insertion order).  Second, under a collation that equates
two distinct node names (the case-folded model equates "a" and "A", as real
`localeCompare` equates distinct canonically-equivalent names), even
`findCycles` returns differently ordered cycle lists for the two
construction orders of the same node and edge sets: the tie is resolved by
the stable sort from insertion order. -/
theorem C7_counterexample :
    (buildGraph [("a", ["b"]), ("b", ([] : List String))]).WF ∧
    (buildGraph [("b", ([] : List String)), ("a", ["b"])]).WF ∧
    (buildGraph [("a", ["b"]), ("b", ([] : List String))]).nodes.Perm
      (buildGraph [("b", ([] : List String)), ("a", ["b"])]).nodes ∧
    (buildGraph [("a", ["b"]), ("b", ([] : List String))]).edges.Perm
      (buildGraph [("b", ([] : List String)), ("a", ["b"])]).edges ∧
    computeFanInOut (buildGraph [("a", ["b"]), ("b", ([] : List String))]) ≠
      computeFanInOut (buildGraph [("b", ([] : List String)), ("a", ["b"])]) ∧
    (buildGraph [("a", ["a"]), ("A", ["A"])]).nodes.Perm
      (buildGraph [("A", ["A"]), ("a", ["a"])]).nodes ∧
    (buildGraph [("a", ["a"]), ("A", ["A"])]).edges.Perm
      (buildGraph [("A", ["A"]), ("a", ["a"])]).edges ∧
    caseFoldOrder.le "a" "A" = true ∧ caseFoldOrder.le "A" "a" = true ∧
    ("a" : String) ≠ "A" ∧
    findCyclesWith caseFoldOrder (buildGraph [("a", ["a"]), ("A", ["A"])]) = [["a"], ["A"]] ∧
    findCyclesWith caseFoldOrder (buildGraph [("A", ["A"]), ("a", ["a"])]) = [["A"], ["a"]] := by
  decide

/-- Witness for the amended C7 at a concrete pair of graphs built in
different construction orders, in the code-point collation model (which is
antisymmetric). -/
theorem C7_amended_witness :
    findCyclesWith codePointOrder (buildGraph [("a", ["b"]), ("b", ([] : List String))]) =
      findCyclesWith codePointOrder (buildGraph [("b", ([] : List String)), ("a", ["b"])]) ∧
    findHighCouplingNodesWith codePointOrder
        (buildGraph [("a", ["b"]), ("b", ([] : List String))]) 5 10 =
      findHighCouplingNodesWith codePointOrder
        (buildGraph [("b", ([] : List String)), ("a", ["b"])]) 5 10 ∧
    (computeFanInOut (buildGraph [("a", ["b"]), ("b", ([] : List String))])).fanIn.Perm
      (computeFanInOut (buildGraph [("b", ([] : List String)), ("a", ["b"])])).fanIn :=
  have h := C7_amended codePointOrder codePoint_antisymm
    (buildGraph [("a", ["b"]), ("b", ([] : List String))])
    (buildGraph [("b", ([] : List String)), ("a", ["b"])])
    (by decide) (by decide) (by decide) (by decide)
  ⟨h.1, h.2.1 5 10, h.2.2.1⟩

end AIAnalyzer
